import Mathlib

/-!
Shallow embedding of the DXVK barrier tracker (`src/dxvk/dxvk_barrier.h`)
together with the auxiliary definitions needed to verify the frozen claims.

Machine integers are modelled as `Nat` with explicit `% 2^w` wherever the
C++ arithmetic can wrap (hash computations, packed bit headers, constructor
sums).  Monotone 64-bit counters (`m_version`, `m_used`) and container sizes
are modelled as exact naturals: the C++ values agree with them on every
execution shorter than `2^64` steps, and no operation in the source relies
on their wrapping.
-/

set_option autoImplicit false

namespace Dxvk

/-- Access classes distinguished by the tracker.  The enum lives in a header
that is not part of this repository slice; the spec (§3.2) requires at least
`Read` and `Write`, which are the only members the barrier code mentions. -/
inductive DxvkAccess where
  | Read : DxvkAccess
  | Write : DxvkAccess
deriving DecidableEq, Repr

/-- Bitset of access classes (`DxvkAccessFlags`), modelled from the spec
(§3.2, §6): a flag set over `{Read, Write}` supporting union (`set`),
`test` and equality. -/
structure DxvkAccessFlags where
  read : Bool
  write : Bool
deriving DecidableEq, Repr

namespace DxvkAccessFlags

/-- The empty flag set (`DxvkAccessFlags()`). -/
def none : DxvkAccessFlags := ⟨false, false⟩

/-- Flag set containing a single access class. -/
def single (a : DxvkAccess) : DxvkAccessFlags :=
  match a with
  | .Read => ⟨true, false⟩
  | .Write => ⟨false, true⟩

/-- Union of two flag sets (`DxvkAccessFlags::set` / `operator |`). -/
def set (a b : DxvkAccessFlags) : DxvkAccessFlags :=
  ⟨a.read || b.read, a.write || b.write⟩

/-- Membership test (`DxvkAccessFlags::test`). -/
def test (f : DxvkAccessFlags) (a : DxvkAccess) : Bool :=
  match a with
  | .Read => f.read
  | .Write => f.write

/-- Boolean subset order on flag sets (verification helper, not from the
source: `le a b` says every flag of `a` is set in `b`). -/
def le (a b : DxvkAccessFlags) : Bool :=
  (!a.read || b.read) && (!a.write || b.write)

end DxvkAccessFlags

/-- `DxvkAddressRange`: resource handle plus an inclusive 32-bit range
(`dxvk_barrier.h` lines 15-42). -/
structure DxvkAddressRange where
  resource : Nat
  rangeStart : Nat
  rangeEnd : Nat
deriving DecidableEq, Repr

namespace DxvkAddressRange

/-- `DxvkAddressRange::contains`. -/
def containsRange (a other : DxvkAddressRange) : Bool :=
  a.resource == other.resource
    && a.rangeStart ≤ other.rangeStart
    && a.rangeEnd ≥ other.rangeEnd

/-- `DxvkAddressRange::overlaps`. -/
def overlapsRange (a other : DxvkAddressRange) : Bool :=
  a.resource == other.resource
    && a.rangeEnd ≥ other.rangeStart
    && a.rangeStart ≤ other.rangeEnd

/-- `DxvkAddressRange::lt`. -/
def lt (a other : DxvkAddressRange) : Bool :=
  (a.resource < other.resource)
    || (a.resource == other.resource && a.rangeStart < other.rangeStart)

end DxvkAddressRange

/-! ## Packed red-black tree node header (`DxvkBarrierTreeNode`) -/

namespace DxvkBarrierTreeNode

/-- `DxvkBarrierTreeNode::NodeIndexMask = (1 << 21) - 1`. -/
def NodeIndexMask : Nat := 2 ^ 21 - 1

/-- Complement of `NodeIndexMask << shift` within a 64-bit word
(`~(NodeIndexMask << shift)` evaluated in `uint64_t`). -/
def clearMask (shift : Nat) : Nat :=
  (2 ^ 64 - 1) ^^^ (NodeIndexMask <<< shift)

/-- `setRed`: `header &= ~1; header |= red`. -/
def setRed (header : Nat) (red : Bool) : Nat :=
  (header &&& ((2 ^ 64 - 1) ^^^ 1)) ||| (cond red 1 0)

/-- `isRed`: `header & 1`. -/
def isRed (header : Nat) : Bool :=
  header &&& 1 != 0

/-- `setParent`: clear bits `[43:63]`, or in `node << 43` (wrapping at
64 bits as the `uint64_t` shift does). -/
def setParent (header : Nat) (node : Nat) : Nat :=
  (header &&& clearMask 43) ||| ((node <<< 43) % 2 ^ 64)

/-- `setChild`: child 0 lives at bits `[1:21]`, any nonzero index selects
bits `[22:42]` (`index ? 22 : 1`). -/
def setChild (header : Nat) (index : Nat) (node : Nat) : Nat :=
  let shift := if index ≠ 0 then 22 else 1
  (header &&& clearMask shift) ||| ((node <<< shift) % 2 ^ 64)

/-- `parent`: `(header >> 43) & NodeIndexMask`. -/
def parent (header : Nat) : Nat :=
  (header >>> 43) &&& NodeIndexMask

/-- `child`: `(header >> (index ? 22 : 1)) & NodeIndexMask`. -/
def child (header : Nat) (index : Nat) : Nat :=
  let shift := if index ≠ 0 then 22 else 1
  (header >>> shift) &&& NodeIndexMask

/-- Verification helper: store a 21-bit field at an arbitrary shift (the
shape shared by `setParent` and both `setChild` variants). -/
def setAt (header v shift : Nat) : Nat :=
  (header &&& clearMask shift) ||| ((v <<< shift) % 2 ^ 64)

/-- Verification helper: read the 21-bit field at an arbitrary shift. -/
def getAt (header shift : Nat) : Nat :=
  (header >>> shift) &&& NodeIndexMask

end DxvkBarrierTreeNode

/-! ## Range tracker bucket routing (`DxvkBarrierTracker::computeRootIndex`) -/

/-- `DxvkBarrierTracker::HashTableSize`. -/
def HashTableSize : Nat := 32

/-- `DxvkBarrierTracker::computeRootIndex` (`dxvk_barrier.h` lines 187-198):
`hash = size_t(resource) * 93887; hash ^= hash >> 16;` followed by
`1 + hash % 32 + (access == Write ? 32 : 0)`.  The multiplication wraps in
64-bit `size_t`. -/
def computeRootIndex (range : DxvkAddressRange) (access : DxvkAccess) : Nat :=
  let hash := (range.resource * 93887) % 2 ^ 64
  let hash := hash ^^^ (hash >>> 16)
  1 + (hash % HashTableSize) + (if access = DxvkAccess.Write then HashTableSize else 0)

/-- The bucket formula exactly as the spec states it (§3.4):
`h = resource * 93887; h ^= h >> 16; bucket = 1 + (h mod 32) +
(access == Write ? 32 : 0)`, with wraparound machine arithmetic. -/
def specBucketIndex (resource : Nat) (access : DxvkAccess) : Nat :=
  let h := (resource * 93887) % 2 ^ 64
  let h := h ^^^ (h >>> 16)
  1 + (h % 32) + (if access = DxvkAccess.Write then 32 else 0)

/-! ## Range tracker state

`DxvkBarrierTracker::findRange` / `insertRange` are declared in
`dxvk_barrier.h` (lines 122-134) but implemented in `dxvk_barrier.cpp`,
which is not part of this repository slice.  The state and both operations
are therefore modelled from the spec (§4.1, §4.2): each bucket of the
implicit 64-entry hash table holds a set of address ranges (the red-black
tree is a performance device; the spec describes lookup as "find a node
whose range contains the query" and insertion as "merge every
overlapping-or-contained node into a widened representative"). -/

/-- Modelled from the spec: tracker state maps each root index (bucket) to
the ranges currently stored in that bucket's tree.  Missing source:
`DxvkBarrierTracker` internals in `dxvk_barrier.cpp`. -/
def TrackerState : Type := Nat → List DxvkAddressRange

/-- Fresh tracker: every bucket tree is empty. -/
def TrackerState.init : TrackerState := fun _ => []

/-- Union of two address ranges on the same resource
(`min(start), max(end)` widening of spec §4.2 step 3). -/
def rangeUnion (a b : DxvkAddressRange) : DxvkAddressRange :=
  ⟨a.resource, min a.rangeStart b.rangeStart, max a.rangeEnd b.rangeEnd⟩

/-- Modelled from the spec (§4.2): insert a range into one bucket.  If some
node already contains the new range, nothing changes; while the new range
contains or overlaps an existing node, widen the new range to the union and
drop that node; finally store the widened range.  Missing source:
`DxvkBarrierTracker::insertNode` / `removeNode` in `dxvk_barrier.cpp`. -/
def bucketInsert : Nat → List DxvkAddressRange → DxvkAddressRange → List DxvkAddressRange
  | 0, nodes, range => nodes ++ [range]
  | fuel + 1, nodes, range =>
    match nodes.find? (fun n => n.containsRange range) with
    | some _ => nodes
    | Option.none =>
      match nodes.find? (fun n => range.containsRange n || range.overlapsRange n) with
      | some n => bucketInsert fuel (nodes.erase n) (rangeUnion range n)
      | Option.none => nodes ++ [range]

/-- Modelled from the spec (§4.2): `DxvkBarrierTracker::insertRange` routes
the range to the bucket selected by `computeRootIndex` and inserts it
there. -/
def TrackerState.insertRange (s : TrackerState) (range : DxvkAddressRange)
    (access : DxvkAccess) : TrackerState :=
  let b := computeRootIndex range access
  fun i => if i = b then bucketInsert ((s b).length + 1) (s b) range else s i

/-- Does some node of the bucket contain the query range (spec §4.1 tree
walk: return true iff a node's range contains the query)? -/
def bucketContains (nodes : List DxvkAddressRange) (q : DxvkAddressRange) : Bool :=
  nodes.any (fun n => n.containsRange q)

/-- Modelled from the spec (§4.1): `DxvkBarrierTracker::findRange` searches
the write bucket always, and additionally the read bucket when the queried
access is `Write`. -/
def TrackerState.findRange (s : TrackerState) (q : DxvkAddressRange)
    (access : DxvkAccess) : Bool :=
  (access == DxvkAccess.Write && bucketContains (s (computeRootIndex q DxvkAccess.Read)) q)
    || bucketContains (s (computeRootIndex q DxvkAccess.Write)) q

/-- Run a list of `insertRange` calls from the fresh tracker. -/
def runTracker (ops : List (DxvkAddressRange × DxvkAccess)) : TrackerState :=
  ops.foldl (fun s op => s.insertRange op.1 op.2) TrackerState.init

/-! ## Buffer slices (`DxvkBarrierBufferSlice`, lines 271-352) -/

/-- `DxvkBarrierBufferSlice`: low address, high address (exclusive) and
access flags. -/
structure DxvkBarrierBufferSlice where
  loAddr : Nat
  hiAddr : Nat
  access : DxvkAccessFlags
deriving DecidableEq, Repr

namespace DxvkBarrierBufferSlice

/-- Constructor `DxvkBarrierBufferSlice(offset, length, access)`:
`m_hiAddr = offset + length` in 64-bit `VkDeviceSize` arithmetic. -/
def ofRange (offset length : Nat) (access : DxvkAccessFlags) : DxvkBarrierBufferSlice :=
  ⟨offset % 2 ^ 64, (offset + length) % 2 ^ 64, access⟩

/-- `DxvkBarrierBufferSlice::overlaps`. -/
def overlapsSlice (a slice : DxvkBarrierBufferSlice) : Bool :=
  a.hiAddr > slice.loAddr && a.loAddr < slice.hiAddr

/-- `DxvkBarrierBufferSlice::isDirty`. -/
def isDirtySlice (a slice : DxvkBarrierBufferSlice) : Bool :=
  (slice.access.set a.access).test DxvkAccess.Write && a.overlapsSlice slice

/-- `DxvkBarrierBufferSlice::canMerge`. -/
def canMergeSlice (a slice : DxvkBarrierBufferSlice) : Bool :=
  if a.access = slice.access then
    a.hiAddr ≥ slice.loAddr && a.loAddr ≤ slice.hiAddr
  else
    a.loAddr == slice.loAddr && a.hiAddr == slice.hiAddr

/-- `DxvkBarrierBufferSlice::merge`. -/
def mergeSlice (a slice : DxvkBarrierBufferSlice) : DxvkBarrierBufferSlice :=
  ⟨min a.loAddr slice.loAddr, max a.hiAddr slice.hiAddr, a.access.set slice.access⟩

/-- `DxvkBarrierBufferSlice::getAccess`. -/
def getAccessSlice (a : DxvkBarrierBufferSlice) : DxvkAccessFlags := a.access

/-- Verification order (not from the source): `b` is covered by `a` when
`a`'s byte range includes `b`'s and `a`'s flags include `b`'s. -/
def leSlice (b a : DxvkBarrierBufferSlice) : Bool :=
  a.loAddr ≤ b.loAddr && b.hiAddr ≤ a.hiAddr && b.access.le a.access

/-- A buffer slice is nonempty when it covers at least one byte. -/
def nonempty (a : DxvkBarrierBufferSlice) : Bool :=
  a.loAddr < a.hiAddr

end DxvkBarrierBufferSlice

/-! ## Image slices (`DxvkBarrierImageSlice`, lines 361-469) -/

/-- `DxvkBarrierImageSlice`: aspect mask, layer range, mip level range
(exclusive highs) and access flags. -/
structure DxvkBarrierImageSlice where
  aspects : Nat
  minLayer : Nat
  maxLayer : Nat
  minLevel : Nat
  maxLevel : Nat
  access : DxvkAccessFlags
deriving DecidableEq, Repr

namespace DxvkBarrierImageSlice

/-- Constructor from a `VkImageSubresourceRange`; the sums wrap in 32-bit
`uint32_t` arithmetic. -/
def ofRange (aspectMask baseArrayLayer layerCount baseMipLevel levelCount : Nat)
    (access : DxvkAccessFlags) : DxvkBarrierImageSlice :=
  ⟨aspectMask % 2 ^ 32, baseArrayLayer % 2 ^ 32,
    (baseArrayLayer + layerCount) % 2 ^ 32, baseMipLevel % 2 ^ 32,
    (baseMipLevel + levelCount) % 2 ^ 32, access⟩

/-- `DxvkBarrierImageSlice::overlaps`. -/
def overlapsSlice (a slice : DxvkBarrierImageSlice) : Bool :=
  (a.aspects &&& slice.aspects) != 0
    && a.minLayer < slice.maxLayer
    && a.maxLayer > slice.minLayer
    && a.minLevel < slice.maxLevel
    && a.maxLevel > slice.minLevel

/-- `DxvkBarrierImageSlice::isDirty`. -/
def isDirtySlice (a slice : DxvkBarrierImageSlice) : Bool :=
  (slice.access.set a.access).test DxvkAccess.Write && a.overlapsSlice slice

/-- `DxvkBarrierImageSlice::canMerge` (lines 414-433): when layer-range
equality coincides with level-range equality the result is that shared
truth value; otherwise equal access flags plus a touching range on the
differing axis are required. -/
def canMergeSlice (a slice : DxvkBarrierImageSlice) : Bool :=
  let sameLayers := a.minLayer == slice.minLayer && a.maxLayer == slice.maxLayer
  let sameLevels := a.minLevel == slice.minLevel && a.maxLevel == slice.maxLevel
  if sameLayers = sameLevels then
    sameLayers
  else if a.access ≠ slice.access then
    false
  else if sameLayers then
    a.maxLevel ≥ slice.minLevel && a.minLevel ≤ slice.maxLevel
  else
    a.maxLayer ≥ slice.minLayer && a.minLayer ≤ slice.maxLayer

/-- `DxvkBarrierImageSlice::merge`. -/
def mergeSlice (a slice : DxvkBarrierImageSlice) : DxvkBarrierImageSlice :=
  ⟨a.aspects ||| slice.aspects,
    min a.minLayer slice.minLayer, max a.maxLayer slice.maxLayer,
    min a.minLevel slice.minLevel, max a.maxLevel slice.maxLevel,
    a.access.set slice.access⟩

/-- `DxvkBarrierImageSlice::getAccess`. -/
def getAccessSlice (a : DxvkBarrierImageSlice) : DxvkAccessFlags := a.access

/-- Verification order (not from the source): `b` is covered by `a` when
`a`'s aspects, layer range, level range and flags all include `b`'s. -/
def leSlice (b a : DxvkBarrierImageSlice) : Bool :=
  (b.aspects &&& a.aspects) == b.aspects
    && a.minLayer ≤ b.minLayer && b.maxLayer ≤ a.maxLayer
    && a.minLevel ≤ b.minLevel && b.maxLevel ≤ a.maxLevel
    && b.access.le a.access

/-- An image slice is nonempty when it has at least one aspect bit, one
layer and one level. -/
def nonempty (a : DxvkBarrierImageSlice) : Bool :=
  a.aspects != 0 && a.minLayer < a.maxLayer && a.minLevel < a.maxLevel

end DxvkBarrierImageSlice

/-! ## Generic slice interface used by `DxvkBarrierSubresourceSet<K, T>` -/

/-- Operations a slice type offers to the subresource set.  `isImage`
captures the `std::is_same_v<T, DxvkBarrierImageSlice>` compile-time branch
in `insert`.  `dflt` is the value produced by the slice's default
constructor (used by `std::vector::resize`).  `covers` and `nonemptyb` are
verification helpers, not source operations. -/
class BarrierSlice (T : Type) where
  overlapsB : T → T → Bool
  isDirtyB : T → T → Bool
  canMergeB : T → T → Bool
  mergeB : T → T → T
  accessB : T → DxvkAccessFlags
  isImage : Bool
  dflt : T
  covers : T → T → Bool
  nonemptyb : T → Bool

instance : BarrierSlice DxvkBarrierBufferSlice where
  overlapsB := DxvkBarrierBufferSlice.overlapsSlice
  isDirtyB := DxvkBarrierBufferSlice.isDirtySlice
  canMergeB := DxvkBarrierBufferSlice.canMergeSlice
  mergeB := DxvkBarrierBufferSlice.mergeSlice
  accessB := DxvkBarrierBufferSlice.getAccessSlice
  isImage := false
  dflt := ⟨0, 0, DxvkAccessFlags.none⟩
  covers := DxvkBarrierBufferSlice.leSlice
  nonemptyb := DxvkBarrierBufferSlice.nonempty

instance : BarrierSlice DxvkBarrierImageSlice where
  overlapsB := DxvkBarrierImageSlice.overlapsSlice
  isDirtyB := DxvkBarrierImageSlice.isDirtySlice
  canMergeB := DxvkBarrierImageSlice.canMergeSlice
  mergeB := DxvkBarrierImageSlice.mergeSlice
  accessB := DxvkBarrierImageSlice.getAccessSlice
  isImage := true
  dflt := ⟨0, 0, 0, 0, 0, DxvkAccessFlags.none⟩
  covers := DxvkBarrierImageSlice.leSlice
  nonemptyb := DxvkBarrierImageSlice.nonempty

/-- Laws the two slice instances satisfy: `covers` is a preorder
compatible with `mergeB`, `overlapsB`, `isDirtyB` and `accessB`, and
`isDirtyB` is overlap plus a `Write` flag on either side.  These are proved
for both instances below. -/
class LawfulBarrierSlice (T : Type) [BarrierSlice T] : Prop where
  covers_merge_left : ∀ a b : T,
    BarrierSlice.covers a (BarrierSlice.mergeB a b) = true
  covers_merge_right : ∀ a b : T,
    BarrierSlice.covers b (BarrierSlice.mergeB a b) = true
  covers_trans : ∀ a b c : T,
    BarrierSlice.covers a b = true → BarrierSlice.covers b c = true →
    BarrierSlice.covers a c = true
  covers_overlaps : ∀ t r x : T,
    BarrierSlice.covers t r = true → BarrierSlice.overlapsB t x = true →
    BarrierSlice.overlapsB r x = true
  covers_dirty : ∀ t r x : T,
    BarrierSlice.covers t r = true → BarrierSlice.isDirtyB t x = true →
    BarrierSlice.isDirtyB r x = true
  covers_access : ∀ t r : T,
    BarrierSlice.covers t r = true →
    (BarrierSlice.accessB t).le (BarrierSlice.accessB r) = true
  merge_mono_left : ∀ a c b : T,
    BarrierSlice.covers a c = true →
    BarrierSlice.covers (BarrierSlice.mergeB a b) (BarrierSlice.mergeB c b) = true
  dirty_spec : ∀ t q : T,
    BarrierSlice.isDirtyB t q =
      (((BarrierSlice.accessB q).set (BarrierSlice.accessB t)).test DxvkAccess.Write
        && BarrierSlice.overlapsB t q)
  covers_nonempty_overlaps : ∀ t r : T,
    BarrierSlice.covers t r = true → BarrierSlice.nonemptyb t = true →
    BarrierSlice.overlapsB r t = true

/-! ## Subresource set (`DxvkBarrierSubresourceSet<K, T>`, lines 481-750)

Keys are the opaque 64-bit handles (`VkBuffer`/`VkImage`), modelled as
naturals. -/

/-- `DxvkBarrierSubresourceSet::ListEntry`. -/
structure SubListEntry (T : Type) where
  data : T
  next : Nat
deriving DecidableEq, Repr

/-- `DxvkBarrierSubresourceSet::HashEntry`. -/
structure SubHashEntry (T : Type) where
  version : Nat
  key : Nat
  data : T
  next : Nat
deriving DecidableEq, Repr

/-- `DxvkBarrierSubresourceSet` state: version counter, live-entry count,
index mask, overflow list and open-addressed hash array, with the C++
default member initializers. -/
structure SubresourceSet (T : Type) where
  version : Nat := 1
  used : Nat := 0
  indexMask : Nat := 0
  list : List (SubListEntry T) := []
  hashMap : List (SubHashEntry T) := []
deriving DecidableEq, Repr

namespace SubresourceSet

variable {T : Type} [BarrierSlice T]

/-- `NoEntry = ~0u`. -/
def NoEntry : Nat := 2 ^ 32 - 1

/-- Fresh subresource set. -/
def init : SubresourceSet T := {}

/-- `computeHash`: `size_t(key) * 93887` with 64-bit wraparound, xored with
its own upper half. -/
def computeHash (key : Nat) : Nat :=
  let hash := (key * 93887) % 2 ^ 64
  hash ^^^ (hash >>> 16)

/-- `computeSize`: `m_indexMask ? m_indexMask + 1 : 0`. -/
def computeSize (s : SubresourceSet T) : Nat :=
  if s.indexMask ≠ 0 then s.indexMask + 1 else 0

/-- `computeIndex`. -/
def computeIndex (s : SubresourceSet T) (key : Nat) : Nat :=
  computeHash key &&& s.indexMask

/-- `advanceIndex`. -/
def advanceIndex (s : SubresourceSet T) (index : Nat) : Nat :=
  (index + 1) &&& s.indexMask

/-- List lookup shared by the walks below: a non-`NoEntry` index selects a
list slot.  The C++ indexes `m_list` unconditionally; out-of-range indices
(impossible in any reachable state) give `none`. -/
def getListEntryL (lst : List (SubListEntry T)) (index : Nat) : Option (SubListEntry T) :=
  if index < NoEntry then lst[index]? else Option.none

/-- `getListEntry`. -/
def getListEntry (s : SubresourceSet T) (index : Nat) : Option (SubListEntry T) :=
  getListEntryL s.list index

/-- Result of walking the open-addressed probe sequence: the key was found
at a slot, a dead (version-mismatched) slot was reached, or the walk ran
out of fuel (a state in which the C++ loop would never terminate). -/
inductive ProbeResult where
  | found : Nat → ProbeResult
  | free : Nat → ProbeResult
  | fail : ProbeResult
deriving DecidableEq, Repr

/-- The probe loop shared by `findHashEntry` and `insertHashEntry`:
`while (m_hashMap[index].version == m_version) { if key matches, stop;
index = advanceIndex(index); }`. -/
def probeLoop (s : SubresourceSet T) (key : Nat) : Nat → Nat → ProbeResult
  | 0, _ => ProbeResult.fail
  | fuel + 1, index =>
    match s.hashMap[index]? with
    | Option.none => ProbeResult.fail
    | some e =>
      if e.version = s.version then
        if e.key = key then ProbeResult.found index
        else probeLoop s key fuel (s.advanceIndex index)
      else ProbeResult.free index

/-- `findHashEntry`: `nullptr` when the set is unused, otherwise walk the
probe sequence until the key or a dead slot is found. -/
def findHashIdx (s : SubresourceSet T) (key : Nat) : Option Nat :=
  if s.used = 0 then Option.none
  else
    match probeLoop s key s.hashMap.length (s.computeIndex key) with
    | ProbeResult.found i => some i
    | _ => Option.none

/-- The hash entry `findHashEntry` returns, if any. -/
def findHashEntry (s : SubresourceSet T) (key : Nat) : Option (SubHashEntry T) :=
  (s.findHashIdx key).bind (fun i => s.hashMap[i]?)

/-- The accumulation loop of `getAccess`:
`while (list && access != entry->data.getAccess()) { if overlap, union the
flags; advance }`. -/
def walkAccess (lst : List (SubListEntry T)) (q : T) (stop : DxvkAccessFlags) :
    Nat → Nat → DxvkAccessFlags → DxvkAccessFlags
  | 0, _, acc => acc
  | fuel + 1, index, acc =>
    match getListEntryL lst index with
    | Option.none => acc
    | some l =>
      if acc = stop then acc
      else
        walkAccess lst q stop fuel l.next
          (if BarrierSlice.overlapsB l.data q then acc.set (BarrierSlice.accessB l.data) else acc)

/-- `DxvkBarrierSubresourceSet::getAccess` (lines 494-522). -/
def getAccess (s : SubresourceSet T) (resource : Nat) (slice : T) : DxvkAccessFlags :=
  match s.findHashEntry resource with
  | Option.none => DxvkAccessFlags.none
  | some entry =>
    if BarrierSlice.overlapsB entry.data slice = false then DxvkAccessFlags.none
    else
      match s.getListEntry entry.next with
      | Option.none => BarrierSlice.accessB entry.data
      | some _ =>
        walkAccess s.list slice (BarrierSlice.accessB entry.data)
          (s.list.length + 1) entry.next DxvkAccessFlags.none

/-- The scan loop of `isDirty`:
`while (list && !dirty) { dirty = list->data.isDirty(slice); advance }`. -/
def walkDirty (lst : List (SubListEntry T)) (q : T) : Nat → Nat → Bool → Bool
  | 0, _, dirty => dirty
  | fuel + 1, index, dirty =>
    match getListEntryL lst index with
    | Option.none => dirty
    | some l =>
      if dirty then dirty
      else walkDirty lst q fuel l.next (BarrierSlice.isDirtyB l.data q)

/-- `DxvkBarrierSubresourceSet::isDirty` (lines 533-560). -/
def isDirty (s : SubresourceSet T) (resource : Nat) (slice : T) : Bool :=
  match s.findHashEntry resource with
  | Option.none => false
  | some entry =>
    if BarrierSlice.isDirtyB entry.data slice = false then false
    else
      match s.getListEntry entry.next with
      | Option.none => true
      | some _ => walkDirty s.list slice (s.list.length + 1) entry.next false

/-- `m_hashMap.resize(newSize)`: appended slots are value-initialized
(version 0, zero key, default-constructed slice, next 0). -/
def resizeMap (m : List (SubHashEntry T)) (newSize : Nat) : List (SubHashEntry T) :=
  if newSize ≤ m.length then m.take newSize
  else m ++ List.replicate (newSize - m.length) ⟨0, 0, BarrierSlice.dflt, 0⟩

/-- The inner relocation scan of `growHashMap`:
`while (m_hashMap[index].version > m_version) index = advanceIndex(index)`.
Note that it advances with the mask passed in by the caller. -/
def relocScan (v mask : Nat) (m : List (SubHashEntry T)) : Nat → Nat → Nat
  | 0, index => index
  | fuel + 1, index =>
    match m[index]? with
    | Option.none => index
    | some e =>
      if v < e.version then relocScan v mask m fuel ((index + 1) &&& mask)
      else index

/-- The displacement loop of `growHashMap`:
`while (entry.version == m_version) { index = computeIndex(entry.key);
entry.version = m_version + 1; scan; swap(entry, m_hashMap[index]); }`. -/
def relocChain (v mask : Nat) [Inhabited (SubHashEntry T)] :
    Nat → SubHashEntry T → List (SubHashEntry T) → List (SubHashEntry T)
  | 0, _, m => m
  | fuel + 1, entry, m =>
    if entry.version = v then
      let index := computeHash entry.key &&& mask
      let entry2 : SubHashEntry T := { entry with version := v + 1 }
      let index2 := relocScan v mask m (m.length + 1) index
      let displaced := m[index2]!
      relocChain v mask fuel displaced (m.set index2 entry2)
    else m

instance : Inhabited (SubHashEntry T) := ⟨⟨0, 0, BarrierSlice.dflt, 0⟩⟩

/-- The outer relocation loop of `growHashMap`, iterating `i` over the old
slots: copy out slot `i`, dead-mark it, then run the displacement loop. -/
def relocOuter (v mask : Nat) : Nat → Nat → List (SubHashEntry T) → List (SubHashEntry T)
  | _, 0, m => m
  | i, remaining + 1, m =>
    match m[i]? with
    | Option.none => m
    | some e =>
      let m1 := m.set i { e with version := 0 }
      relocOuter v mask (i + 1) remaining (relocChain v mask (m1.length + 1) e m1)

/-- `DxvkBarrierSubresourceSet::growHashMap` (lines 705-727).  Faithful to
the source: the relocation loop runs with the still-unchanged `m_indexMask`
(`computeIndex`/`advanceIndex` read it), and only afterwards are
`m_version` and `m_indexMask` updated. -/
def growHashMap (s : SubresourceSet T) (newSize : Nat) : SubresourceSet T :=
  let oldSize := s.computeSize
  let m := relocOuter s.version s.indexMask 0 oldSize (resizeMap s.hashMap newSize)
  { s with hashMap := m, version := s.version + 1, indexMask := newSize - 1 }

/-- `growHashMapBeforeInsert` (lines 729-737): grow to double size (64 from
empty) when `10 * used ≥ 7 * size`. -/
def growHashMapBeforeInsert (s : SubresourceSet T) : SubresourceSet T :=
  let oldSize := s.computeSize
  if 7 * oldSize ≤ 10 * s.used then
    growHashMap s (if oldSize ≠ 0 then oldSize * 2 else 64)
  else s

/-- `insertHashEntry` (lines 681-703): returns the existing entry's index
when the key is already present, otherwise claims the first dead slot and
reports `none` (the C++ returns `nullptr` in that case). -/
def insertHashEntry (s : SubresourceSet T) (key : Nat) (data : T) :
    SubresourceSet T × Option Nat :=
  let s := s.growHashMapBeforeInsert
  match probeLoop s key s.hashMap.length (s.computeIndex key) with
  | ProbeResult.found i => (s, some i)
  | ProbeResult.free i =>
    ({ s with
        hashMap := s.hashMap.set i ⟨s.version, key, data, NoEntry⟩,
        used := s.used + 1 }, Option.none)
  | ProbeResult.fail => (s, Option.none)

/-- `insertListEntry` (lines 743-748): push `{subresource, head->next}` and
point the head at the new index. -/
def insertListEntry (s : SubresourceSet T) (i : Nat) (subresource : T) :
    SubresourceSet T :=
  let e := s.hashMap[i]!
  { s with
      list := s.list ++ [⟨subresource, e.next⟩],
      hashMap := s.hashMap.set i { e with next := s.list.length } }

/-- The image-slice merge scan in `insert`: find the first list entry that
can merge with the incoming slice and merge in place; report whether a
merge happened. -/
def scanMergeList (lst : List (SubListEntry T)) (q : T) :
    Nat → Nat → List (SubListEntry T) × Bool
  | 0, _ => (lst, false)
  | fuel + 1, index =>
    match getListEntryL lst index with
    | Option.none => (lst, false)
    | some l =>
      if BarrierSlice.canMergeB l.data q then
        (lst.set index { l with data := BarrierSlice.mergeB l.data q }, true)
      else scanMergeList lst q fuel l.next

/-- `DxvkBarrierSubresourceSet::insert` (lines 571-606). -/
def insert (s : SubresourceSet T) (resource : Nat) (slice : T) : SubresourceSet T :=
  match s.insertHashEntry resource slice with
  | (s1, Option.none) => s1
  | (s1, some i) =>
    let e := s1.hashMap[i]!
    let s2 :=
      match s1.getListEntry e.next with
      | some _ =>
        if BarrierSlice.isImage T then
          match scanMergeList s1.list slice (s1.list.length + 1) e.next with
          | (lst, true) => { s1 with list := lst }
          | (_, false) => s1.insertListEntry i slice
        else s1.insertListEntry i slice
      | Option.none =>
        if BarrierSlice.canMergeB e.data slice = false then
          (s1.insertListEntry i e.data).insertListEntry i slice
        else s1
    let e2 := s2.hashMap[i]!
    { s2 with
        hashMap := s2.hashMap.set i { e2 with data := BarrierSlice.mergeB e2.data slice } }

/-- `DxvkBarrierSubresourceSet::clear` (lines 611-615). -/
def clear (s : SubresourceSet T) : SubresourceSet T :=
  { s with used := 0, version := s.version + 1, list := [] }

/-- `DxvkBarrierSubresourceSet::empty`. -/
def isEmpty (s : SubresourceSet T) : Bool :=
  s.used == 0

end SubresourceSet

/-- Mutating operations of the subresource set (`getAccess` and `isDirty`
do not modify the structure). -/
inductive SubOp (T : Type) where
  | ins : Nat → T → SubOp T
  | clr : SubOp T
deriving DecidableEq, Repr

/-- Apply one operation. -/
def SubOp.apply {T : Type} [BarrierSlice T] (s : SubresourceSet T) :
    SubOp T → SubresourceSet T
  | SubOp.ins k q => s.insert k q
  | SubOp.clr => s.clear

/-- Run a sequence of operations from the fresh set. -/
def runSubOps {T : Type} [BarrierSlice T] (ops : List (SubOp T)) : SubresourceSet T :=
  ops.foldl SubOp.apply SubresourceSet.init

/-- An operation sequence is growth-safe when every `insert` happens either
on the never-used table (`computeSize = 0`) or strictly below the load
factor bound, so that `growHashMap` never has to relocate live entries. -/
def growthSafe {T : Type} [BarrierSlice T] : SubresourceSet T → List (SubOp T) → Bool
  | _, [] => true
  | s, SubOp.ins k q :: rest =>
    (s.computeSize == 0 || decide (10 * s.used < 7 * s.computeSize))
      && growthSafe (s.insert k q) rest
  | s, SubOp.clr :: rest => growthSafe s.clear rest

/-- The live hash entries of a state (version stamp matches). -/
def liveEntries {T : Type} (s : SubresourceSet T) : List (SubHashEntry T) :=
  s.hashMap.filter (fun e => e.version == s.version)

/-- Slices reachable through an overflow chain starting at `index`. -/
def chainSlices {T : Type} (lst : List (SubListEntry T)) : Nat → Nat → List T
  | 0, _ => []
  | fuel + 1, index =>
    match SubresourceSet.getListEntryL lst index with
    | Option.none => []
    | some l => l.data :: chainSlices lst fuel l.next

/-- Indices visited by an overflow chain starting at `index`. -/
def chainIdx {T : Type} (lst : List (SubListEntry T)) : Nat → Nat → List Nat
  | 0, _ => []
  | fuel + 1, index =>
    match SubresourceSet.getListEntryL lst index with
    | Option.none => []
    | some l => index :: chainIdx lst fuel l.next

/-- The slices a live hash entry stores: its overflow chain when one
exists, otherwise its own representative slice. -/
def entrySlices {T : Type} (s : SubresourceSet T) (e : SubHashEntry T) : List T :=
  match SubresourceSet.getListEntryL s.list e.next with
  | Option.none => [e.data]
  | some _ => chainSlices s.list (s.list.length + 1) e.next

/-- All slices stored for a resource key, across every live entry with that
key. -/
def storedSlices {T : Type} (s : SubresourceSet T) (key : Nat) : List T :=
  ((s.hashMap.filter (fun e => e.version == s.version && e.key == key)).map
    (entrySlices s)).flatten

/-- Union of the access flags of all stored slices overlapping a query. -/
def overlapUnion {T : Type} [BarrierSlice T] (slices : List T) (q : T) : DxvkAccessFlags :=
  (slices.filter (fun t => BarrierSlice.overlapsB t q)).foldl
    (fun acc t => acc.set (BarrierSlice.accessB t)) DxvkAccessFlags.none

/-- A chain head is either the terminator or an index into the list. -/
def headOK {T : Type} (lst : List (SubListEntry T)) (n : Nat) : Prop :=
  n = SubresourceSet.NoEntry ∨ n < lst.length

/-- Overflow-list well-formedness: every entry's successor index is either
the terminator or strictly smaller than the entry's own index (entries are
pushed at the back and always point at older entries). -/
def chainOKList {T : Type} (lst : List (SubListEntry T)) : Prop :=
  ∀ (j : Nat) (l : SubListEntry T),
    lst[j]? = some l → l.next = SubresourceSet.NoEntry ∨ l.next < j

/-- Disjointness of two overflow chains (by list index). -/
def chainDisj {T : Type} (lst : List (SubListEntry T)) (n m : Nat) : Prop :=
  ∀ x ∈ chainIdx lst (lst.length + 1) n, x ∉ chainIdx lst (lst.length + 1) m

/-- Structural invariant of the subresource set that holds in every
reachable state: versions are positive and bounded by the current stamp,
the overflow list is well formed, and every live hash entry has a valid
chain head, covers (componentwise) every slice in its chain, and owns a
chain disjoint from every other live entry's chain. -/
structure GenInv {T : Type} [BarrierSlice T] (s : SubresourceSet T) : Prop where
  verPos : 1 ≤ s.version
  verLe : ∀ e ∈ s.hashMap, e.version ≤ s.version
  chainOK : chainOKList s.list
  headsOK : ∀ (i : Nat) (e : SubHashEntry T), s.hashMap[i]? = some e →
    e.version = s.version → headOK s.list e.next
  coversInv : ∀ (i : Nat) (e : SubHashEntry T), s.hashMap[i]? = some e →
    e.version = s.version →
    ∀ t ∈ chainSlices s.list (s.list.length + 1) e.next,
      BarrierSlice.covers t e.data = true
  disj : ∀ (i j : Nat) (ei ej : SubHashEntry T), i ≠ j →
    s.hashMap[i]? = some ei → s.hashMap[j]? = some ej →
    ei.version = s.version → ej.version = s.version →
    chainDisj s.list ei.next ej.next

/-- Additional invariant of states reachable without a relocating rehash:
the table is either never-used or at capacity 64 with load at most 45, the
live count matches `m_used`, live keys are distinct, and every live entry
is reachable from its key's home slot through a gap-free run of live
slots. -/
structure SafeInv {T : Type} [BarrierSlice T] (s : SubresourceSet T)
    extends GenInv s : Prop where
  phase : (s.indexMask = 0 ∧ s.hashMap = [] ∧ s.list = [])
    ∨ (s.indexMask = 63 ∧ s.hashMap.length = 64)
  usedEq : s.used = (s.hashMap.filter (fun e => e.version == s.version)).length
  usedLe : s.used ≤ 45
  keyUniq : ∀ (i j : Nat) (ei ej : SubHashEntry T),
    s.hashMap[i]? = some ei → s.hashMap[j]? = some ej →
    ei.version = s.version → ej.version = s.version → ei.key = ej.key → i = j
  pathLive : ∀ (i : Nat) (e : SubHashEntry T), s.hashMap[i]? = some e →
    e.version = s.version →
    ∀ t, t < (i + 64 - SubresourceSet.computeHash e.key % 64) % 64 →
      ∃ e2 : SubHashEntry T,
        s.hashMap[(SubresourceSet.computeHash e.key % 64 + t) % 64]? = some e2
          ∧ e2.version = s.version

/-- An entry is tracked during an in-place rehash at version `v` when it is
still pending (`v`) or already relocated (`v + 1`). -/
def trackedEntry {T : Type} (v : Nat) (e : SubHashEntry T) : Prop :=
  e.version = v ∨ e.version = v + 1

/-- The per-entry chain property: a valid head whose chain the entry's own
slice covers. -/
def entryChainOK {T : Type} [BarrierSlice T] (lst : List (SubListEntry T))
    (e : SubHashEntry T) : Prop :=
  headOK lst e.next
    ∧ ∀ t ∈ chainSlices lst (lst.length + 1) e.next,
        BarrierSlice.covers t e.data = true

/-- Invariant carried through the relocation loops of `growHashMap`:
versions stay bounded, every tracked entry satisfies the chain property,
and tracked entries have pairwise disjoint chains. -/
def relocMapOK {T : Type} [BarrierSlice T] (v : Nat) (lst : List (SubListEntry T))
    (m : List (SubHashEntry T)) : Prop :=
  (∀ e ∈ m, e.version ≤ v + 1)
    ∧ (∀ (i : Nat) (e : SubHashEntry T), m[i]? = some e → trackedEntry v e →
        entryChainOK lst e)
    ∧ (∀ (i j : Nat) (ei ej : SubHashEntry T), i ≠ j → m[i]? = some ei →
        m[j]? = some ej → trackedEntry v ei → trackedEntry v ej →
        chainDisj lst ei.next ej.next)

/-- A concrete operation sequence that builds an overflow chain: two
inserts on buffer key 9 whose slices cannot merge, the second of which is
the empty range `[100,100)`. -/
def opsC4ex : List (SubOp DxvkBarrierBufferSlice) :=
  [SubOp.ins 9 ⟨0, 64, ⟨true, false⟩⟩, SubOp.ins 9 ⟨100, 100, ⟨false, true⟩⟩]

/-- The live hash entry those two operations produce at slot 59: the
representative slice is the widened union `[0,100)` with both flags, and
the chain head is list index 1. -/
def entC4ex : SubHashEntry DxvkBarrierBufferSlice :=
  ⟨2, 9, ⟨0, 100, ⟨true, true⟩⟩, 1⟩

/-- Two read-access image-slice inserts on key 5 that merge along the
mip-level axis: aspect 1 levels `[0,1)` and aspect 2 levels `[1,2)` fuse
into a stored slice with aspect mask 3 and levels `[0,2)`. -/
def opsC2ex : List (SubOp DxvkBarrierImageSlice) :=
  [SubOp.ins 5 ⟨1, 0, 1, 0, 1, ⟨true, false⟩⟩,
   SubOp.ins 5 ⟨2, 0, 1, 1, 2, ⟨true, false⟩⟩]

/-- Query slice for the C2 example: aspect 2, levels `[0,1)` — it overlaps
the merged stored slice but neither of the two inserted slices. -/
def qC2ex : DxvkBarrierImageSlice := ⟨2, 0, 1, 0, 1, ⟨true, false⟩⟩

/-- The same two merging inserts with write access, for the `isDirty`
example. -/
def opsC3ex : List (SubOp DxvkBarrierImageSlice) :=
  [SubOp.ins 5 ⟨1, 0, 1, 0, 1, ⟨false, true⟩⟩,
   SubOp.ins 5 ⟨2, 0, 1, 1, 2, ⟨false, true⟩⟩]

/-- Read query slice for the C3 example: aspect 2, levels `[0,1)`. -/
def qC3ex : DxvkBarrierImageSlice := ⟨2, 0, 1, 0, 1, ⟨true, false⟩⟩

/-- 46 inserts of one nonempty read slice under 46 distinct buffer keys
(1..46).  The 46th insert reaches the 0.7 load factor on the 64-slot table
and triggers the relocating `growHashMap` to 128 slots. -/
def strandOps : List (SubOp DxvkBarrierBufferSlice) :=
  (List.range 46).map (fun i => SubOp.ins (i + 1) ⟨0, 16, ⟨true, false⟩⟩)

/-! # Theorems -/

/-! ## Packed tree-node header (claim C10) -/

namespace DxvkBarrierTreeNode

theorem tb_false_of_lt {v w : Nat} (hv : v < 2 ^ w) {j : Nat} (hj : w ≤ j) :
    v.testBit j = false :=
  Nat.testBit_lt_two_pow (lt_of_lt_of_le hv (Nat.pow_le_pow_right (by omega) hj))

theorem shiftLeft_mod_eq {v sh : Nat} (hv : v < 2 ^ 21) (hsh : sh + 21 ≤ 64) :
    (v <<< sh) % 2 ^ 64 = v <<< sh := by
  rw [Nat.shiftLeft_eq]
  refine Nat.mod_eq_of_lt ?_
  have h1 : v * 2 ^ sh < 2 ^ 21 * 2 ^ sh :=
    Nat.mul_lt_mul_of_lt_of_le hv (le_refl _) (Nat.pos_pow_of_pos _ (by omega))
  calc v * 2 ^ sh < 2 ^ 21 * 2 ^ sh := h1
    _ = 2 ^ (21 + sh) := (pow_add 2 21 sh).symm
    _ ≤ 2 ^ 64 := Nat.pow_le_pow_right (by omega) (by omega)

theorem getAt_setAt_same (h v sh : Nat) (hsh : sh + 21 ≤ 64) (hv : v < 2 ^ 21) :
    getAt (setAt h v sh) sh = v := by
  have hs := shiftLeft_mod_eq hv hsh
  apply Nat.eq_of_testBit_eq
  intro i
  simp only [getAt, setAt, clearMask, NodeIndexMask, hs, Nat.testBit_land,
    Nat.testBit_lor, Nat.testBit_xor, Nat.testBit_shiftLeft, Nat.testBit_shiftRight,
    Nat.testBit_two_pow_sub_one]
  by_cases h1 : i < 21
  · have e1 : (decide (sh + i < 64)) = true := by simp only [decide_eq_true_eq]; omega
    have e2 : (decide (sh + i - sh < 21)) = true := by simp only [decide_eq_true_eq]; omega
    have e3 : (decide (sh + i ≥ sh)) = true := by simp only [decide_eq_true_eq]; omega
    simp [e1, e2, e3, Nat.add_sub_cancel_left, h1]
  · simp [h1, tb_false_of_lt hv (by omega : 21 ≤ i)]

theorem getAt_setAt_ne (h v sh sh2 : Nat) (hsh : sh + 21 ≤ 64) (hsh2 : sh2 + 21 ≤ 64)
    (hv : v < 2 ^ 21) (hd : sh + 21 ≤ sh2 ∨ sh2 + 21 ≤ sh) :
    getAt (setAt h v sh) sh2 = getAt h sh2 := by
  have hs := shiftLeft_mod_eq hv hsh
  apply Nat.eq_of_testBit_eq
  intro i
  simp only [getAt, setAt, clearMask, NodeIndexMask, hs, Nat.testBit_land,
    Nat.testBit_lor, Nat.testBit_xor, Nat.testBit_shiftLeft, Nat.testBit_shiftRight,
    Nat.testBit_two_pow_sub_one]
  by_cases h1 : i < 21
  · have e1 : (decide (sh2 + i < 64)) = true := by simp only [decide_eq_true_eq]; omega
    have e2 : (decide (sh2 + i - sh < 21) && decide (sh2 + i ≥ sh)) = false := by
      rcases hd with hd | hd
      · have hx : (decide (sh2 + i - sh < 21)) = false := by
          simp only [decide_eq_false_iff_not]; omega
        simp [hx]
      · have hx : (decide (sh2 + i ≥ sh)) = false := by
          simp only [decide_eq_false_iff_not]; omega
        simp [hx]
    have e3 : (v <<< sh).testBit (sh2 + i) = false := by
      rw [Nat.testBit_shiftLeft]
      rcases hd with hd | hd
      · simp [tb_false_of_lt hv (by omega : 21 ≤ sh2 + i - sh)]
      · have hx : (decide (sh2 + i ≥ sh)) = false := by
          simp only [decide_eq_false_iff_not]; omega
        simp [hx]
    cases hb1 : decide (sh2 + i - sh < 21) <;> cases hb2 : decide (sh2 + i ≥ sh) <;>
      simp_all [e1]
  · simp [h1]

theorem bit_zero_setAt (h v sh : Nat) (hsh : 1 ≤ sh) (hsh2 : sh + 21 ≤ 64)
    (hv : v < 2 ^ 21) : (setAt h v sh) &&& 1 = h &&& 1 := by
  have hs := shiftLeft_mod_eq hv hsh2
  apply Nat.eq_of_testBit_eq
  intro i
  simp only [setAt, clearMask, NodeIndexMask, hs, Nat.testBit_land, Nat.testBit_lor,
    Nat.testBit_xor, Nat.testBit_shiftLeft, Nat.testBit_two_pow_sub_one]
  by_cases h0 : (1 : Nat).testBit i = true
  · have hi0 : i = 0 := by
      by_contra hne
      have : (1 : Nat).testBit i = false :=
        tb_false_of_lt (v := 1) (w := 1) (by norm_num) (by omega)
      simp_all
    subst hi0
    have e1 : (decide (sh = 0)) = false := by simp only [decide_eq_false_iff_not]; omega
    simp [e1]
  · simp only [Bool.not_eq_true] at h0
    simp [h0]

theorem getAt_setRed (h sh : Nat) (b : Bool) (hsh : 1 ≤ sh) (hsh2 : sh + 21 ≤ 64) :
    getAt (setRed h b) sh = getAt h sh := by
  apply Nat.eq_of_testBit_eq
  intro i
  simp only [getAt, setRed, NodeIndexMask, Nat.testBit_land, Nat.testBit_lor,
    Nat.testBit_xor, Nat.testBit_shiftRight, Nat.testBit_two_pow_sub_one]
  by_cases h1 : i < 21
  · have e1 : (decide (sh + i < 64)) = true := by simp only [decide_eq_true_eq]; omega
    have e2 : (1 : Nat).testBit (sh + i) = false :=
      tb_false_of_lt (v := 1) (w := 1) (by norm_num) (by omega)
    have e3 : (cond b 1 0 : Nat).testBit (sh + i) = false := by
      cases b
      · simp [Nat.testBit]
      · simpa using e2
    simp [e1, e2, e3]
  · simp [h1]

theorem isRed_setRed (h : Nat) (b : Bool) : isRed (setRed h b) = b := by
  have hx : (setRed h b) &&& 1 = cond b 1 0 := by
    apply Nat.eq_of_testBit_eq
    intro i
    simp only [setRed, Nat.testBit_land, Nat.testBit_lor, Nat.testBit_xor,
      Nat.testBit_two_pow_sub_one]
    by_cases h0 : i = 0
    · subst h0
      simp [Nat.testBit]
    · have e1 : (1 : Nat).testBit i = false :=
        tb_false_of_lt (v := 1) (w := 1) (by norm_num) (by omega)
      have e2 : (cond b 1 0 : Nat).testBit i = false := by
        cases b
        · simp [Nat.testBit]
        · simpa using e1
      simp [e1, e2]
  rw [isRed, hx]
  cases b <;> simp

theorem isRed_setAt (h v sh : Nat) (hsh : 1 ≤ sh) (hsh2 : sh + 21 ≤ 64)
    (hv : v < 2 ^ 21) : isRed (setAt h v sh) = isRed h := by
  rw [isRed, isRed, bit_zero_setAt h v sh hsh hsh2 hv]

theorem setParent_eq_setAt (h v : Nat) : setParent h v = setAt h v 43 := rfl

theorem setChildZero_eq_setAt (h v : Nat) : setChild h 0 v = setAt h v 1 := by
  simp [setChild, setAt]

theorem setChildOne_eq_setAt (h v : Nat) : setChild h 1 v = setAt h v 22 := by
  simp [setChild, setAt]

theorem parent_eq_getAt (h : Nat) : parent h = getAt h 43 := rfl

theorem childZero_eq_getAt (h : Nat) : child h 0 = getAt h 1 := by
  simp [child, getAt]

theorem childOne_eq_getAt (h : Nat) : child h 1 = getAt h 22 := by
  simp [child, getAt]

end DxvkBarrierTreeNode

/-- C10: the packed 64-bit tree-node header behaves as four independent
fields.  For every header value and node index `v < 2^21`: `setParent v`
makes `parent()` return `v` and leaves the color and both children alone;
`setChild(0, v)` and `setChild(1, v)` update only their own child field;
`setRed b` updates only the color bit. -/
theorem claim_C10 (h v : Nat) (hv : v < 2 ^ 21) (b : Bool) :
    (DxvkBarrierTreeNode.parent (DxvkBarrierTreeNode.setParent h v) = v
      ∧ DxvkBarrierTreeNode.isRed (DxvkBarrierTreeNode.setParent h v)
          = DxvkBarrierTreeNode.isRed h
      ∧ DxvkBarrierTreeNode.child (DxvkBarrierTreeNode.setParent h v) 0
          = DxvkBarrierTreeNode.child h 0
      ∧ DxvkBarrierTreeNode.child (DxvkBarrierTreeNode.setParent h v) 1
          = DxvkBarrierTreeNode.child h 1)
    ∧ (DxvkBarrierTreeNode.child (DxvkBarrierTreeNode.setChild h 0 v) 0 = v
      ∧ DxvkBarrierTreeNode.isRed (DxvkBarrierTreeNode.setChild h 0 v)
          = DxvkBarrierTreeNode.isRed h
      ∧ DxvkBarrierTreeNode.child (DxvkBarrierTreeNode.setChild h 0 v) 1
          = DxvkBarrierTreeNode.child h 1
      ∧ DxvkBarrierTreeNode.parent (DxvkBarrierTreeNode.setChild h 0 v)
          = DxvkBarrierTreeNode.parent h)
    ∧ (DxvkBarrierTreeNode.child (DxvkBarrierTreeNode.setChild h 1 v) 1 = v
      ∧ DxvkBarrierTreeNode.isRed (DxvkBarrierTreeNode.setChild h 1 v)
          = DxvkBarrierTreeNode.isRed h
      ∧ DxvkBarrierTreeNode.child (DxvkBarrierTreeNode.setChild h 1 v) 0
          = DxvkBarrierTreeNode.child h 0
      ∧ DxvkBarrierTreeNode.parent (DxvkBarrierTreeNode.setChild h 1 v)
          = DxvkBarrierTreeNode.parent h)
    ∧ (DxvkBarrierTreeNode.isRed (DxvkBarrierTreeNode.setRed h b) = b
      ∧ DxvkBarrierTreeNode.child (DxvkBarrierTreeNode.setRed h b) 0
          = DxvkBarrierTreeNode.child h 0
      ∧ DxvkBarrierTreeNode.child (DxvkBarrierTreeNode.setRed h b) 1
          = DxvkBarrierTreeNode.child h 1
      ∧ DxvkBarrierTreeNode.parent (DxvkBarrierTreeNode.setRed h b)
          = DxvkBarrierTreeNode.parent h) := by
  refine ⟨⟨?_, ?_, ?_, ?_⟩, ⟨?_, ?_, ?_, ?_⟩, ⟨?_, ?_, ?_, ?_⟩, ⟨?_, ?_, ?_, ?_⟩⟩
  · rw [DxvkBarrierTreeNode.parent_eq_getAt, DxvkBarrierTreeNode.setParent_eq_setAt]
    exact DxvkBarrierTreeNode.getAt_setAt_same h v 43 (by omega) hv
  · rw [DxvkBarrierTreeNode.setParent_eq_setAt]
    exact DxvkBarrierTreeNode.isRed_setAt h v 43 (by omega) (by omega) hv
  · rw [DxvkBarrierTreeNode.childZero_eq_getAt, DxvkBarrierTreeNode.childZero_eq_getAt,
      DxvkBarrierTreeNode.setParent_eq_setAt]
    exact DxvkBarrierTreeNode.getAt_setAt_ne h v 43 1 (by omega) (by omega) hv (by omega)
  · rw [DxvkBarrierTreeNode.childOne_eq_getAt, DxvkBarrierTreeNode.childOne_eq_getAt,
      DxvkBarrierTreeNode.setParent_eq_setAt]
    exact DxvkBarrierTreeNode.getAt_setAt_ne h v 43 22 (by omega) (by omega) hv (by omega)
  · rw [DxvkBarrierTreeNode.childZero_eq_getAt, DxvkBarrierTreeNode.setChildZero_eq_setAt]
    exact DxvkBarrierTreeNode.getAt_setAt_same h v 1 (by omega) hv
  · rw [DxvkBarrierTreeNode.setChildZero_eq_setAt]
    exact DxvkBarrierTreeNode.isRed_setAt h v 1 (by omega) (by omega) hv
  · rw [DxvkBarrierTreeNode.childOne_eq_getAt, DxvkBarrierTreeNode.childOne_eq_getAt,
      DxvkBarrierTreeNode.setChildZero_eq_setAt]
    exact DxvkBarrierTreeNode.getAt_setAt_ne h v 1 22 (by omega) (by omega) hv (by omega)
  · rw [DxvkBarrierTreeNode.parent_eq_getAt, DxvkBarrierTreeNode.parent_eq_getAt,
      DxvkBarrierTreeNode.setChildZero_eq_setAt]
    exact DxvkBarrierTreeNode.getAt_setAt_ne h v 1 43 (by omega) (by omega) hv (by omega)
  · rw [DxvkBarrierTreeNode.childOne_eq_getAt, DxvkBarrierTreeNode.setChildOne_eq_setAt]
    exact DxvkBarrierTreeNode.getAt_setAt_same h v 22 (by omega) hv
  · rw [DxvkBarrierTreeNode.setChildOne_eq_setAt]
    exact DxvkBarrierTreeNode.isRed_setAt h v 22 (by omega) (by omega) hv
  · rw [DxvkBarrierTreeNode.childZero_eq_getAt, DxvkBarrierTreeNode.childZero_eq_getAt,
      DxvkBarrierTreeNode.setChildOne_eq_setAt]
    exact DxvkBarrierTreeNode.getAt_setAt_ne h v 22 1 (by omega) (by omega) hv (by omega)
  · rw [DxvkBarrierTreeNode.parent_eq_getAt, DxvkBarrierTreeNode.parent_eq_getAt,
      DxvkBarrierTreeNode.setChildOne_eq_setAt]
    exact DxvkBarrierTreeNode.getAt_setAt_ne h v 22 43 (by omega) (by omega) hv (by omega)
  · exact DxvkBarrierTreeNode.isRed_setRed h b
  · rw [DxvkBarrierTreeNode.childZero_eq_getAt, DxvkBarrierTreeNode.childZero_eq_getAt]
    exact DxvkBarrierTreeNode.getAt_setRed h 1 b (by omega) (by omega)
  · rw [DxvkBarrierTreeNode.childOne_eq_getAt, DxvkBarrierTreeNode.childOne_eq_getAt]
    exact DxvkBarrierTreeNode.getAt_setRed h 22 b (by omega) (by omega)
  · rw [DxvkBarrierTreeNode.parent_eq_getAt, DxvkBarrierTreeNode.parent_eq_getAt]
    exact DxvkBarrierTreeNode.getAt_setRed h 43 b (by omega) (by omega)

/-- Witness for C10 at the concrete header `0x123456789abcdef` and node
index `77`. -/
theorem claim_C10_witness :
    77 < 2 ^ 21
      ∧ DxvkBarrierTreeNode.parent
          (DxvkBarrierTreeNode.setParent 81985529216486895 77) = 77 := by
  refine ⟨by norm_num, ?_⟩
  exact (claim_C10 81985529216486895 77 (by norm_num) true).1.1

/-! ## Bucket routing (claim C9) -/

theorem computeRootIndex_shape (r : DxvkAddressRange) :
    ∃ x, x < 32 ∧ computeRootIndex r DxvkAccess.Read = 1 + x
      ∧ computeRootIndex r DxvkAccess.Write = 1 + x + 32 := by
  have h32 : ∀ y : Nat, y % 32 < 32 := fun y => Nat.mod_lt _ (by norm_num)
  simp only [computeRootIndex, HashTableSize]
  simp only [eq_false (show ¬DxvkAccess.Read = DxvkAccess.Write by simp),
    eq_true (rfl : DxvkAccess.Write = DxvkAccess.Write), if_false, if_true]
  exact ⟨(r.resource * 93887 % 2 ^ 64 ^^^ (r.resource * 93887 % 2 ^ 64) >>> 16) % 32,
    h32 _, by omega, by omega⟩

/-- C9: `computeRootIndex` equals the spec's wraparound bucket formula, and
the result lies in `[1..32]` for `Read`, `[33..64]` for `Write`, hence is
never 0. -/
theorem claim_C9 (r : DxvkAddressRange) :
    (computeRootIndex r DxvkAccess.Read = specBucketIndex r.resource DxvkAccess.Read
      ∧ 1 ≤ computeRootIndex r DxvkAccess.Read
      ∧ computeRootIndex r DxvkAccess.Read ≤ 32
      ∧ computeRootIndex r DxvkAccess.Read ≠ 0)
    ∧ (computeRootIndex r DxvkAccess.Write = specBucketIndex r.resource DxvkAccess.Write
      ∧ 33 ≤ computeRootIndex r DxvkAccess.Write
      ∧ computeRootIndex r DxvkAccess.Write ≤ 64
      ∧ computeRootIndex r DxvkAccess.Write ≠ 0) := by
  obtain ⟨x, hx, hr, hw⟩ := computeRootIndex_shape r
  exact ⟨⟨rfl, by omega, by omega, by omega⟩, ⟨rfl, by omega, by omega, by omega⟩⟩

/-! ## Image-slice merge predicate (claim C5) -/

/-- C5 counterexample: two image slices with identical layer and level
ranges but different access flags.  The claim says they are mergeable iff
their access flags are equal, i.e. not mergeable here; `canMerge` returns
`true` regardless of the flags. -/
theorem claim_C5_counterexample :
    DxvkBarrierImageSlice.canMergeSlice
        ⟨1, 0, 1, 0, 1, ⟨true, false⟩⟩ ⟨1, 0, 1, 0, 1, ⟨false, true⟩⟩ = true
      ∧ (⟨1, 0, 1, 0, 1, ⟨true, false⟩⟩ : DxvkBarrierImageSlice).access
          ≠ (⟨1, 0, 1, 0, 1, ⟨false, true⟩⟩ : DxvkBarrierImageSlice).access
      ∧ (⟨1, 0, 1, 0, 1, ⟨true, false⟩⟩ : DxvkBarrierImageSlice).minLayer
          = (⟨1, 0, 1, 0, 1, ⟨false, true⟩⟩ : DxvkBarrierImageSlice).minLayer
      ∧ (⟨1, 0, 1, 0, 1, ⟨true, false⟩⟩ : DxvkBarrierImageSlice).maxLayer
          = (⟨1, 0, 1, 0, 1, ⟨false, true⟩⟩ : DxvkBarrierImageSlice).maxLayer
      ∧ (⟨1, 0, 1, 0, 1, ⟨true, false⟩⟩ : DxvkBarrierImageSlice).minLevel
          = (⟨1, 0, 1, 0, 1, ⟨false, true⟩⟩ : DxvkBarrierImageSlice).minLevel
      ∧ (⟨1, 0, 1, 0, 1, ⟨true, false⟩⟩ : DxvkBarrierImageSlice).maxLevel
          = (⟨1, 0, 1, 0, 1, ⟨false, true⟩⟩ : DxvkBarrierImageSlice).maxLevel := by
  refine ⟨by decide, by decide, rfl, rfl, rfl, rfl⟩

/-- C5 (amended): `canMerge` for image slices is characterized by: both
axes equal → mergeable regardless of access flags; neither axis equal →
not mergeable; exactly one axis equal → mergeable iff the access flags are
equal and the ranges touch on the differing axis. -/
theorem claim_C5 (a b : DxvkBarrierImageSlice) :
    ((a.minLayer = b.minLayer ∧ a.maxLayer = b.maxLayer) →
      (a.minLevel = b.minLevel ∧ a.maxLevel = b.maxLevel) →
      a.canMergeSlice b = true)
    ∧ (¬(a.minLayer = b.minLayer ∧ a.maxLayer = b.maxLayer) →
      ¬(a.minLevel = b.minLevel ∧ a.maxLevel = b.maxLevel) →
      a.canMergeSlice b = false)
    ∧ ((a.minLayer = b.minLayer ∧ a.maxLayer = b.maxLayer) →
      ¬(a.minLevel = b.minLevel ∧ a.maxLevel = b.maxLevel) →
      (a.canMergeSlice b = true ↔
        (a.access = b.access ∧ a.maxLevel ≥ b.minLevel ∧ a.minLevel ≤ b.maxLevel)))
    ∧ (¬(a.minLayer = b.minLayer ∧ a.maxLayer = b.maxLayer) →
      (a.minLevel = b.minLevel ∧ a.maxLevel = b.maxLevel) →
      (a.canMergeSlice b = true ↔
        (a.access = b.access ∧ a.maxLayer ≥ b.minLayer ∧ a.minLayer ≤ b.maxLayer))) := by
  simp only [DxvkBarrierImageSlice.canMergeSlice]
  cases hb1 : (a.minLayer == b.minLayer) <;> cases hb2 : (a.maxLayer == b.maxLayer) <;>
    cases hb3 : (a.minLevel == b.minLevel) <;> cases hb4 : (a.maxLevel == b.maxLevel) <;>
    by_cases hAc : a.access = b.access <;>
    simp_all [beq_iff_eq]

/-- Witness for C5 at slices that share their layer range only. -/
theorem claim_C5_witness :
    DxvkBarrierImageSlice.canMergeSlice
        ⟨1, 2, 4, 0, 3, ⟨true, false⟩⟩ ⟨1, 2, 4, 3, 5, ⟨true, false⟩⟩ = true := by
  have h := (claim_C5 ⟨1, 2, 4, 0, 3, ⟨true, false⟩⟩ ⟨1, 2, 4, 3, 5, ⟨true, false⟩⟩).2.2.1
  exact (h (by decide) (by decide)).mpr (by decide)

/-! ## Merge monotonicity (claim C8) -/

theorem exists_testBit_of_ne_zero {n : Nat} (h : n ≠ 0) : ∃ i, n.testBit i = true := by
  by_contra hc
  push_neg at hc
  refine h (Nat.eq_of_testBit_eq fun i => ?_)
  simp only [Nat.zero_testBit]
  exact Bool.not_eq_true _ ▸ hc i

theorem lor_land_ne_zero_left {a b x : Nat} (h : a &&& x ≠ 0) : (a ||| b) &&& x ≠ 0 := by
  obtain ⟨i, hi⟩ := exists_testBit_of_ne_zero h
  rw [Nat.testBit_land] at hi
  intro hz
  have : ((a ||| b) &&& x).testBit i = true := by
    rw [Nat.testBit_land, Nat.testBit_lor]
    simp only [Bool.and_eq_true, Bool.or_eq_true] at hi ⊢
    exact ⟨Or.inl hi.1, hi.2⟩
  rw [hz, Nat.zero_testBit] at this
  exact Bool.false_ne_true this

theorem lor_land_ne_zero_right {a b x : Nat} (h : b &&& x ≠ 0) : (a ||| b) &&& x ≠ 0 := by
  obtain ⟨i, hi⟩ := exists_testBit_of_ne_zero h
  rw [Nat.testBit_land] at hi
  intro hz
  have : ((a ||| b) &&& x).testBit i = true := by
    rw [Nat.testBit_land, Nat.testBit_lor]
    simp only [Bool.and_eq_true, Bool.or_eq_true] at hi ⊢
    exact ⟨Or.inr hi.1, hi.2⟩
  rw [hz, Nat.zero_testBit] at this
  exact Bool.false_ne_true this

/-- C8: merging is monotone with respect to overlap, for buffer slices and
for image slices: if `a.overlaps(x)` or `b.overlaps(x)` held before the
merge, then `(a.merge(b)).overlaps(x)` holds. -/
theorem claim_C8 :
    (∀ a b x : DxvkBarrierBufferSlice,
      a.overlapsSlice x = true ∨ b.overlapsSlice x = true →
      (a.mergeSlice b).overlapsSlice x = true)
    ∧ (∀ a b x : DxvkBarrierImageSlice,
      a.overlapsSlice x = true ∨ b.overlapsSlice x = true →
      (a.mergeSlice b).overlapsSlice x = true) := by
  constructor
  · intro a b x h
    simp only [DxvkBarrierBufferSlice.overlapsSlice, DxvkBarrierBufferSlice.mergeSlice,
      Bool.and_eq_true, decide_eq_true_eq] at h ⊢
    rcases h with h | h <;>
      exact ⟨by omega, by omega⟩
  · intro a b x h
    simp only [DxvkBarrierImageSlice.overlapsSlice, DxvkBarrierImageSlice.mergeSlice,
      Bool.and_eq_true, decide_eq_true_eq, bne_iff_ne, ne_eq] at h ⊢
    rcases h with ⟨⟨⟨⟨h1, h2⟩, h3⟩, h4⟩, h5⟩ | ⟨⟨⟨⟨h1, h2⟩, h3⟩, h4⟩, h5⟩
    · exact ⟨⟨⟨⟨lor_land_ne_zero_left h1, by omega⟩, by omega⟩, by omega⟩, by omega⟩
    · exact ⟨⟨⟨⟨lor_land_ne_zero_right h1, by omega⟩, by omega⟩, by omega⟩, by omega⟩

/-- Witness for C8 on concrete buffer slices. -/
theorem claim_C8_witness :
    (DxvkBarrierBufferSlice.mergeSlice ⟨0, 4, ⟨true, false⟩⟩
      ⟨10, 20, ⟨false, true⟩⟩).overlapsSlice ⟨12, 14, ⟨true, false⟩⟩ = true :=
  claim_C8.1 ⟨0, 4, ⟨true, false⟩⟩ ⟨10, 20, ⟨false, true⟩⟩ ⟨12, 14, ⟨true, false⟩⟩
    (Or.inr (by decide))

/-! ## Versioned clear (claim C6) -/

/-- C6: immediately after `clear()`, `getAccess` returns the empty flag
set and `isDirty` returns `false` for every key and slice, the live-entry
count is 0, and `empty()` returns `true` — regardless of the prior
contents.  Further queries do not mutate the state, so this persists until
the next `insert`. -/
theorem claim_C6 {T : Type} [BarrierSlice T] (s : SubresourceSet T) (k : Nat) (q : T) :
    (s.clear).getAccess k q = DxvkAccessFlags.none
    ∧ (s.clear).isDirty k q = false
    ∧ (s.clear).used = 0
    ∧ (s.clear).isEmpty = true := by
  have hfind : (s.clear).findHashEntry k = Option.none := by
    simp [SubresourceSet.findHashEntry, SubresourceSet.findHashIdx, SubresourceSet.clear]
  refine ⟨?_, ?_, rfl, rfl⟩
  · simp [SubresourceSet.getAccess, hfind]
  · simp [SubresourceSet.isDirty, hfind]

/-! ## Range tracker conflict rule (claim C1) -/

/-- The spec's conflict rule on access classes: a `Write` query conflicts
with any prior access, a `Read` query only with prior writes. -/
def conflictsWith (prior query : DxvkAccess) : Bool :=
  match query with
  | DxvkAccess.Write => true
  | DxvkAccess.Read => prior == DxvkAccess.Write

theorem containsRange_trans {a b c : DxvkAddressRange}
    (h1 : a.containsRange b = true) (h2 : b.containsRange c = true) :
    a.containsRange c = true := by
  simp only [DxvkAddressRange.containsRange, Bool.and_eq_true, beq_iff_eq,
    decide_eq_true_eq] at h1 h2 ⊢
  exact ⟨⟨h1.1.1.trans h2.1.1, by omega⟩, by omega⟩

theorem containsRange_refl (a : DxvkAddressRange) : a.containsRange a = true := by
  simp [DxvkAddressRange.containsRange]

theorem rangeUnion_contains_left (r n : DxvkAddressRange) :
    (rangeUnion r n).containsRange r = true := by
  simp only [rangeUnion, DxvkAddressRange.containsRange, Bool.and_eq_true, beq_iff_eq,
    decide_eq_true_eq]
  refine ⟨⟨by simp, ?_⟩, ?_⟩ <;> omega

theorem rangeUnion_contains_right (r n : DxvkAddressRange)
    (hres : n.resource = r.resource) :
    (rangeUnion r n).containsRange n = true := by
  simp only [rangeUnion, DxvkAddressRange.containsRange, Bool.and_eq_true, beq_iff_eq,
    decide_eq_true_eq]
  refine ⟨⟨by simp [hres], ?_⟩, ?_⟩ <;> omega

theorem resource_eq_of_merge_pred {r n : DxvkAddressRange}
    (h : (r.containsRange n || r.overlapsRange n) = true) : n.resource = r.resource := by
  simp only [DxvkAddressRange.containsRange, DxvkAddressRange.overlapsRange,
    Bool.or_eq_true, Bool.and_eq_true, beq_iff_eq] at h
  rcases h with h | h
  · exact h.1.1.symm
  · exact h.1.1.symm

theorem bucketInsert_covers (fuel : Nat) (nodes : List DxvkAddressRange)
    (range x : DxvkAddressRange)
    (h : (∃ n ∈ nodes, n.containsRange x = true) ∨ range.containsRange x = true) :
    ∃ n ∈ bucketInsert fuel nodes range, n.containsRange x = true := by
  induction fuel generalizing nodes range with
  | zero =>
    rcases h with ⟨n, hn, hc⟩ | hc
    · exact ⟨n, by simp [bucketInsert, hn], hc⟩
    · exact ⟨range, by simp [bucketInsert], hc⟩
  | succ fuel ih =>
    rw [bucketInsert]
    cases hfind : nodes.find? (fun n => n.containsRange range) with
    | some m =>
      rcases h with ⟨n, hn, hc⟩ | hc
      · exact ⟨n, hn, hc⟩
      · have hm := List.find?_some hfind
        have hmem := List.mem_of_find?_eq_some hfind
        exact ⟨m, hmem, containsRange_trans hm hc⟩
    | none =>
      cases hfind2 : nodes.find? (fun n => range.containsRange n || range.overlapsRange n) with
      | some m =>
        have hm := List.find?_some hfind2
        have hmem := List.mem_of_find?_eq_some hfind2
        have hres := resource_eq_of_merge_pred hm
        refine ih (nodes.erase m) (rangeUnion range m) ?_
        rcases h with ⟨n, hn, hc⟩ | hc
        · by_cases hnm : n = m
          · subst hnm
            exact Or.inr (containsRange_trans (rangeUnion_contains_right range n hres) hc)
          · exact Or.inl ⟨n, (List.mem_erase_of_ne hnm).mpr hn, hc⟩
        · exact Or.inr (containsRange_trans (rangeUnion_contains_left range m) hc)
      | none =>
        rcases h with ⟨n, hn, hc⟩ | hc
        · exact ⟨n, by simp [hn], hc⟩
        · exact ⟨range, by simp, hc⟩

theorem computeRootIndex_congr {a b : DxvkAddressRange} (h : a.resource = b.resource)
    (acc : DxvkAccess) : computeRootIndex a acc = computeRootIndex b acc := by
  simp [computeRootIndex, h]

theorem insertRange_covers_mono (s : TrackerState) (r : DxvkAddressRange)
    (a : DxvkAccess) (b : Nat) (x : DxvkAddressRange)
    (h : ∃ n ∈ s b, n.containsRange x = true) :
    ∃ n ∈ (s.insertRange r a) b, n.containsRange x = true := by
  simp only [TrackerState.insertRange]
  by_cases hb : b = computeRootIndex r a
  · subst hb
    simp only [if_pos rfl]
    exact bucketInsert_covers _ _ _ _ (Or.inl h)
  · simp only [if_neg hb]
    exact h

theorem insertRange_covers_new (s : TrackerState) (r : DxvkAddressRange) (a : DxvkAccess) :
    ∃ n ∈ (s.insertRange r a) (computeRootIndex r a), n.containsRange r = true := by
  simp only [TrackerState.insertRange, if_pos rfl]
  exact bucketInsert_covers _ _ _ _ (Or.inr (containsRange_refl r))

theorem runTrackerFrom_covers_mono (ops : List (DxvkAddressRange × DxvkAccess)) :
    ∀ (s : TrackerState) (b : Nat) (x : DxvkAddressRange),
    (∃ n ∈ s b, n.containsRange x = true) →
    ∃ n ∈ (ops.foldl (fun t op => t.insertRange op.1 op.2) s) b,
      n.containsRange x = true := by
  induction ops with
  | nil => exact fun s b x h => h
  | cons p rest ih =>
    intro s b x h
    rw [List.foldl_cons]
    exact ih _ b x (insertRange_covers_mono s p.1 p.2 b x h)

theorem runTracker_covers (ops : List (DxvkAddressRange × DxvkAccess)) :
    ∀ (s : TrackerState) (r : DxvkAddressRange) (ra : DxvkAccess),
    (r, ra) ∈ ops →
    ∃ n ∈ (ops.foldl (fun t op => t.insertRange op.1 op.2) s) (computeRootIndex r ra),
      n.containsRange r = true := by
  induction ops with
  | nil => intro s r ra hmem; cases hmem
  | cons p rest ih =>
    intro s r ra hmem
    rw [List.foldl_cons]
    rcases List.mem_cons.mp hmem with hp | hp
    · subst hp
      exact runTrackerFrom_covers_mono rest _ _ _ (insertRange_covers_new s r ra)
    · exact ih _ r ra hp

theorem runTracker_read_bucket_empty (ops : List (DxvkAddressRange × DxvkAccess)) :
    ∀ (s : TrackerState), (∀ p ∈ ops, p.2 = DxvkAccess.Read) →
    ∀ (b : Nat), 33 ≤ b → s b = [] →
    (ops.foldl (fun t op => t.insertRange op.1 op.2) s) b = [] := by
  induction ops with
  | nil => exact fun s _ b _ hs => hs
  | cons p rest ih =>
    intro s hops b hb hs
    rw [List.foldl_cons]
    refine ih _ (fun x hx => hops x (List.mem_cons_of_mem _ hx)) b hb ?_
    have hpa : p.2 = DxvkAccess.Read := hops p (List.mem_cons_self _ _)
    obtain ⟨y, hy, hr, _⟩ := computeRootIndex_shape p.1
    simp only [TrackerState.insertRange]
    rw [if_neg ?_]
    · exact hs
    · rw [hpa, hr]
      omega

/-- C1 counterexample: after inserting the overlapping write ranges
`(7,[0,10])` and `(7,[5,20])`, the tracker merges them into `(7,[0,20])`;
`findRange((7,[0,20]), Write)` returns `true` although no single previously
inserted range contains the query, refuting the claim's "iff". -/
theorem claim_C1_counterexample :
    (runTracker [((⟨7, 0, 10⟩ : DxvkAddressRange), DxvkAccess.Write),
        ((⟨7, 5, 20⟩ : DxvkAddressRange), DxvkAccess.Write)]).findRange
        ⟨7, 0, 20⟩ DxvkAccess.Write = true
    ∧ ([((⟨7, 0, 10⟩ : DxvkAddressRange), DxvkAccess.Write),
        ((⟨7, 5, 20⟩ : DxvkAddressRange), DxvkAccess.Write)].all
        (fun p => !(p.1.containsRange ⟨7, 0, 20⟩))) = true := by
  exact ⟨by decide, by decide⟩

/-- C1 (amended): the conflict rule holds as a one-sided guarantee plus
the concrete scenario: (1) if some previously inserted range with access
conflicting the query (prior read or write for a `Write` query, prior
write only for a `Read` query) contains the queried range, `findRange`
returns `true`; (2) if only reads were inserted, every `Read` query
returns `false`; (3) after `insertRange((7,[0,99]), Read)`,
`findRange((7,[10,20]), Read)` is `false` and
`findRange((7,[10,20]), Write)` is `true`.  (The converse of (1) fails
because insertion widens overlapping ranges to their union; see the
counterexample.) -/
theorem claim_C1 :
    (∀ (ops : List (DxvkAddressRange × DxvkAccess)) (q r : DxvkAddressRange)
      (qa ra : DxvkAccess), (r, ra) ∈ ops → conflictsWith ra qa = true →
      r.containsRange q = true → (runTracker ops).findRange q qa = true)
    ∧ (∀ (ops : List (DxvkAddressRange × DxvkAccess)) (q : DxvkAddressRange),
      (∀ p ∈ ops, p.2 = DxvkAccess.Read) →
      (runTracker ops).findRange q DxvkAccess.Read = false)
    ∧ ((runTracker [(⟨7, 0, 99⟩, DxvkAccess.Read)]).findRange
          ⟨7, 10, 20⟩ DxvkAccess.Read = false
      ∧ (runTracker [(⟨7, 0, 99⟩, DxvkAccess.Read)]).findRange
          ⟨7, 10, 20⟩ DxvkAccess.Write = true) := by
  refine ⟨?_, ?_, by decide, by decide⟩
  · intro ops q r qa ra hmem hconf hcont
    have hres : r.resource = q.resource := by
      simp only [DxvkAddressRange.containsRange, Bool.and_eq_true, beq_iff_eq] at hcont
      exact hcont.1.1
    obtain ⟨n, hn, hc⟩ := runTracker_covers ops TrackerState.init r ra hmem
    have hcq : n.containsRange q = true := containsRange_trans hc hcont
    have hbq : computeRootIndex r ra = computeRootIndex q ra :=
      computeRootIndex_congr hres ra
    have hbc : bucketContains ((runTracker ops) (computeRootIndex q ra)) q = true := by
      rw [← hbq]
      exact List.any_eq_true.mpr ⟨n, hn, hcq⟩
    cases qa with
    | Read =>
      have hra : ra = DxvkAccess.Write := by
        cases ra
        · simp [conflictsWith] at hconf
        · rfl
      subst hra
      simp only [TrackerState.findRange]
      rw [hbc]
      simp
    | Write =>
      cases ra with
      | Read =>
        simp only [TrackerState.findRange]
        rw [hbc]
        simp
      | Write =>
        simp only [TrackerState.findRange]
        rw [hbc]
        simp
  · intro ops q hops
    obtain ⟨y, hy, _, hw⟩ := computeRootIndex_shape q
    have hempty : (runTracker ops) (computeRootIndex q DxvkAccess.Write) = [] := by
      refine runTracker_read_bucket_empty ops TrackerState.init hops _ ?_ rfl
      omega
    simp [TrackerState.findRange, hempty, bucketContains]

/-- Witness for C1: instantiating the soundness direction on the concrete
read-after-write scenario from the spec. -/
theorem claim_C1_witness :
    (runTracker [(⟨7, 100, 199⟩, DxvkAccess.Write)]).findRange
      ⟨7, 150, 160⟩ DxvkAccess.Read = true :=
  claim_C1.1 [(⟨7, 100, 199⟩, DxvkAccess.Write)] ⟨7, 150, 160⟩ ⟨7, 100, 199⟩
    DxvkAccess.Read DxvkAccess.Write (by simp) (by decide) (by decide)

/-! ## Access-flag lattice lemmas -/

namespace DxvkAccessFlags

theorem le_refl (a : DxvkAccessFlags) : a.le a = true := by
  rcases a with ⟨ar, aw⟩
  cases ar <;> cases aw <;> decide

theorem le_trans {a b c : DxvkAccessFlags} (h1 : a.le b = true) (h2 : b.le c = true) :
    a.le c = true := by
  rcases a with ⟨ar, aw⟩
  rcases b with ⟨br, bw⟩
  rcases c with ⟨cr, cw⟩
  revert h1 h2
  cases ar <;> cases aw <;> cases br <;> cases bw <;> cases cr <;> cases cw <;> decide

theorem le_set_left (a b : DxvkAccessFlags) : a.le (a.set b) = true := by
  rcases a with ⟨ar, aw⟩
  rcases b with ⟨br, bw⟩
  cases ar <;> cases aw <;> cases br <;> cases bw <;> decide

theorem le_set_right (a b : DxvkAccessFlags) : b.le (a.set b) = true := by
  rcases a with ⟨ar, aw⟩
  rcases b with ⟨br, bw⟩
  cases ar <;> cases aw <;> cases br <;> cases bw <;> decide

theorem set_mono {a b c d : DxvkAccessFlags} (h1 : a.le c = true) (h2 : b.le d = true) :
    (a.set b).le (c.set d) = true := by
  rcases a with ⟨ar, aw⟩
  rcases b with ⟨br, bw⟩
  rcases c with ⟨cr, cw⟩
  rcases d with ⟨dr, dw⟩
  revert h1 h2
  cases ar <;> cases aw <;> cases br <;> cases bw <;> cases cr <;> cases cw <;>
    cases dr <;> cases dw <;> decide

theorem test_mono {a b : DxvkAccessFlags} (acc : DxvkAccess) (h : a.le b = true)
    (ht : a.test acc = true) : b.test acc = true := by
  rcases a with ⟨ar, aw⟩
  rcases b with ⟨br, bw⟩
  revert h ht
  cases acc <;> cases ar <;> cases aw <;> cases br <;> cases bw <;> decide

theorem set_none_left (a : DxvkAccessFlags) : DxvkAccessFlags.none.set a = a := by
  rcases a with ⟨ar, aw⟩
  cases ar <;> cases aw <;> rfl

theorem set_assoc (a b c : DxvkAccessFlags) : (a.set b).set c = a.set (b.set c) := by
  rcases a with ⟨ar, aw⟩
  rcases b with ⟨br, bw⟩
  rcases c with ⟨cr, cw⟩
  cases ar <;> cases aw <;> cases br <;> cases bw <;> cases cr <;> cases cw <;> rfl

theorem set_eq_self_of_le {a b : DxvkAccessFlags} (h : a.le b = true) : b.set a = b := by
  rcases a with ⟨ar, aw⟩
  rcases b with ⟨br, bw⟩
  revert h
  cases ar <;> cases aw <;> cases br <;> cases bw <;> decide

theorem le_antisymm {a b : DxvkAccessFlags} (h1 : a.le b = true) (h2 : b.le a = true) :
    a = b := by
  rcases a with ⟨ar, aw⟩
  rcases b with ⟨br, bw⟩
  revert h1 h2
  cases ar <;> cases aw <;> cases br <;> cases bw <;> decide

end DxvkAccessFlags

/-! ## Aspect-mask (bit subset) lemmas -/

theorem land_subset_testBit {a b : Nat} (h : a &&& b = a) {i : Nat}
    (hi : a.testBit i = true) : b.testBit i = true := by
  have hx := congrArg (fun n => n.testBit i) h
  simp only [Nat.testBit_land] at hx
  rw [hi] at hx
  simpa using hx.symm

theorem land_subset_refl (a : Nat) : a &&& a = a := by
  apply Nat.eq_of_testBit_eq
  intro i
  rw [Nat.testBit_land]
  cases a.testBit i <;> rfl

theorem land_subset_trans {a b c : Nat} (h1 : a &&& b = a) (h2 : b &&& c = b) :
    a &&& c = a := by
  apply Nat.eq_of_testBit_eq
  intro i
  rw [Nat.testBit_land]
  cases ha : a.testBit i
  · simp
  · simp [land_subset_testBit h2 (land_subset_testBit h1 ha)]

theorem land_subset_lor_left (a b : Nat) : a &&& (a ||| b) = a := by
  apply Nat.eq_of_testBit_eq
  intro i
  rw [Nat.testBit_land, Nat.testBit_lor]
  cases a.testBit i <;> simp

theorem land_subset_lor_mono {a c : Nat} (b : Nat) (h : a &&& c = a) :
    (a ||| b) &&& (c ||| b) = (a ||| b) := by
  apply Nat.eq_of_testBit_eq
  intro i
  rw [Nat.testBit_land, Nat.testBit_lor, Nat.testBit_lor]
  cases ha : a.testBit i
  · cases b.testBit i <;> simp
  · simp [land_subset_testBit h ha]

theorem ne_zero_of_testBit {n i : Nat} (h : n.testBit i = true) : n ≠ 0 := by
  intro hz
  rw [hz, Nat.zero_testBit] at h
  exact Bool.false_ne_true h

theorem land_ne_zero_of_subset {t r x : Nat} (hs : t &&& r = t) (h : t &&& x ≠ 0) :
    r &&& x ≠ 0 := by
  obtain ⟨i, hi⟩ := exists_testBit_of_ne_zero h
  rw [Nat.testBit_land, Bool.and_eq_true] at hi
  exact ne_zero_of_testBit (i := i)
    (by rw [Nat.testBit_land, land_subset_testBit hs hi.1, hi.2]; rfl)

theorem land_self_ne_zero_of_subset {t r : Nat} (hs : t &&& r = t) (h : t ≠ 0) :
    r &&& t ≠ 0 := by
  obtain ⟨i, hi⟩ := exists_testBit_of_ne_zero h
  exact ne_zero_of_testBit (i := i)
    (by rw [Nat.testBit_land, land_subset_testBit hs hi, hi]; rfl)

/-! ## Lawfulness of the two slice instances -/

instance : LawfulBarrierSlice DxvkBarrierBufferSlice where
  covers_merge_left := by
    intro a b
    simp only [BarrierSlice.covers, BarrierSlice.mergeB, DxvkBarrierBufferSlice.leSlice,
      DxvkBarrierBufferSlice.mergeSlice, Bool.and_eq_true, decide_eq_true_eq]
    exact ⟨⟨by omega, by omega⟩, DxvkAccessFlags.le_set_left _ _⟩
  covers_merge_right := by
    intro a b
    simp only [BarrierSlice.covers, BarrierSlice.mergeB, DxvkBarrierBufferSlice.leSlice,
      DxvkBarrierBufferSlice.mergeSlice, Bool.and_eq_true, decide_eq_true_eq]
    exact ⟨⟨by omega, by omega⟩, DxvkAccessFlags.le_set_right _ _⟩
  covers_trans := by
    intro a b c h1 h2
    simp only [BarrierSlice.covers, DxvkBarrierBufferSlice.leSlice, Bool.and_eq_true,
      decide_eq_true_eq] at h1 h2 ⊢
    exact ⟨⟨by omega, by omega⟩, DxvkAccessFlags.le_trans h1.2 h2.2⟩
  covers_overlaps := by
    intro t r x h1 h2
    simp only [BarrierSlice.covers, BarrierSlice.overlapsB, DxvkBarrierBufferSlice.leSlice,
      DxvkBarrierBufferSlice.overlapsSlice, Bool.and_eq_true, decide_eq_true_eq] at h1 h2 ⊢
    omega
  covers_dirty := by
    intro t r x h1 h2
    simp only [BarrierSlice.covers, BarrierSlice.isDirtyB, DxvkBarrierBufferSlice.leSlice,
      DxvkBarrierBufferSlice.isDirtySlice, DxvkBarrierBufferSlice.overlapsSlice,
      Bool.and_eq_true, decide_eq_true_eq] at h1 h2 ⊢
    refine ⟨DxvkAccessFlags.test_mono _ (DxvkAccessFlags.set_mono
      (DxvkAccessFlags.le_refl _) h1.2) h2.1, by omega⟩
  covers_access := by
    intro t r h
    simp only [BarrierSlice.covers, BarrierSlice.accessB, DxvkBarrierBufferSlice.leSlice,
      DxvkBarrierBufferSlice.getAccessSlice, Bool.and_eq_true] at h ⊢
    exact h.2
  merge_mono_left := by
    intro a c b h
    simp only [BarrierSlice.covers, BarrierSlice.mergeB, DxvkBarrierBufferSlice.leSlice,
      DxvkBarrierBufferSlice.mergeSlice, Bool.and_eq_true, decide_eq_true_eq] at h ⊢
    exact ⟨⟨by omega, by omega⟩,
      DxvkAccessFlags.set_mono h.2 (DxvkAccessFlags.le_refl _)⟩
  dirty_spec := by
    intro t q
    rfl
  covers_nonempty_overlaps := by
    intro t r h1 h2
    simp only [BarrierSlice.covers, BarrierSlice.overlapsB, BarrierSlice.nonemptyb,
      DxvkBarrierBufferSlice.leSlice, DxvkBarrierBufferSlice.overlapsSlice,
      DxvkBarrierBufferSlice.nonempty, Bool.and_eq_true, decide_eq_true_eq] at h1 h2 ⊢
    omega

instance : LawfulBarrierSlice DxvkBarrierImageSlice where
  covers_merge_left := by
    intro a b
    simp only [BarrierSlice.covers, BarrierSlice.mergeB, DxvkBarrierImageSlice.leSlice,
      DxvkBarrierImageSlice.mergeSlice, Bool.and_eq_true, decide_eq_true_eq, beq_iff_eq]
    exact ⟨⟨⟨⟨⟨land_subset_lor_left _ _, by omega⟩, by omega⟩, by omega⟩, by omega⟩,
      DxvkAccessFlags.le_set_left _ _⟩
  covers_merge_right := by
    intro a b
    simp only [BarrierSlice.covers, BarrierSlice.mergeB, DxvkBarrierImageSlice.leSlice,
      DxvkBarrierImageSlice.mergeSlice, Bool.and_eq_true, decide_eq_true_eq, beq_iff_eq]
    refine ⟨⟨⟨⟨⟨?_, by omega⟩, by omega⟩, by omega⟩, by omega⟩,
      DxvkAccessFlags.le_set_right _ _⟩
    rw [Nat.lor_comm]
    exact land_subset_lor_left _ _
  covers_trans := by
    intro a b c h1 h2
    simp only [BarrierSlice.covers, DxvkBarrierImageSlice.leSlice, Bool.and_eq_true,
      decide_eq_true_eq, beq_iff_eq] at h1 h2 ⊢
    exact ⟨⟨⟨⟨⟨land_subset_trans h1.1.1.1.1.1 h2.1.1.1.1.1, by omega⟩, by omega⟩,
      by omega⟩, by omega⟩, DxvkAccessFlags.le_trans h1.2 h2.2⟩
  covers_overlaps := by
    intro t r x h1 h2
    simp only [BarrierSlice.covers, BarrierSlice.overlapsB, DxvkBarrierImageSlice.leSlice,
      DxvkBarrierImageSlice.overlapsSlice, Bool.and_eq_true, decide_eq_true_eq,
      beq_iff_eq, bne_iff_ne, ne_eq] at h1 h2 ⊢
    exact ⟨⟨⟨⟨land_ne_zero_of_subset h1.1.1.1.1.1 h2.1.1.1.1, by omega⟩, by omega⟩,
      by omega⟩, by omega⟩
  covers_dirty := by
    intro t r x h1 h2
    simp only [BarrierSlice.covers, BarrierSlice.isDirtyB, DxvkBarrierImageSlice.leSlice,
      DxvkBarrierImageSlice.isDirtySlice, DxvkBarrierImageSlice.overlapsSlice,
      Bool.and_eq_true, decide_eq_true_eq, beq_iff_eq, bne_iff_ne, ne_eq] at h1 h2 ⊢
    exact ⟨DxvkAccessFlags.test_mono _ (DxvkAccessFlags.set_mono
        (DxvkAccessFlags.le_refl _) h1.2) h2.1,
      ⟨⟨⟨⟨land_ne_zero_of_subset h1.1.1.1.1.1 h2.2.1.1.1.1, by omega⟩, by omega⟩,
        by omega⟩, by omega⟩⟩
  covers_access := by
    intro t r h
    simp only [BarrierSlice.covers, BarrierSlice.accessB, DxvkBarrierImageSlice.leSlice,
      DxvkBarrierImageSlice.getAccessSlice, Bool.and_eq_true] at h ⊢
    exact h.2
  merge_mono_left := by
    intro a c b h
    simp only [BarrierSlice.covers, BarrierSlice.mergeB, DxvkBarrierImageSlice.leSlice,
      DxvkBarrierImageSlice.mergeSlice, Bool.and_eq_true, decide_eq_true_eq,
      beq_iff_eq] at h ⊢
    exact ⟨⟨⟨⟨⟨land_subset_lor_mono _ h.1.1.1.1.1, by omega⟩, by omega⟩, by omega⟩,
      by omega⟩, DxvkAccessFlags.set_mono h.2 (DxvkAccessFlags.le_refl _)⟩
  dirty_spec := by
    intro t q
    rfl
  covers_nonempty_overlaps := by
    intro t r h1 h2
    simp only [BarrierSlice.covers, BarrierSlice.overlapsB, BarrierSlice.nonemptyb,
      DxvkBarrierImageSlice.leSlice, DxvkBarrierImageSlice.overlapsSlice,
      DxvkBarrierImageSlice.nonempty, Bool.and_eq_true, decide_eq_true_eq,
      beq_iff_eq, bne_iff_ne, ne_eq] at h1 h2 ⊢
    exact ⟨⟨⟨⟨land_self_ne_zero_of_subset h1.1.1.1.1.1 h2.1.1, by omega⟩, by omega⟩,
      by omega⟩, by omega⟩

/-! ## Overflow-chain lemmas -/

theorem getListEntryL_eq_some {T : Type} {lst : List (SubListEntry T)} {n : Nat}
    {l : SubListEntry T} (h : SubresourceSet.getListEntryL lst n = some l) :
    n < SubresourceSet.NoEntry ∧ lst[n]? = some l := by
  by_cases hn : n < SubresourceSet.NoEntry
  · simpa [SubresourceSet.getListEntryL, hn] using h
  · simp [SubresourceSet.getListEntryL, hn] at h

theorem chainSlices_invisible {T : Type} (lst : List (SubListEntry T)) (f n : Nat)
    (h : lst.length ≤ n ∨ SubresourceSet.NoEntry ≤ n) : chainSlices lst f n = [] := by
  cases f with
  | zero => rfl
  | succ f =>
    rw [chainSlices]
    have : SubresourceSet.getListEntryL lst n = Option.none := by
      rcases h with h | h
      · by_cases hn : n < SubresourceSet.NoEntry
        · simp [SubresourceSet.getListEntryL, hn, List.getElem?_eq_none h]
        · simp [SubresourceSet.getListEntryL, hn]
      · simp [SubresourceSet.getListEntryL, Nat.not_lt.mpr h]
    rw [this]

theorem chainIdx_invisible {T : Type} (lst : List (SubListEntry T)) (f n : Nat)
    (h : lst.length ≤ n ∨ SubresourceSet.NoEntry ≤ n) : chainIdx lst f n = [] := by
  cases f with
  | zero => rfl
  | succ f =>
    rw [chainIdx]
    have : SubresourceSet.getListEntryL lst n = Option.none := by
      rcases h with h | h
      · by_cases hn : n < SubresourceSet.NoEntry
        · simp [SubresourceSet.getListEntryL, hn, List.getElem?_eq_none h]
        · simp [SubresourceSet.getListEntryL, hn]
      · simp [SubresourceSet.getListEntryL, Nat.not_lt.mpr h]
    rw [this]

theorem chainSlices_fuel {T : Type} {lst : List (SubListEntry T)}
    (hOK : chainOKList lst) :
    ∀ n f g, n + 1 ≤ f → n + 1 ≤ g → chainSlices lst f n = chainSlices lst g n := by
  intro n
  induction n using Nat.strong_induction_on with
  | _ n ih =>
    intro f g hf hg
    obtain ⟨f, rfl⟩ : ∃ k, f = k + 1 := ⟨f - 1, by omega⟩
    obtain ⟨g, rfl⟩ : ∃ k, g = k + 1 := ⟨g - 1, by omega⟩
    rw [chainSlices, chainSlices]
    cases hget : SubresourceSet.getListEntryL lst n with
    | none => rfl
    | some l =>
      dsimp only
      obtain ⟨hne, hsome⟩ := getListEntryL_eq_some hget
      rcases hOK n l hsome with hnext | hnext
      · rw [chainSlices_invisible lst f l.next (Or.inr (le_of_eq hnext.symm)),
          chainSlices_invisible lst g l.next (Or.inr (le_of_eq hnext.symm))]
      · rw [ih l.next hnext f g (by omega) (by omega)]

theorem chainIdx_fuel {T : Type} {lst : List (SubListEntry T)}
    (hOK : chainOKList lst) :
    ∀ n f g, n + 1 ≤ f → n + 1 ≤ g → chainIdx lst f n = chainIdx lst g n := by
  intro n
  induction n using Nat.strong_induction_on with
  | _ n ih =>
    intro f g hf hg
    obtain ⟨f, rfl⟩ : ∃ k, f = k + 1 := ⟨f - 1, by omega⟩
    obtain ⟨g, rfl⟩ : ∃ k, g = k + 1 := ⟨g - 1, by omega⟩
    rw [chainIdx, chainIdx]
    cases hget : SubresourceSet.getListEntryL lst n with
    | none => rfl
    | some l =>
      dsimp only
      obtain ⟨hne, hsome⟩ := getListEntryL_eq_some hget
      rcases hOK n l hsome with hnext | hnext
      · rw [chainIdx_invisible lst f l.next (Or.inr (le_of_eq hnext.symm)),
          chainIdx_invisible lst g l.next (Or.inr (le_of_eq hnext.symm))]
      · rw [ih l.next hnext f g (by omega) (by omega)]

theorem mem_chainIdx_lt {T : Type} {lst : List (SubListEntry T)}
    (hOK : chainOKList lst) :
    ∀ f n j, j ∈ chainIdx lst f n → j < lst.length ∧ j ≤ n := by
  intro f
  induction f with
  | zero => intro n j h; cases h
  | succ f ih =>
    intro n j h
    rw [chainIdx] at h
    cases hget : SubresourceSet.getListEntryL lst n with
    | none => rw [hget] at h; dsimp only at h; cases h
    | some l =>
      rw [hget] at h
      dsimp only at h
      obtain ⟨hne, hsome⟩ := getListEntryL_eq_some hget
      have hlen : n < lst.length := (List.getElem?_eq_some.mp hsome).1
      rcases List.mem_cons.mp h with hj | hj
      · subst hj
        exact ⟨hlen, le_refl _⟩
      · obtain ⟨h1, h2⟩ := ih l.next j hj
        rcases hOK n l hsome with hnext | hnext
        · rw [hnext, chainIdx_invisible lst f _ (Or.inr (le_refl _))] at hj
          cases hj
        · exact ⟨h1, by omega⟩

theorem getListEntryL_ge {T : Type} (lst : List (SubListEntry T)) {n : Nat}
    (h : SubresourceSet.NoEntry ≤ n) :
    SubresourceSet.getListEntryL lst n = Option.none := by
  simp [SubresourceSet.getListEntryL, Nat.not_lt.mpr h]

theorem getListEntryL_set_self {T : Type} {lst : List (SubListEntry T)} {j : Nat}
    (e : SubListEntry T) (hlen : j < lst.length) (hne : j < SubresourceSet.NoEntry) :
    SubresourceSet.getListEntryL (lst.set j e) j = some e := by
  simp only [SubresourceSet.getListEntryL, if_pos hne]
  exact List.getElem?_set_eq hlen

theorem getListEntryL_set_ne {T : Type} {lst : List (SubListEntry T)} {j n : Nat}
    (e : SubListEntry T) (hne : j ≠ n) :
    SubresourceSet.getListEntryL (lst.set j e) n = SubresourceSet.getListEntryL lst n := by
  by_cases hn : n < SubresourceSet.NoEntry
  · simp only [SubresourceSet.getListEntryL, if_pos hn]
    exact List.getElem?_set_ne hne
  · simp [SubresourceSet.getListEntryL, hn]

theorem chainIdx_set_data {T : Type} (lst : List (SubListEntry T)) (j : Nat)
    (l0 : SubListEntry T) (d : T) (hj : lst[j]? = some l0) :
    ∀ f n, chainIdx (lst.set j ⟨d, l0.next⟩) f n = chainIdx lst f n := by
  intro f
  induction f with
  | zero => intro n; rfl
  | succ f ih =>
    intro n
    rw [chainIdx, chainIdx]
    by_cases hn : SubresourceSet.NoEntry ≤ n
    · rw [getListEntryL_ge _ hn, getListEntryL_ge _ hn]
    · by_cases hjn : j = n
      · subst hjn
        have hlen : j < lst.length := (List.getElem?_eq_some.mp hj).1
        rw [getListEntryL_set_self ⟨d, l0.next⟩ hlen (by omega)]
        have hj2 : SubresourceSet.getListEntryL lst j = some l0 := by
          simp [SubresourceSet.getListEntryL, Nat.lt_of_not_le hn, hj]
        rw [hj2]
        dsimp only
        rw [ih]
      · rw [getListEntryL_set_ne _ hjn]
        cases hget : SubresourceSet.getListEntryL lst n with
        | none => rfl
        | some l =>
          dsimp only
          rw [ih]

theorem chainSlices_set_data_mem {T : Type} (lst : List (SubListEntry T)) (j : Nat)
    (l0 : SubListEntry T) (d : T) (hj : lst[j]? = some l0) :
    ∀ f n t, t ∈ chainSlices (lst.set j ⟨d, l0.next⟩) f n →
      t ∈ chainSlices lst f n ∨ t = d := by
  intro f
  induction f with
  | zero => intro n t h; cases h
  | succ f ih =>
    intro n t h
    rw [chainSlices] at h ⊢
    by_cases hn : SubresourceSet.NoEntry ≤ n
    · rw [getListEntryL_ge _ hn] at h
      dsimp only at h
      cases h
    · by_cases hjn : j = n
      · subst hjn
        have hlen : j < lst.length := (List.getElem?_eq_some.mp hj).1
        rw [getListEntryL_set_self ⟨d, l0.next⟩ hlen (by omega)] at h
        dsimp only at h
        have hj2 : SubresourceSet.getListEntryL lst j = some l0 := by
          simp [SubresourceSet.getListEntryL, Nat.lt_of_not_le hn, hj]
        rw [hj2]
        dsimp only
        rcases List.mem_cons.mp h with ht | ht
        · exact Or.inr ht
        · rcases ih l0.next t ht with hx | hx
          · exact Or.inl (List.mem_cons_of_mem _ hx)
          · exact Or.inr hx
      · rw [getListEntryL_set_ne _ hjn] at h
        cases hget : SubresourceSet.getListEntryL lst n with
        | none => rw [hget] at h; dsimp only at h; cases h
        | some l =>
          rw [hget] at h
          dsimp only at h ⊢
          rcases List.mem_cons.mp h with ht | ht
          · exact Or.inl (ht ▸ List.mem_cons_self _ _)
          · rcases ih l.next t ht with hx | hx
            · exact Or.inl (List.mem_cons_of_mem _ hx)
            · exact Or.inr hx

theorem getListEntryL_append {T : Type} (lst : List (SubListEntry T))
    (x : SubListEntry T) (n : Nat) (hn : n < lst.length) :
    SubresourceSet.getListEntryL (lst ++ [x]) n = SubresourceSet.getListEntryL lst n := by
  by_cases h : n < SubresourceSet.NoEntry
  · simp only [SubresourceSet.getListEntryL, if_pos h]
    exact List.getElem?_append_left hn
  · simp [SubresourceSet.getListEntryL, h]

theorem chainSlices_append {T : Type} {lst : List (SubListEntry T)}
    (hOK : chainOKList lst) (x : SubListEntry T) :
    ∀ f n, n < lst.length ∨ SubresourceSet.NoEntry ≤ n →
      chainSlices (lst ++ [x]) f n = chainSlices lst f n := by
  intro f
  induction f with
  | zero => intro n _; rfl
  | succ f ih =>
    intro n hn
    rcases hn with hn | hn
    · rw [chainSlices, chainSlices, getListEntryL_append lst x n hn]
      cases hget : SubresourceSet.getListEntryL lst n with
      | none => rfl
      | some l =>
        dsimp only
        obtain ⟨_, hsome⟩ := getListEntryL_eq_some hget
        rcases hOK n l hsome with hnext | hnext
        · rw [ih l.next (Or.inr (le_of_eq hnext.symm))]
        · rw [ih l.next (Or.inl (by omega))]
    · rw [chainSlices_invisible _ _ _ (Or.inr hn), chainSlices_invisible _ _ _ (Or.inr hn)]

theorem chainIdx_append {T : Type} {lst : List (SubListEntry T)}
    (hOK : chainOKList lst) (x : SubListEntry T) :
    ∀ f n, n < lst.length ∨ SubresourceSet.NoEntry ≤ n →
      chainIdx (lst ++ [x]) f n = chainIdx lst f n := by
  intro f
  induction f with
  | zero => intro n _; rfl
  | succ f ih =>
    intro n hn
    rcases hn with hn | hn
    · rw [chainIdx, chainIdx, getListEntryL_append lst x n hn]
      cases hget : SubresourceSet.getListEntryL lst n with
      | none => rfl
      | some l =>
        dsimp only
        obtain ⟨_, hsome⟩ := getListEntryL_eq_some hget
        rcases hOK n l hsome with hnext | hnext
        · rw [ih l.next (Or.inr (le_of_eq hnext.symm))]
        · rw [ih l.next (Or.inl (by omega))]
    · rw [chainIdx_invisible _ _ _ (Or.inr hn), chainIdx_invisible _ _ _ (Or.inr hn)]

theorem chainOK_set_data {T : Type} {lst : List (SubListEntry T)}
    (hOK : chainOKList lst) (j : Nat) (l0 : SubListEntry T) (d : T)
    (hj : lst[j]? = some l0) : chainOKList (lst.set j ⟨d, l0.next⟩) := by
  intro i l hi
  by_cases hij : j = i
  · subst hij
    have hlen : j < lst.length := (List.getElem?_eq_some.mp hj).1
    rw [List.getElem?_set_eq hlen] at hi
    cases hi
    exact hOK j l0 hj
  · rw [List.getElem?_set_ne hij] at hi
    exact hOK i l hi

theorem chainOK_append {T : Type} {lst : List (SubListEntry T)}
    (hOK : chainOKList lst) (t : T) (n : Nat)
    (hn : n = SubresourceSet.NoEntry ∨ n < lst.length) :
    chainOKList (lst ++ [(⟨t, n⟩ : SubListEntry T)]) := by
  intro i l hi
  by_cases hlen : i < lst.length
  · rw [List.getElem?_append_left hlen] at hi
    exact hOK i l hi
  · rcases List.getElem?_eq_some.mp hi with ⟨hl, hget⟩
    rw [List.length_append] at hl
    simp only [List.length_cons, List.length_nil] at hl
    have hieq : i = lst.length := by omega
    subst hieq
    rw [List.getElem?_concat_length] at hi
    cases hi
    dsimp only
    rcases hn with hn | hn
    · exact Or.inl hn
    · exact Or.inr hn

theorem mem_chainSlices_of_chainIdx {T : Type} {lst : List (SubListEntry T)} :
    ∀ (f n j : Nat) (l : SubListEntry T), j ∈ chainIdx lst f n → lst[j]? = some l →
      l.data ∈ chainSlices lst f n := by
  intro f
  induction f with
  | zero => intro n j l h _; cases h
  | succ f ih =>
    intro n j l h hl
    rw [chainIdx] at h
    rw [chainSlices]
    cases hget : SubresourceSet.getListEntryL lst n with
    | none => rw [hget] at h; dsimp only at h; cases h
    | some l2 =>
      rw [hget] at h
      dsimp only at h ⊢
      rcases List.mem_cons.mp h with hj | hj
      · subst hj
        have : l2 = l := by
          have h2 := (getListEntryL_eq_some hget).2
          rw [hl] at h2
          exact (Option.some_injective _ h2).symm
        subst this
        exact List.mem_cons_self _ _
      · exact List.mem_cons_of_mem _ (ih l2.next j l hj hl)

theorem chainSlices_set_data_not_mem {T : Type} {lst : List (SubListEntry T)}
    (j : Nat) (l0 : SubListEntry T) (d : T) (hj : lst[j]? = some l0) :
    ∀ f n, j ∉ chainIdx lst f n →
      chainSlices (lst.set j ⟨d, l0.next⟩) f n = chainSlices lst f n := by
  intro f
  induction f with
  | zero => intro n _; rfl
  | succ f ih =>
    intro n hnot
    rw [chainSlices, chainSlices]
    rw [chainIdx] at hnot
    by_cases hn : SubresourceSet.NoEntry ≤ n
    · rw [getListEntryL_ge _ hn, getListEntryL_ge _ hn]
    · by_cases hjn : j = n
      · subst hjn
        exfalso
        have hlen : j < lst.length := (List.getElem?_eq_some.mp hj).1
        have : SubresourceSet.getListEntryL lst j = some l0 := by
          simp [SubresourceSet.getListEntryL, Nat.lt_of_not_le hn, hj]
        rw [this] at hnot
        dsimp only at hnot
        exact hnot (List.mem_cons_self _ _)
      · rw [getListEntryL_set_ne _ hjn]
        cases hget : SubresourceSet.getListEntryL lst n with
        | none => rfl
        | some l =>
          rw [hget] at hnot
          dsimp only at hnot ⊢
          rw [ih l.next (fun hmem => hnot (List.mem_cons_of_mem _ hmem))]

theorem scanMergeList_false {T : Type} [BarrierSlice T] {lst : List (SubListEntry T)}
    {q : T} : ∀ {f n : Nat} {lst2 : List (SubListEntry T)},
    SubresourceSet.scanMergeList lst q f n = (lst2, false) → lst2 = lst := by
  intro f
  induction f with
  | zero =>
    intro n lst2 h
    rw [SubresourceSet.scanMergeList] at h
    exact (Prod.mk.injEq _ _ _ _ ▸ h).1.symm ▸ rfl
  | succ f ih =>
    intro n lst2 h
    rw [SubresourceSet.scanMergeList] at h
    cases hget : SubresourceSet.getListEntryL lst n with
    | none =>
      rw [hget] at h
      dsimp only at h
      cases h
      rfl
    | some l =>
      rw [hget] at h
      dsimp only at h
      by_cases hcm : BarrierSlice.canMergeB l.data q = true
      · rw [if_pos hcm] at h
        cases h
      · rw [if_neg hcm] at h
        exact ih h

theorem scanMergeList_true {T : Type} [BarrierSlice T] {lst : List (SubListEntry T)}
    {q : T} : ∀ {f n : Nat} {lst2 : List (SubListEntry T)},
    SubresourceSet.scanMergeList lst q f n = (lst2, true) →
    ∃ (j : Nat) (l0 : SubListEntry T), lst[j]? = some l0 ∧ j ∈ chainIdx lst f n
      ∧ BarrierSlice.canMergeB l0.data q = true
      ∧ lst2 = lst.set j ⟨BarrierSlice.mergeB l0.data q, l0.next⟩ := by
  intro f
  induction f with
  | zero =>
    intro n lst2 h
    rw [SubresourceSet.scanMergeList] at h
    cases h
  | succ f ih =>
    intro n lst2 h
    rw [SubresourceSet.scanMergeList] at h
    cases hget : SubresourceSet.getListEntryL lst n with
    | none =>
      rw [hget] at h
      dsimp only at h
      cases h
    | some l =>
      rw [hget] at h
      dsimp only at h
      by_cases hcm : BarrierSlice.canMergeB l.data q = true
      · rw [if_pos hcm] at h
        cases h
        refine ⟨n, l, (getListEntryL_eq_some hget).2, ?_, hcm, rfl⟩
        rw [chainIdx, hget]
        exact List.mem_cons_self _ _
      · rw [if_neg hcm] at h
        obtain ⟨j, l0, h1, h2, h3, h4⟩ := ih h
        refine ⟨j, l0, h1, ?_, h3, h4⟩
        rw [chainIdx, hget]
        exact List.mem_cons_of_mem _ h2

/-! ## Probe-loop and insert-path characterizations -/

theorem probeLoop_found {T : Type} [BarrierSlice T] {s : SubresourceSet T} {k : Nat} :
    ∀ {f idx i : Nat}, SubresourceSet.probeLoop s k f idx = SubresourceSet.ProbeResult.found i →
    ∃ e : SubHashEntry T, s.hashMap[i]? = some e ∧ e.version = s.version ∧ e.key = k := by
  intro f
  induction f with
  | zero =>
    intro idx i h
    rw [SubresourceSet.probeLoop] at h
    cases h
  | succ f ih =>
    intro idx i h
    rw [SubresourceSet.probeLoop] at h
    cases hget : s.hashMap[idx]? with
    | none => rw [hget] at h; cases h
    | some e =>
      rw [hget] at h
      dsimp only at h
      by_cases hv : e.version = s.version
      · rw [if_pos hv] at h
        by_cases hk : e.key = k
        · rw [if_pos hk] at h
          cases h
          exact ⟨e, hget, hv, hk⟩
        · rw [if_neg hk] at h
          exact ih h
      · rw [if_neg hv] at h
        cases h

theorem probeLoop_free {T : Type} [BarrierSlice T] {s : SubresourceSet T} {k : Nat} :
    ∀ {f idx i : Nat}, SubresourceSet.probeLoop s k f idx = SubresourceSet.ProbeResult.free i →
    ∃ e : SubHashEntry T, s.hashMap[i]? = some e ∧ e.version ≠ s.version := by
  intro f
  induction f with
  | zero =>
    intro idx i h
    rw [SubresourceSet.probeLoop] at h
    cases h
  | succ f ih =>
    intro idx i h
    rw [SubresourceSet.probeLoop] at h
    cases hget : s.hashMap[idx]? with
    | none => rw [hget] at h; cases h
    | some e =>
      rw [hget] at h
      dsimp only at h
      by_cases hv : e.version = s.version
      · rw [if_pos hv] at h
        by_cases hk : e.key = k
        · rw [if_pos hk] at h
          cases h
        · rw [if_neg hk] at h
          exact ih h
      · rw [if_neg hv] at h
        cases h
        exact ⟨e, hget, hv⟩

theorem insertHashEntry_eq_free {T : Type} [BarrierSlice T] {s s1 : SubresourceSet T}
    {k : Nat} {q : T} {i : Nat} (hgrow : s.growHashMapBeforeInsert = s1)
    (h : SubresourceSet.probeLoop s1 k s1.hashMap.length (s1.computeIndex k)
      = SubresourceSet.ProbeResult.free i) :
    s.insertHashEntry k q =
      ({ s1 with
          hashMap := s1.hashMap.set i ⟨s1.version, k, q, SubresourceSet.NoEntry⟩,
          used := s1.used + 1 }, Option.none) := by
  rw [SubresourceSet.insertHashEntry, hgrow, h]

theorem insertHashEntry_eq_fail {T : Type} [BarrierSlice T] {s s1 : SubresourceSet T}
    {k : Nat} {q : T} (hgrow : s.growHashMapBeforeInsert = s1)
    (h : SubresourceSet.probeLoop s1 k s1.hashMap.length (s1.computeIndex k)
      = SubresourceSet.ProbeResult.fail) :
    s.insertHashEntry k q = (s1, Option.none) := by
  rw [SubresourceSet.insertHashEntry, hgrow, h]

theorem insertHashEntry_eq_found {T : Type} [BarrierSlice T] {s s1 : SubresourceSet T}
    {k : Nat} {q : T} {i : Nat} (hgrow : s.growHashMapBeforeInsert = s1)
    (h : SubresourceSet.probeLoop s1 k s1.hashMap.length (s1.computeIndex k)
      = SubresourceSet.ProbeResult.found i) :
    s.insertHashEntry k q = (s1, some i) := by
  rw [SubresourceSet.insertHashEntry, hgrow, h]

theorem insert_eq_of_free {T : Type} [BarrierSlice T] {s s1 : SubresourceSet T}
    {k : Nat} {q : T} {i : Nat} (hgrow : s.growHashMapBeforeInsert = s1)
    (h : SubresourceSet.probeLoop s1 k s1.hashMap.length (s1.computeIndex k)
      = SubresourceSet.ProbeResult.free i) :
    s.insert k q =
      { s1 with
          hashMap := s1.hashMap.set i ⟨s1.version, k, q, SubresourceSet.NoEntry⟩,
          used := s1.used + 1 } := by
  rw [SubresourceSet.insert, insertHashEntry_eq_free hgrow h]

theorem insert_eq_of_fail {T : Type} [BarrierSlice T] {s s1 : SubresourceSet T}
    {k : Nat} {q : T} (hgrow : s.growHashMapBeforeInsert = s1)
    (h : SubresourceSet.probeLoop s1 k s1.hashMap.length (s1.computeIndex k)
      = SubresourceSet.ProbeResult.fail) :
    s.insert k q = s1 := by
  rw [SubresourceSet.insert, insertHashEntry_eq_fail hgrow h]

theorem getElem_bang_of_some {T : Type} [BarrierSlice T] {m : List (SubHashEntry T)}
    {i : Nat} {e : SubHashEntry T} (h : m[i]? = some e) : m[i]! = e :=
  List.getElem!_of_getElem? h

theorem insertListEntry_eq {T : Type} [BarrierSlice T] {s : SubresourceSet T}
    {i : Nat} {e : SubHashEntry T} (he : s.hashMap[i]? = some e) (t : T) :
    s.insertListEntry i t =
      { s with
          list := s.list ++ [⟨t, e.next⟩],
          hashMap := s.hashMap.set i { e with next := s.list.length } } := by
  rw [SubresourceSet.insertListEntry, getElem_bang_of_some he]

theorem insert_eq_found_nolist_merge {T : Type} [BarrierSlice T]
    {s s1 : SubresourceSet T} {k : Nat} {q : T} {i : Nat} {e : SubHashEntry T}
    (hgrow : s.growHashMapBeforeInsert = s1)
    (hfound : SubresourceSet.probeLoop s1 k s1.hashMap.length (s1.computeIndex k)
      = SubresourceSet.ProbeResult.found i)
    (he : s1.hashMap[i]? = some e)
    (hnl : SubresourceSet.getListEntryL s1.list e.next = Option.none)
    (hcm : BarrierSlice.canMergeB e.data q = true) :
    s.insert k q =
      { s1 with hashMap :=
          s1.hashMap.set i { e with data := BarrierSlice.mergeB e.data q } } := by
  rw [SubresourceSet.insert, insertHashEntry_eq_found hgrow hfound]
  dsimp only
  rw [getElem_bang_of_some he, SubresourceSet.getListEntry, hnl]
  dsimp only
  rw [if_neg (by simp [hcm])]
  rw [getElem_bang_of_some he]

theorem insert_eq_found_nolist_nomerge {T : Type} [BarrierSlice T]
    {s s1 : SubresourceSet T} {k : Nat} {q : T} {i : Nat} {e : SubHashEntry T}
    (hgrow : s.growHashMapBeforeInsert = s1)
    (hfound : SubresourceSet.probeLoop s1 k s1.hashMap.length (s1.computeIndex k)
      = SubresourceSet.ProbeResult.found i)
    (he : s1.hashMap[i]? = some e)
    (hnl : SubresourceSet.getListEntryL s1.list e.next = Option.none)
    (hcm : BarrierSlice.canMergeB e.data q = false) :
    s.insert k q =
      { s1 with
          list := s1.list ++ [⟨e.data, e.next⟩, ⟨q, s1.list.length⟩],
          hashMap := s1.hashMap.set i
            { e with next := s1.list.length + 1,
                     data := BarrierSlice.mergeB e.data q } } := by
  have hlen : i < s1.hashMap.length := (List.getElem?_eq_some.mp he).1
  have h1 := insertListEntry_eq he e.data
  have he2 : (s1.insertListEntry i e.data).hashMap[i]?
      = some { e with next := s1.list.length } := by
    rw [h1]
    exact List.getElem?_set_eq (by simpa using hlen)
  have h2 := insertListEntry_eq he2 q
  have hlen2 : i < (s1.insertListEntry i e.data).hashMap.length := by
    rw [h1]
    simpa using hlen
  have he3 : ((s1.insertListEntry i e.data).insertListEntry i q).hashMap[i]?
      = some { e with next := (s1.insertListEntry i e.data).list.length } := by
    rw [h2]
    exact List.getElem?_set_eq hlen2
  rw [SubresourceSet.insert, insertHashEntry_eq_found hgrow hfound]
  dsimp only
  rw [getElem_bang_of_some he, SubresourceSet.getListEntry, hnl]
  dsimp only
  rw [if_pos hcm, getElem_bang_of_some he3, h2]
  dsimp only
  rw [h1]
  dsimp only
  rw [List.set_set, List.set_set, List.append_assoc]
  simp [List.length_append]

theorem insert_eq_found_list_append {T : Type} [BarrierSlice T]
    {s s1 : SubresourceSet T} {k : Nat} {q : T} {i : Nat} {e : SubHashEntry T}
    {l0 : SubListEntry T}
    (hgrow : s.growHashMapBeforeInsert = s1)
    (hfound : SubresourceSet.probeLoop s1 k s1.hashMap.length (s1.computeIndex k)
      = SubresourceSet.ProbeResult.found i)
    (he : s1.hashMap[i]? = some e)
    (hl : SubresourceSet.getListEntryL s1.list e.next = some l0)
    (hbranch : BarrierSlice.isImage T = false
      ∨ (BarrierSlice.isImage T = true
          ∧ SubresourceSet.scanMergeList s1.list q (s1.list.length + 1) e.next
              = (s1.list, false))) :
    s.insert k q =
      { s1 with
          list := s1.list ++ [⟨q, e.next⟩],
          hashMap := s1.hashMap.set i
            { e with next := s1.list.length,
                     data := BarrierSlice.mergeB e.data q } } := by
  have hlen : i < s1.hashMap.length := (List.getElem?_eq_some.mp he).1
  have h1 := insertListEntry_eq he q
  have he2 : (s1.insertListEntry i q).hashMap[i]?
      = some { e with next := s1.list.length } := by
    rw [h1]
    exact List.getElem?_set_eq (by simpa using hlen)
  rw [SubresourceSet.insert, insertHashEntry_eq_found hgrow hfound]
  dsimp only
  rw [getElem_bang_of_some he, SubresourceSet.getListEntry, hl]
  dsimp only
  have hbody : (if BarrierSlice.isImage T then
      match SubresourceSet.scanMergeList s1.list q (s1.list.length + 1) e.next with
      | (lst, true) => { s1 with list := lst }
      | (_, false) => s1.insertListEntry i q
    else s1.insertListEntry i q) = s1.insertListEntry i q := by
    rcases hbranch with himg | himg
    · rw [himg]
      rfl
    · rw [himg.1, if_pos rfl, himg.2]
  rw [hbody, getElem_bang_of_some he2, h1]
  dsimp only
  rw [List.set_set]

theorem insert_eq_found_list_merged {T : Type} [BarrierSlice T]
    {s s1 : SubresourceSet T} {k : Nat} {q : T} {i : Nat} {e : SubHashEntry T}
    {l0 : SubListEntry T} {lst2 : List (SubListEntry T)}
    (hgrow : s.growHashMapBeforeInsert = s1)
    (hfound : SubresourceSet.probeLoop s1 k s1.hashMap.length (s1.computeIndex k)
      = SubresourceSet.ProbeResult.found i)
    (he : s1.hashMap[i]? = some e)
    (hl : SubresourceSet.getListEntryL s1.list e.next = some l0)
    (himg : BarrierSlice.isImage T = true)
    (hscan : SubresourceSet.scanMergeList s1.list q (s1.list.length + 1) e.next
      = (lst2, true)) :
    s.insert k q =
      { s1 with
          list := lst2,
          hashMap := s1.hashMap.set i
            { e with data := BarrierSlice.mergeB e.data q } } := by
  rw [SubresourceSet.insert, insertHashEntry_eq_found hgrow hfound]
  dsimp only
  rw [getElem_bang_of_some he, SubresourceSet.getListEntry, hl]
  dsimp only
  rw [himg, if_pos rfl, hscan]
  dsimp only
  rw [getElem_bang_of_some he]

/-! ## Walk-loop characterizations -/

theorem DxvkAccessFlags.set_le_of_le {a b c : DxvkAccessFlags} (h1 : a.le c = true)
    (h2 : b.le c = true) : (a.set b).le c = true := by
  rcases a with ⟨ar, aw⟩
  rcases b with ⟨br, bw⟩
  rcases c with ⟨cr, cw⟩
  revert h1 h2
  cases ar <;> cases aw <;> cases br <;> cases bw <;> cases cr <;> cases cw <;> decide

theorem foldl_guard_absorb {T : Type} [BarrierSlice T] (q : T) (stop : DxvkAccessFlags) :
    ∀ c : List T, (∀ t ∈ c, (BarrierSlice.accessB t).le stop = true) →
    c.foldl (fun a t =>
      if BarrierSlice.overlapsB t q then a.set (BarrierSlice.accessB t) else a) stop
      = stop := by
  intro c
  induction c with
  | nil => intro _; rfl
  | cons t rest ih =>
    intro h
    rw [List.foldl_cons]
    have ht : (BarrierSlice.accessB t).le stop = true := h t (List.mem_cons_self _ _)
    have hstep : (if BarrierSlice.overlapsB t q then
        stop.set (BarrierSlice.accessB t) else stop) = stop := by
      by_cases hov : BarrierSlice.overlapsB t q = true
      · rw [if_pos hov, DxvkAccessFlags.set_eq_self_of_le ht]
      · rw [if_neg hov]
    rw [hstep]
    exact ih (fun x hx => h x (List.mem_cons_of_mem _ hx))

theorem foldl_guard_eq_filter {T : Type} [BarrierSlice T] (q : T) :
    ∀ (c : List T) (acc : DxvkAccessFlags),
    c.foldl (fun a t =>
      if BarrierSlice.overlapsB t q then a.set (BarrierSlice.accessB t) else a) acc
      = (c.filter (fun t => BarrierSlice.overlapsB t q)).foldl
          (fun a t => a.set (BarrierSlice.accessB t)) acc := by
  intro c
  induction c with
  | nil => intro acc; rfl
  | cons t rest ih =>
    intro acc
    rw [List.foldl_cons]
    by_cases hov : BarrierSlice.overlapsB t q = true
    · rw [if_pos hov]
      have hfc : List.filter (fun t => BarrierSlice.overlapsB t q) (t :: rest)
          = t :: List.filter (fun t => BarrierSlice.overlapsB t q) rest := by
        simp [List.filter_cons, hov]
      rw [hfc, List.foldl_cons]
      exact ih _
    · rw [if_neg hov]
      have hfc : List.filter (fun t => BarrierSlice.overlapsB t q) (t :: rest)
          = List.filter (fun t => BarrierSlice.overlapsB t q) rest := by
        simp [List.filter_cons, hov]
      rw [hfc]
      exact ih _

theorem walkAccess_spec {T : Type} [BarrierSlice T] (lst : List (SubListEntry T))
    (q : T) (stop : DxvkAccessFlags) :
    ∀ (f n : Nat) (acc : DxvkAccessFlags),
    (∀ t ∈ chainSlices lst f n, (BarrierSlice.accessB t).le stop = true) →
    acc.le stop = true →
    SubresourceSet.walkAccess lst q stop f n acc
      = (chainSlices lst f n).foldl (fun a t =>
          if BarrierSlice.overlapsB t q then a.set (BarrierSlice.accessB t) else a) acc := by
  intro f
  induction f with
  | zero => intro n acc _ _; rfl
  | succ f ih =>
    intro n acc hle hacc
    rw [SubresourceSet.walkAccess, chainSlices]
    rw [chainSlices] at hle
    cases hget : SubresourceSet.getListEntryL lst n with
    | none => rfl
    | some l =>
      rw [hget] at hle
      dsimp only at hle ⊢
      by_cases hstop : acc = stop
      · subst hstop
        rw [if_pos rfl, List.foldl_cons]
        have hl : (BarrierSlice.accessB l.data).le acc = true :=
          hle l.data (List.mem_cons_self _ _)
        have hstep : (if BarrierSlice.overlapsB l.data q then
            acc.set (BarrierSlice.accessB l.data) else acc) = acc := by
          by_cases hov : BarrierSlice.overlapsB l.data q = true
          · rw [if_pos hov, DxvkAccessFlags.set_eq_self_of_le hl]
          · rw [if_neg hov]
        rw [hstep]
        exact (foldl_guard_absorb q acc (chainSlices lst f l.next)
          (fun t ht => hle t (List.mem_cons_of_mem _ ht))).symm
      · rw [if_neg hstop, List.foldl_cons]
        refine ih l.next _ (fun t ht => hle t (List.mem_cons_of_mem _ ht)) ?_
        by_cases hov : BarrierSlice.overlapsB l.data q = true
        · rw [if_pos hov]
          exact DxvkAccessFlags.set_le_of_le hacc (hle l.data (List.mem_cons_self _ _))
        · rw [if_neg hov]
          exact hacc

theorem walkDirty_spec {T : Type} [BarrierSlice T] (lst : List (SubListEntry T)) (q : T) :
    ∀ (f n : Nat) (d : Bool),
    SubresourceSet.walkDirty lst q f n d
      = (d || (chainSlices lst f n).any (fun t => BarrierSlice.isDirtyB t q)) := by
  intro f
  induction f with
  | zero => intro n d; simp [SubresourceSet.walkDirty, chainSlices]
  | succ f ih =>
    intro n d
    rw [SubresourceSet.walkDirty, chainSlices]
    cases hget : SubresourceSet.getListEntryL lst n with
    | none => simp
    | some l =>
      dsimp only
      by_cases hd : d = true
      · subst hd
        simp
      · have hd0 : d = false := by
          cases d
          · rfl
          · exact absurd rfl hd
        subst hd0
        rw [if_neg (by simp), ih]
        simp

/-! ## General invariant: initialization, clear, rehash -/

theorem chainDisj_symm {T : Type} {lst : List (SubListEntry T)} {n m : Nat}
    (h : chainDisj lst n m) : chainDisj lst m n :=
  fun x hx hmem => h x hmem hx

theorem GenInv_init {T : Type} [BarrierSlice T] : GenInv (SubresourceSet.init (T := T)) := by
  refine ⟨Nat.le_refl _, ?_, ?_, ?_, ?_, ?_⟩
  · intro e he
    cases he
  · intro j l h
    simp [SubresourceSet.init] at h
  · intro i e he
    simp [SubresourceSet.init] at he
  · intro i e he
    simp [SubresourceSet.init] at he
  · intro i j ei ej _ hei
    simp [SubresourceSet.init] at hei

theorem GenInv_clear {T : Type} [BarrierSlice T] {s : SubresourceSet T}
    (h : GenInv s) : GenInv s.clear := by
  have hdead : ∀ (i : Nat) (e : SubHashEntry T), s.clear.hashMap[i]? = some e →
      e.version = s.clear.version → False := by
    intro i e he hv
    have hmem : e ∈ s.hashMap := by
      simp only [SubresourceSet.clear] at he
      exact List.getElem?_mem he
    have := h.verLe e hmem
    simp only [SubresourceSet.clear] at hv
    omega
  refine ⟨?_, ?_, ?_, ?_, ?_, ?_⟩
  · simp only [SubresourceSet.clear]
    have := h.verPos
    omega
  · intro e he
    simp only [SubresourceSet.clear] at he ⊢
    have := h.verLe e he
    omega
  · intro j l hj
    simp [SubresourceSet.clear] at hj
  · intro i e he hv
    exact (hdead i e he hv).elim
  · intro i e he hv
    exact (hdead i e he hv).elim
  · intro i j ei ej hne hei hej hvi hvj
    exact (hdead i ei hei hvi).elim

theorem untracked_default {T : Type} [BarrierSlice T] {v : Nat} (hv : 1 ≤ v) :
    ¬ trackedEntry v (default : SubHashEntry T) := by
  intro h
  rcases h with h | h <;> simp [default] at h <;> omega

theorem relocMapOK_set {T : Type} [BarrierSlice T] {v : Nat}
    {lst : List (SubListEntry T)} {m : List (SubHashEntry T)}
    (hm : relocMapOK v lst m) (idx : Nat) (e2 : SubHashEntry T)
    (hver : e2.version ≤ v + 1)
    (hchain : trackedEntry v e2 → entryChainOK lst e2)
    (hdisj2 : ∀ (j : Nat) (ej : SubHashEntry T), m[j]? = some ej → j ≠ idx →
      trackedEntry v ej → trackedEntry v e2 →
      chainDisj lst ej.next e2.next ∧ chainDisj lst e2.next ej.next) :
    relocMapOK v lst (m.set idx e2) := by
  obtain ⟨hm1, hm2, hm3⟩ := hm
  by_cases hbound : idx < m.length
  · refine ⟨?_, ?_, ?_⟩
    · intro e he
      rcases List.mem_or_eq_of_mem_set he with he | he
      · exact hm1 e he
      · subst he
        exact hver
    · intro j e hj htrj
      by_cases hji : j = idx
      · subst hji
        rw [List.getElem?_set_eq hbound] at hj
        cases hj
        exact hchain htrj
      · rw [List.getElem?_set_ne (fun hx => hji hx.symm)] at hj
        exact hm2 j e hj htrj
    · intro a b ea eb hab ha hb htra htrb
      by_cases hai : a = idx
      · subst hai
        rw [List.getElem?_set_eq hbound] at ha
        cases ha
        rw [List.getElem?_set_ne hab] at hb
        exact (hdisj2 b eb hb (fun hx => hab hx.symm) htrb htra).2
      · rw [List.getElem?_set_ne (fun hx => hai hx.symm)] at ha
        by_cases hbi : b = idx
        · subst hbi
          rw [List.getElem?_set_eq hbound] at hb
          cases hb
          exact (hdisj2 a ea ha hai htra htrb).1
        · rw [List.getElem?_set_ne (fun hx => hbi hx.symm)] at hb
          exact hm3 a b ea eb hab ha hb htra htrb
  · rw [List.set_eq_of_length_le (by omega)]
    exact ⟨hm1, hm2, hm3⟩

theorem relocChain_inv {T : Type} [BarrierSlice T] {v : Nat} (hv : 1 ≤ v) (mask : Nat)
    {lst : List (SubListEntry T)} :
    ∀ (fuel : Nat) (held : SubHashEntry T) (m : List (SubHashEntry T)),
    relocMapOK v lst m →
    (trackedEntry v held → entryChainOK lst held) →
    (∀ (i : Nat) (ei : SubHashEntry T), m[i]? = some ei → trackedEntry v ei →
      trackedEntry v held →
      chainDisj lst ei.next held.next ∧ chainDisj lst held.next ei.next) →
    relocMapOK v lst (SubresourceSet.relocChain v mask fuel held m) := by
  intro fuel
  induction fuel with
  | zero => intro held m hm _ _; exact hm
  | succ fuel ih =>
    intro held m hm hheld hdisj
    rw [SubresourceSet.relocChain]
    by_cases hver : held.version = v
    · rw [if_pos hver]
      have htr : trackedEntry v held := Or.inl hver
      refine ih _ _ ?_ ?_ ?_
      · refine relocMapOK_set hm _ _ (by simp) ?_ ?_
        · intro _
          have hx := hheld htr
          exact hx
        · intro j ej hj hji htrj _
          exact (hdisj j ej hj htrj htr).imp id id
      · by_cases hbound :
          SubresourceSet.relocScan v mask m (m.length + 1)
            (SubresourceSet.computeHash held.key &&& mask) < m.length
        · intro htrd
          have h9 : m[SubresourceSet.relocScan v mask m (m.length + 1)
              (SubresourceSet.computeHash held.key &&& mask)]?
              = some (m[SubresourceSet.relocScan v mask m (m.length + 1)
                (SubresourceSet.computeHash held.key &&& mask)]!) := by
            rw [getElem!_pos m _ hbound]
            exact List.getElem?_eq_getElem hbound
          exact hm.2.1 _ _ h9 htrd
        · rw [getElem!_neg m _ hbound]
          intro htrd
          exact absurd htrd (untracked_default hv)
      · intro j ej hj htrj htrd
        by_cases hbound :
          SubresourceSet.relocScan v mask m (m.length + 1)
            (SubresourceSet.computeHash held.key &&& mask) < m.length
        · have hdispl : m[SubresourceSet.relocScan v mask m (m.length + 1)
              (SubresourceSet.computeHash held.key &&& mask)]?
              = some (m[SubresourceSet.relocScan v mask m (m.length + 1)
                (SubresourceSet.computeHash held.key &&& mask)]!) := by
            rw [getElem!_pos m _ hbound]
            exact List.getElem?_eq_getElem hbound
          by_cases hji : j = SubresourceSet.relocScan v mask m (m.length + 1)
              (SubresourceSet.computeHash held.key &&& mask)
          · rw [hji, List.getElem?_set_eq hbound] at hj
            cases hj
            constructor
            · exact (hdisj _ _ hdispl htrd htr).2
            · exact (hdisj _ _ hdispl htrd htr).1
          · rw [List.getElem?_set_ne (fun hx => hji hx.symm)] at hj
            constructor
            · exact hm.2.2 j _ ej _ hji hj hdispl htrj htrd
            · exact hm.2.2 _ j _ ej (fun hx => hji hx.symm) hdispl hj htrd htrj
        · rw [getElem!_neg m _ hbound] at htrd
          exact absurd htrd (untracked_default hv)
    · rw [if_neg hver]
      exact hm

theorem relocOuter_inv {T : Type} [BarrierSlice T] {v : Nat} (hv : 1 ≤ v) (mask : Nat)
    {lst : List (SubListEntry T)} :
    ∀ (remaining i : Nat) (m : List (SubHashEntry T)), relocMapOK v lst m →
    relocMapOK v lst (SubresourceSet.relocOuter v mask i remaining m) := by
  intro remaining
  induction remaining with
  | zero => intro i m hm; exact hm
  | succ remaining ih =>
    intro i m hm
    rw [SubresourceSet.relocOuter]
    cases hget : m[i]? with
    | none => exact hm
    | some e =>
      dsimp only
      obtain ⟨hm1, hm2, hm3⟩ := hm
      have hilen : i < m.length := (List.getElem?_eq_some.mp hget).1
      have hm' : relocMapOK v lst (m.set i { e with version := 0 }) := by
        refine ⟨?_, ?_, ?_⟩
        · intro x hx
          rcases List.mem_or_eq_of_mem_set hx with hx | hx
          · exact hm1 x hx
          · subst hx
            simp
        · intro j x hj htrj
          by_cases hji : j = i
          · subst hji
            rw [List.getElem?_set_eq hilen] at hj
            cases hj
            rcases htrj with hx | hx <;> simp at hx <;> omega
          · rw [List.getElem?_set_ne (fun hx => hji hx.symm)] at hj
            exact hm2 j x hj htrj
        · intro a b ea eb hab ha hb htra htrb
          by_cases hai : a = i
          · subst hai
            rw [List.getElem?_set_eq hilen] at ha
            cases ha
            rcases htra with hx | hx <;> simp at hx <;> omega
          · rw [List.getElem?_set_ne (fun hx => hai hx.symm)] at ha
            by_cases hbi : b = i
            · subst hbi
              rw [List.getElem?_set_eq hilen] at hb
              cases hb
              rcases htrb with hx | hx <;> simp at hx <;> omega
            · rw [List.getElem?_set_ne (fun hx => hbi hx.symm)] at hb
              exact hm3 a b ea eb hab ha hb htra htrb
      refine ih (i + 1) _ (relocChain_inv hv mask _ e _ hm' ?_ ?_)
      · intro htr
        exact hm2 i e hget htr
      · intro j ej hj htrj htre
        by_cases hji : j = i
        · subst hji
          rw [List.getElem?_set_eq hilen] at hj
          cases hj
          rcases htrj with hx | hx <;> simp at hx <;> omega
        · rw [List.getElem?_set_ne (fun hx => hji hx.symm)] at hj
          constructor
          · exact hm3 j i ej e hji hj hget htrj htre
          · exact hm3 i j e ej (fun hx => hji hx.symm) hget hj htre htrj

theorem resizeMap_inv {T : Type} [BarrierSlice T] {v : Nat} (hv : 1 ≤ v)
    {lst : List (SubListEntry T)} {m : List (SubHashEntry T)} (n : Nat)
    (hm : relocMapOK v lst m) : relocMapOK v lst (SubresourceSet.resizeMap m n) := by
  obtain ⟨hm1, hm2, hm3⟩ := hm
  rw [SubresourceSet.resizeMap]
  by_cases hle : n ≤ m.length
  · rw [if_pos hle]
    have hsub : ∀ (i : Nat) (e : SubHashEntry T), (m.take n)[i]? = some e →
        m[i]? = some e := by
      intro i e h
      rw [List.getElem?_take] at h
      by_cases hi : i < n
      · rw [if_pos hi] at h
        exact h
      · rw [if_neg hi] at h
        cases h
    refine ⟨?_, ?_, ?_⟩
    · intro e he
      exact hm1 e (List.mem_of_mem_take he)
    · intro i e hi
      exact hm2 i e (hsub i e hi)
    · intro a b ea eb hab ha hb
      exact hm3 a b ea eb hab (hsub a ea ha) (hsub b eb hb)
  · rw [if_neg hle]
    have hsub : ∀ (i : Nat) (e : SubHashEntry T),
        (m ++ List.replicate (n - m.length) ⟨0, 0, BarrierSlice.dflt, 0⟩)[i]? = some e →
        m[i]? = some e ∨ e = ⟨0, 0, BarrierSlice.dflt, 0⟩ := by
      intro i e h
      by_cases hi : i < m.length
      · rw [List.getElem?_append_left hi] at h
        exact Or.inl h
      · rw [List.getElem?_append_right (by omega)] at h
        right
        have := List.getElem?_mem h
        exact (List.eq_of_mem_replicate this).symm ▸ rfl
    refine ⟨?_, ?_, ?_⟩
    · intro e he
      rcases List.mem_append.mp he with he | he
      · exact hm1 e he
      · have := List.eq_of_mem_replicate he
        subst this
        simp
    · intro i e hi htr
      rcases hsub i e hi with h | h
      · exact hm2 i e h htr
      · subst h
        rcases htr with hx | hx <;> simp at hx <;> omega
    · intro a b ea eb hab ha hb htra htrb
      rcases hsub a ea ha with h | h
      · rcases hsub b eb hb with h2 | h2
        · exact hm3 a b ea eb hab h h2 htra htrb
        · subst h2
          exact absurd htrb (by intro hx; rcases hx with hx | hx <;> simp at hx <;> omega)
      · subst h
        exact absurd htra (by intro hx; rcases hx with hx | hx <;> simp at hx <;> omega)

theorem GenInv_growHashMap {T : Type} [BarrierSlice T] {s : SubresourceSet T}
    (h : GenInv s) (n : Nat) : GenInv (s.growHashMap n) := by
  have hv := h.verPos
  have hstart : relocMapOK s.version s.list s.hashMap := by
    refine ⟨?_, ?_, ?_⟩
    · intro e he
      have := h.verLe e he
      omega
    · intro i e hi htr
      have hver : e.version = s.version := by
        rcases htr with hx | hx
        · exact hx
        · have := h.verLe e (List.getElem?_mem hi)
          omega
      exact ⟨h.headsOK i e hi hver, h.coversInv i e hi hver⟩
    · intro a b ea eb hab ha hb htra htrb
      have hva : ea.version = s.version := by
        rcases htra with hx | hx
        · exact hx
        · have := h.verLe ea (List.getElem?_mem ha)
          omega
      have hvb : eb.version = s.version := by
        rcases htrb with hx | hx
        · exact hx
        · have := h.verLe eb (List.getElem?_mem hb)
          omega
      exact h.disj a b ea eb hab ha hb hva hvb
  have hfinal : relocMapOK s.version s.list
      (SubresourceSet.relocOuter s.version s.indexMask 0 s.computeSize
        (SubresourceSet.resizeMap s.hashMap n)) :=
    relocOuter_inv hv s.indexMask s.computeSize 0 _ (resizeMap_inv hv n hstart)
  obtain ⟨hf1, hf2, hf3⟩ := hfinal
  refine ⟨?_, ?_, ?_, ?_, ?_, ?_⟩
  · simp only [SubresourceSet.growHashMap]
    omega
  · intro e he
    simp only [SubresourceSet.growHashMap] at he ⊢
    have := hf1 e he
    omega
  · exact h.chainOK
  · intro i e hi hver
    simp only [SubresourceSet.growHashMap] at hi hver
    exact (hf2 i e hi (Or.inr hver)).1
  · intro i e hi hver
    simp only [SubresourceSet.growHashMap] at hi hver ⊢
    exact (hf2 i e hi (Or.inr hver)).2
  · intro i j ei ej hne hi hj hvi hvj
    simp only [SubresourceSet.growHashMap] at hi hj hvi hvj ⊢
    exact hf3 i j ei ej hne hi hj (Or.inr hvi) (Or.inr hvj)

theorem chainSlices_nil_of_none {T : Type} {lst : List (SubListEntry T)} {n : Nat}
    (h : SubresourceSet.getListEntryL lst n = Option.none) (f : Nat) :
    chainSlices lst f n = [] := by
  cases f with
  | zero => rfl
  | succ f => rw [chainSlices, h]

theorem chainIdx_nil_of_none {T : Type} {lst : List (SubListEntry T)} {n : Nat}
    (h : SubresourceSet.getListEntryL lst n = Option.none) (f : Nat) :
    chainIdx lst f n = [] := by
  cases f with
  | zero => rfl
  | succ f => rw [chainIdx, h]

theorem getListEntryL_append_new {T : Type} {lst : List (SubListEntry T)}
    (x : SubListEntry T) (hlen : lst.length < SubresourceSet.NoEntry) :
    SubresourceSet.getListEntryL (lst ++ [x]) lst.length = some x := by
  simp only [SubresourceSet.getListEntryL, if_pos hlen]
  exact List.getElem?_concat_length lst x

theorem chainSlices_append_head_mem {T : Type} {lst : List (SubListEntry T)}
    (hOK : chainOKList lst) {q0 : T} {nxt : Nat}
    (hnxt : nxt < lst.length ∨ SubresourceSet.NoEntry ≤ nxt)
    (f : Nat) (hf : lst.length + 2 ≤ f) :
    ∀ t ∈ chainSlices (lst ++ [⟨q0, nxt⟩]) f lst.length,
      t = q0 ∨ t ∈ chainSlices lst (lst.length + 1) nxt := by
  intro t ht
  by_cases hvis : lst.length < SubresourceSet.NoEntry
  · obtain ⟨f, rfl⟩ : ∃ g, f = g + 1 := ⟨f - 1, by omega⟩
    rw [chainSlices, getListEntryL_append_new _ hvis] at ht
    dsimp only at ht
    rcases List.mem_cons.mp ht with ht | ht
    · exact Or.inl ht
    · right
      rw [chainSlices_append hOK _ f nxt hnxt] at ht
      rcases hnxt with hnxt | hnxt
      · rw [chainSlices_fuel hOK nxt f (lst.length + 1) (by omega) (by omega)] at ht
        exact ht
      · rw [chainSlices_invisible lst f nxt (Or.inr hnxt)] at ht
        cases ht
  · rw [chainSlices_invisible _ f lst.length (Or.inr (by omega))] at ht
    cases ht

theorem chainIdx_append_head_mem {T : Type} {lst : List (SubListEntry T)}
    (hOK : chainOKList lst) {q0 : T} {nxt : Nat}
    (hnxt : nxt < lst.length ∨ SubresourceSet.NoEntry ≤ nxt)
    (f : Nat) (hf : lst.length + 2 ≤ f) :
    ∀ x ∈ chainIdx (lst ++ [⟨q0, nxt⟩]) f lst.length,
      x = lst.length ∨ x ∈ chainIdx lst (lst.length + 1) nxt := by
  intro x hx
  by_cases hvis : lst.length < SubresourceSet.NoEntry
  · obtain ⟨f, rfl⟩ : ∃ g, f = g + 1 := ⟨f - 1, by omega⟩
    rw [chainIdx, getListEntryL_append_new _ hvis] at hx
    dsimp only at hx
    rcases List.mem_cons.mp hx with hx | hx
    · exact Or.inl hx
    · right
      rw [chainIdx_append hOK _ f nxt hnxt] at hx
      rcases hnxt with hnxt | hnxt
      · rw [chainIdx_fuel hOK nxt f (lst.length + 1) (by omega) (by omega)] at hx
        exact hx
      · rw [chainIdx_invisible lst f nxt (Or.inr hnxt)] at hx
        cases hx
  · rw [chainIdx_invisible _ f lst.length (Or.inr (by omega))] at hx
    cases hx

theorem GenInv_growBeforeInsert {T : Type} [BarrierSlice T] {s : SubresourceSet T}
    (h : GenInv s) : GenInv s.growHashMapBeforeInsert := by
  rw [SubresourceSet.growHashMapBeforeInsert]
  by_cases hc : 7 * s.computeSize ≤ 10 * s.used
  · rw [if_pos hc]
    exact GenInv_growHashMap h _
  · rw [if_neg hc]
    exact h

/-! ## General invariant: the insert paths -/

theorem GenInv_path_fresh {T : Type} [BarrierSlice T] {s1 : SubresourceSet T}
    (h : GenInv s1) (i k : Nat) (q : T) :
    GenInv { s1 with
        hashMap := s1.hashMap.set i ⟨s1.version, k, q, SubresourceSet.NoEntry⟩,
        used := s1.used + 1 } := by
  refine ⟨h.verPos, ?_, h.chainOK, ?_, ?_, ?_⟩
  · intro e he
    dsimp only at he ⊢
    rcases List.mem_or_eq_of_mem_set he with he | he
    · exact h.verLe e he
    · subst he
      exact le_refl _
  · intro j e hj hv
    dsimp only at hj hv ⊢
    by_cases hji : j = i
    · subst hji
      by_cases hb : j < s1.hashMap.length
      · rw [List.getElem?_set_eq hb] at hj
        cases hj
        exact Or.inl rfl
      · rw [List.set_eq_of_length_le (by omega)] at hj
        exact h.headsOK j e hj hv
    · rw [List.getElem?_set_ne (fun hx => hji hx.symm)] at hj
      exact h.headsOK j e hj hv
  · intro j e hj hv
    dsimp only at hj hv ⊢
    by_cases hji : j = i
    · subst hji
      by_cases hb : j < s1.hashMap.length
      · rw [List.getElem?_set_eq hb] at hj
        cases hj
        intro t ht
        rw [chainSlices_invisible _ _ _ (Or.inr (le_refl _))] at ht
        cases ht
      · rw [List.set_eq_of_length_le (by omega)] at hj
        exact h.coversInv j e hj hv
    · rw [List.getElem?_set_ne (fun hx => hji hx.symm)] at hj
      exact h.coversInv j e hj hv
  · intro a b ea eb hab ha hb hva hvb
    dsimp only at ha hb hva hvb ⊢
    by_cases hbig : i < s1.hashMap.length
    · by_cases hai : a = i
      · subst hai
        rw [List.getElem?_set_eq hbig] at ha
        cases ha
        intro x hx
        rw [chainIdx_invisible _ _ _ (Or.inr (le_refl _))] at hx
        cases hx
      · rw [List.getElem?_set_ne (fun hx => hai hx.symm)] at ha
        by_cases hbi : b = i
        · subst hbi
          rw [List.getElem?_set_eq hbig] at hb
          cases hb
          intro x hx hmem
          rw [chainIdx_invisible _ _ _ (Or.inr (le_refl _))] at hmem
          cases hmem
        · rw [List.getElem?_set_ne (fun hx => hbi hx.symm)] at hb
          exact h.disj a b ea eb hab ha hb hva hvb
    · rw [List.set_eq_of_length_le (by omega)] at ha hb
      exact h.disj a b ea eb hab ha hb hva hvb

theorem GenInv_path_merge_only {T : Type} [BarrierSlice T] [LawfulBarrierSlice T]
    {s1 : SubresourceSet T} (h : GenInv s1) {i : Nat} {e : SubHashEntry T}
    (he : s1.hashMap[i]? = some e) (hv : e.version = s1.version)
    (hnl : SubresourceSet.getListEntryL s1.list e.next = Option.none) (q : T) :
    GenInv { s1 with
        hashMap := s1.hashMap.set i { e with data := BarrierSlice.mergeB e.data q } } := by
  have hb : i < s1.hashMap.length := (List.getElem?_eq_some.mp he).1
  refine ⟨h.verPos, ?_, h.chainOK, ?_, ?_, ?_⟩
  · intro x hx
    dsimp only at hx ⊢
    rcases List.mem_or_eq_of_mem_set hx with hx | hx
    · exact h.verLe x hx
    · subst hx
      exact h.verLe e (List.getElem?_mem he)
  · intro j x hj hvx
    dsimp only at hj hvx ⊢
    by_cases hji : j = i
    · subst hji
      rw [List.getElem?_set_eq hb] at hj
      cases hj
      exact h.headsOK j e he hv
    · rw [List.getElem?_set_ne (fun hx => hji hx.symm)] at hj
      exact h.headsOK j x hj hvx
  · intro j x hj hvx
    dsimp only at hj hvx ⊢
    by_cases hji : j = i
    · subst hji
      rw [List.getElem?_set_eq hb] at hj
      cases hj
      intro t ht
      rw [chainSlices_nil_of_none hnl] at ht
      cases ht
    · rw [List.getElem?_set_ne (fun hx => hji hx.symm)] at hj
      exact h.coversInv j x hj hvx
  · intro a b ea eb hab ha hb2 hva hvb
    dsimp only at ha hb2 hva hvb ⊢
    by_cases hai : a = i
    · subst hai
      rw [List.getElem?_set_eq hb] at ha
      cases ha
      rw [List.getElem?_set_ne hab] at hb2
      exact h.disj a b e eb hab he hb2 hv hvb
    · rw [List.getElem?_set_ne (fun hx => hai hx.symm)] at ha
      by_cases hbi : b = i
      · subst hbi
        rw [List.getElem?_set_eq hb] at hb2
        cases hb2
        exact h.disj a b ea e hab ha he hva hv
      · rw [List.getElem?_set_ne (fun hx => hbi hx.symm)] at hb2
        exact h.disj a b ea eb hab ha hb2 hva hvb

theorem chainSlices_append_other {T : Type} {lst : List (SubListEntry T)}
    (hOK : chainOKList lst) (x : SubListEntry T) {n : Nat} (hn : headOK lst n) :
    chainSlices (lst ++ [x]) ((lst ++ [x]).length + 1) n
      = chainSlices lst (lst.length + 1) n := by
  rcases hn with hn | hn
  · subst hn
    rw [chainSlices_invisible _ _ _ (Or.inr (le_refl _)),
      chainSlices_invisible _ _ _ (Or.inr (le_refl _))]
  · rw [chainSlices_append hOK x _ n (Or.inl hn)]
    exact chainSlices_fuel hOK n _ _ (by simp; omega) (by omega)

theorem chainIdx_append_other {T : Type} {lst : List (SubListEntry T)}
    (hOK : chainOKList lst) (x : SubListEntry T) {n : Nat} (hn : headOK lst n) :
    chainIdx (lst ++ [x]) ((lst ++ [x]).length + 1) n
      = chainIdx lst (lst.length + 1) n := by
  rcases hn with hn | hn
  · subst hn
    rw [chainIdx_invisible _ _ _ (Or.inr (le_refl _)),
      chainIdx_invisible _ _ _ (Or.inr (le_refl _))]
  · rw [chainIdx_append hOK x _ n (Or.inl hn)]
    exact chainIdx_fuel hOK n _ _ (by simp; omega) (by omega)

theorem headOK_or {T : Type} {lst : List (SubListEntry T)} {n : Nat}
    (hn : headOK lst n) : n < lst.length ∨ SubresourceSet.NoEntry ≤ n := by
  rcases hn with hn | hn
  · exact Or.inr (le_of_eq hn.symm)
  · exact Or.inl hn

theorem headOK_append {T : Type} {lst : List (SubListEntry T)} {n : Nat}
    (hn : headOK lst n) (x : SubListEntry T) : headOK (lst ++ [x]) n := by
  rcases hn with hn | hn
  · exact Or.inl hn
  · right
    simp
    omega

theorem GenInv_path_single_append {T : Type} [BarrierSlice T] [LawfulBarrierSlice T]
    {s1 : SubresourceSet T} (h : GenInv s1) {i : Nat} {e : SubHashEntry T}
    (he : s1.hashMap[i]? = some e) (hv : e.version = s1.version) (q : T) :
    GenInv { s1 with
        list := s1.list ++ [⟨q, e.next⟩],
        hashMap := s1.hashMap.set i
          { e with next := s1.list.length,
                   data := BarrierSlice.mergeB e.data q } } := by
  have hb : i < s1.hashMap.length := (List.getElem?_eq_some.mp he).1
  have hhead : headOK s1.list e.next := h.headsOK i e he hv
  have hOK2 : chainOKList (s1.list ++ [(⟨q, e.next⟩ : SubListEntry T)]) :=
    chainOK_append h.chainOK q e.next hhead
  refine ⟨h.verPos, ?_, hOK2, ?_, ?_, ?_⟩
  · intro x hx
    dsimp only at hx ⊢
    rcases List.mem_or_eq_of_mem_set hx with hx | hx
    · exact h.verLe x hx
    · subst hx
      exact h.verLe e (List.getElem?_mem he)
  · intro j x hj hvx
    dsimp only at hj hvx ⊢
    by_cases hji : j = i
    · subst hji
      rw [List.getElem?_set_eq hb] at hj
      cases hj
      right
      simp
    · rw [List.getElem?_set_ne (fun hx => hji hx.symm)] at hj
      rcases h.headsOK j x hj hvx with hx | hx
      · exact Or.inl hx
      · right
        simp
        omega
  · intro j x hj hvx
    dsimp only at hj hvx ⊢
    by_cases hji : j = i
    · subst hji
      rw [List.getElem?_set_eq hb] at hj
      cases hj
      intro t ht
      dsimp only at ht ⊢
      rcases chainSlices_append_head_mem h.chainOK (headOK_or hhead) _
          (by simp) t ht with ht | ht
      · subst ht
        exact LawfulBarrierSlice.covers_merge_right e.data t
      · exact LawfulBarrierSlice.covers_trans _ _ _ (h.coversInv j e he hv t ht)
          (LawfulBarrierSlice.covers_merge_left e.data q)
    · rw [List.getElem?_set_ne (fun hx => hji hx.symm)] at hj
      intro t ht
      rw [chainSlices_append_other h.chainOK _ (h.headsOK j x hj hvx)] at ht
      exact h.coversInv j x hj hvx t ht
  · intro a b ea eb hab ha hb2 hva hvb
    dsimp only at ha hb2 hva hvb ⊢
    by_cases hai : a = i
    · subst hai
      rw [List.getElem?_set_eq hb] at ha
      cases ha
      rw [List.getElem?_set_ne hab] at hb2
      intro x hx hmem
      rw [chainIdx_append_other h.chainOK _ (h.headsOK b eb hb2 hvb)] at hmem
      have hxb := mem_chainIdx_lt h.chainOK _ _ _ hmem
      rcases chainIdx_append_head_mem h.chainOK (headOK_or hhead) _ (by simp) x hx
          with hx | hx
      · omega
      · exact h.disj a b e eb hab he hb2 hv hvb x hx hmem
    · rw [List.getElem?_set_ne (fun hx => hai hx.symm)] at ha
      by_cases hbi : b = i
      · subst hbi
        rw [List.getElem?_set_eq hb] at hb2
        cases hb2
        intro x hx hmem
        rw [chainIdx_append_other h.chainOK _ (h.headsOK a ea ha hva)] at hx
        have hxa := mem_chainIdx_lt h.chainOK _ _ _ hx
        rcases chainIdx_append_head_mem h.chainOK (headOK_or hhead) _ (by simp) x hmem
            with hx2 | hx2
        · omega
        · exact h.disj b a e ea (fun hx3 => hab hx3.symm) he ha hv hva x hx2 hx
      · rw [List.getElem?_set_ne (fun hx => hbi hx.symm)] at hb2
        intro x hx hmem
        rw [chainIdx_append_other h.chainOK _ (h.headsOK a ea ha hva)] at hx
        rw [chainIdx_append_other h.chainOK _ (h.headsOK b eb hb2 hvb)] at hmem
        exact h.disj a b ea eb hab ha hb2 hva hvb x hx hmem

theorem GenInv_path_double_append {T : Type} [BarrierSlice T] [LawfulBarrierSlice T]
    {s1 : SubresourceSet T} (h : GenInv s1) {i : Nat} {e : SubHashEntry T}
    (he : s1.hashMap[i]? = some e) (hv : e.version = s1.version)
    (hnl : SubresourceSet.getListEntryL s1.list e.next = Option.none) (q : T) :
    GenInv { s1 with
        list := s1.list ++ [⟨e.data, e.next⟩, ⟨q, s1.list.length⟩],
        hashMap := s1.hashMap.set i
          { e with next := s1.list.length + 1,
                   data := BarrierSlice.mergeB e.data q } } := by
  have hb : i < s1.hashMap.length := (List.getElem?_eq_some.mp he).1
  have hhead : headOK s1.list e.next := h.headsOK i e he hv
  have hassoc : s1.list ++ [(⟨e.data, e.next⟩ : SubListEntry T), ⟨q, s1.list.length⟩]
      = (s1.list ++ [(⟨e.data, e.next⟩ : SubListEntry T)])
          ++ [(⟨q, s1.list.length⟩ : SubListEntry T)] := by
    simp
  have hOK1 : chainOKList (s1.list ++ [(⟨e.data, e.next⟩ : SubListEntry T)]) :=
    chainOK_append h.chainOK e.data e.next hhead
  have hOK2 : chainOKList ((s1.list ++ [(⟨e.data, e.next⟩ : SubListEntry T)])
      ++ [(⟨q, s1.list.length⟩ : SubListEntry T)]) :=
    chainOK_append hOK1 q s1.list.length (Or.inr (by simp))
  have keyS : ∀ f, (s1.list ++ [(⟨e.data, e.next⟩ : SubListEntry T)]).length + 2 ≤ f →
      ∀ t ∈ chainSlices ((s1.list ++ [(⟨e.data, e.next⟩ : SubListEntry T)])
          ++ [(⟨q, s1.list.length⟩ : SubListEntry T)]) f (s1.list.length + 1),
        t = q ∨ t = e.data := by
    intro f hf t ht
    have ht2 : t ∈ chainSlices ((s1.list ++ [(⟨e.data, e.next⟩ : SubListEntry T)])
        ++ [(⟨q, s1.list.length⟩ : SubListEntry T)]) f
        (s1.list ++ [(⟨e.data, e.next⟩ : SubListEntry T)]).length := by
      simpa using ht
    rcases chainSlices_append_head_mem hOK1 (Or.inl (by simp)) f hf t ht2 with h1 | h1
    · exact Or.inl h1
    · rcases chainSlices_append_head_mem h.chainOK (headOK_or hhead) _ (by simp) t h1
        with h2 | h2
      · exact Or.inr h2
      · rw [chainSlices_nil_of_none hnl] at h2
        cases h2
  have keyI : ∀ f, (s1.list ++ [(⟨e.data, e.next⟩ : SubListEntry T)]).length + 2 ≤ f →
      ∀ x ∈ chainIdx ((s1.list ++ [(⟨e.data, e.next⟩ : SubListEntry T)])
          ++ [(⟨q, s1.list.length⟩ : SubListEntry T)]) f (s1.list.length + 1),
        x = s1.list.length + 1 ∨ x = s1.list.length := by
    intro f hf x hx
    have hx2 : x ∈ chainIdx ((s1.list ++ [(⟨e.data, e.next⟩ : SubListEntry T)])
        ++ [(⟨q, s1.list.length⟩ : SubListEntry T)]) f
        (s1.list ++ [(⟨e.data, e.next⟩ : SubListEntry T)]).length := by
      simpa using hx
    rcases chainIdx_append_head_mem hOK1 (Or.inl (by simp)) f hf x hx2 with h1 | h1
    · left
      simpa using h1
    · rcases chainIdx_append_head_mem h.chainOK (headOK_or hhead) _ (by simp) x h1
        with h2 | h2
      · exact Or.inr h2
      · rw [chainIdx_nil_of_none hnl] at h2
        cases h2
  rw [hassoc]
  refine ⟨h.verPos, ?_, hOK2, ?_, ?_, ?_⟩
  · intro x hx
    dsimp only at hx ⊢
    rcases List.mem_or_eq_of_mem_set hx with hx | hx
    · exact h.verLe x hx
    · subst hx
      exact h.verLe e (List.getElem?_mem he)
  · intro j x hj hvx
    dsimp only at hj hvx ⊢
    by_cases hji : j = i
    · subst hji
      rw [List.getElem?_set_eq hb] at hj
      cases hj
      right
      simp
    · rw [List.getElem?_set_ne (fun hx => hji hx.symm)] at hj
      rcases h.headsOK j x hj hvx with hx | hx
      · exact Or.inl hx
      · right
        simp
        omega
  · intro j x hj hvx
    dsimp only at hj hvx ⊢
    by_cases hji : j = i
    · subst hji
      rw [List.getElem?_set_eq hb] at hj
      cases hj
      intro t ht
      dsimp only at ht ⊢
      rcases keyS _ (by simp) t ht with ht | ht
      · subst ht
        exact LawfulBarrierSlice.covers_merge_right _ _
      · subst ht
        exact LawfulBarrierSlice.covers_merge_left _ _
    · rw [List.getElem?_set_ne (fun hx => hji hx.symm)] at hj
      intro t ht
      have hh := h.headsOK j x hj hvx
      rw [chainSlices_append_other hOK1 _ (headOK_append hh _),
        chainSlices_append_other h.chainOK _ hh] at ht
      exact h.coversInv j x hj hvx t ht
  · intro a b ea eb hab ha hb2 hva hvb
    dsimp only at ha hb2 hva hvb ⊢
    by_cases hai : a = i
    · subst hai
      rw [List.getElem?_set_eq hb] at ha
      cases ha
      rw [List.getElem?_set_ne hab] at hb2
      intro x hx hmem
      have hh := h.headsOK b eb hb2 hvb
      rw [chainIdx_append_other hOK1 _ (headOK_append hh _),
        chainIdx_append_other h.chainOK _ hh] at hmem
      have hxb := mem_chainIdx_lt h.chainOK _ _ _ hmem
      rcases keyI _ (by simp) x hx with hx | hx <;> omega
    · rw [List.getElem?_set_ne (fun hx => hai hx.symm)] at ha
      by_cases hbi : b = i
      · subst hbi
        rw [List.getElem?_set_eq hb] at hb2
        cases hb2
        intro x hx hmem
        have hh := h.headsOK a ea ha hva
        rw [chainIdx_append_other hOK1 _ (headOK_append hh _),
          chainIdx_append_other h.chainOK _ hh] at hx
        have hxa := mem_chainIdx_lt h.chainOK _ _ _ hx
        rcases keyI _ (by simp) x hmem with hx2 | hx2 <;> omega
      · rw [List.getElem?_set_ne (fun hx => hbi hx.symm)] at hb2
        intro x hx hmem
        have hha := h.headsOK a ea ha hva
        have hhb := h.headsOK b eb hb2 hvb
        rw [chainIdx_append_other hOK1 _ (headOK_append hha _),
          chainIdx_append_other h.chainOK _ hha] at hx
        rw [chainIdx_append_other hOK1 _ (headOK_append hhb _),
          chainIdx_append_other h.chainOK _ hhb] at hmem
        exact h.disj a b ea eb hab ha hb2 hva hvb x hx hmem

theorem GenInv_path_scan_merged {T : Type} [BarrierSlice T] [LawfulBarrierSlice T]
    {s1 : SubresourceSet T} (h : GenInv s1) {i : Nat} {e : SubHashEntry T} {q : T}
    {lst2 : List (SubListEntry T)}
    (he : s1.hashMap[i]? = some e) (hv : e.version = s1.version)
    (hscan : SubresourceSet.scanMergeList s1.list q (s1.list.length + 1) e.next
      = (lst2, true)) :
    GenInv { s1 with
        list := lst2,
        hashMap := s1.hashMap.set i
          { e with data := BarrierSlice.mergeB e.data q } } := by
  obtain ⟨jm, l0, hj, hjc, hcm, hl2⟩ := scanMergeList_true hscan
  subst hl2
  have hb : i < s1.hashMap.length := (List.getElem?_eq_some.mp he).1
  have hlen2 : (s1.list.set jm ⟨BarrierSlice.mergeB l0.data q, l0.next⟩).length
      = s1.list.length := by
    simp
  refine ⟨h.verPos, ?_, chainOK_set_data h.chainOK jm l0 _ hj, ?_, ?_, ?_⟩
  · intro x hx
    dsimp only at hx ⊢
    rcases List.mem_or_eq_of_mem_set hx with hx | hx
    · exact h.verLe x hx
    · subst hx
      exact h.verLe e (List.getElem?_mem he)
  · intro k x hk hvx
    dsimp only at hk hvx ⊢
    have hOKk : headOK s1.list x.next →
        headOK (s1.list.set jm ⟨BarrierSlice.mergeB l0.data q, l0.next⟩) x.next := by
      intro hn
      rcases hn with hn | hn
      · exact Or.inl hn
      · right
        rw [hlen2]
        exact hn
    by_cases hki : k = i
    · subst hki
      rw [List.getElem?_set_eq hb] at hk
      cases hk
      exact hOKk (h.headsOK k e he hv)
    · rw [List.getElem?_set_ne (fun hx => hki hx.symm)] at hk
      exact hOKk (h.headsOK k x hk hvx)
  · intro k x hk hvx
    dsimp only at hk hvx ⊢
    by_cases hki : k = i
    · subst hki
      rw [List.getElem?_set_eq hb] at hk
      cases hk
      intro t ht
      dsimp only at ht ⊢
      rw [hlen2] at ht
      rcases chainSlices_set_data_mem s1.list jm l0 _ hj _ _ t ht with ht | ht
      · exact LawfulBarrierSlice.covers_trans _ _ _ (h.coversInv k e he hv t ht)
          (LawfulBarrierSlice.covers_merge_left e.data q)
      · subst ht
        have hmem : l0.data ∈ chainSlices s1.list (s1.list.length + 1) e.next :=
          mem_chainSlices_of_chainIdx _ _ _ _ hjc hj
        exact LawfulBarrierSlice.merge_mono_left _ _ _ (h.coversInv k e he hv _ hmem)
    · rw [List.getElem?_set_ne (fun hx => hki hx.symm)] at hk
      intro t ht
      rw [hlen2] at ht
      have hnot : jm ∉ chainIdx s1.list (s1.list.length + 1) x.next :=
        h.disj i k e x (fun hx => hki hx.symm) he hk hv hvx jm hjc
      rw [chainSlices_set_data_not_mem jm l0 _ hj _ _ hnot] at ht
      exact h.coversInv k x hk hvx t ht
  · intro a b ea eb hab ha hb2 hva hvb
    dsimp only at ha hb2 hva hvb ⊢
    intro x hx hmem
    rw [hlen2] at hx hmem
    rw [chainIdx_set_data s1.list jm l0 _ hj] at hx hmem
    by_cases hai : a = i
    · subst hai
      rw [List.getElem?_set_eq hb] at ha
      cases ha
      rw [List.getElem?_set_ne hab] at hb2
      exact h.disj a b e eb hab he hb2 hv hvb x hx hmem
    · rw [List.getElem?_set_ne (fun hx2 => hai hx2.symm)] at ha
      by_cases hbi : b = i
      · subst hbi
        rw [List.getElem?_set_eq hb] at hb2
        cases hb2
        exact h.disj a b ea e hab ha he hva hv x hx hmem
      · rw [List.getElem?_set_ne (fun hx2 => hbi hx2.symm)] at hb2
        exact h.disj a b ea eb hab ha hb2 hva hvb x hx hmem

theorem GenInv_insert {T : Type} [BarrierSlice T] [LawfulBarrierSlice T]
    {s : SubresourceSet T} (h : GenInv s) (k : Nat) (q : T) :
    GenInv (s.insert k q) := by
  obtain ⟨s1, hgrow⟩ : ∃ s1, s.growHashMapBeforeInsert = s1 := ⟨_, rfl⟩
  have h1 : GenInv s1 := hgrow ▸ GenInv_growBeforeInsert h
  cases hp : SubresourceSet.probeLoop s1 k s1.hashMap.length (s1.computeIndex k) with
  | fail =>
    rw [insert_eq_of_fail hgrow hp]
    exact h1
  | free i =>
    rw [insert_eq_of_free hgrow hp]
    exact GenInv_path_fresh h1 i k q
  | found i =>
    obtain ⟨e, he, hv, hk⟩ := probeLoop_found hp
    cases hnl : SubresourceSet.getListEntryL s1.list e.next with
    | none =>
      cases hcm : BarrierSlice.canMergeB e.data q with
      | true =>
        rw [insert_eq_found_nolist_merge hgrow hp he hnl hcm]
        exact GenInv_path_merge_only h1 he hv hnl q
      | false =>
        rw [insert_eq_found_nolist_nomerge hgrow hp he hnl hcm]
        exact GenInv_path_double_append h1 he hv hnl q
    | some l0 =>
      cases himg : BarrierSlice.isImage T with
      | false =>
        rw [insert_eq_found_list_append hgrow hp he hnl (Or.inl himg)]
        exact GenInv_path_single_append h1 he hv q
      | true =>
        cases hscan : SubresourceSet.scanMergeList s1.list q (s1.list.length + 1)
            e.next with
        | mk lst2 merged =>
          cases merged with
          | false =>
            have hl2 : lst2 = s1.list := scanMergeList_false hscan
            subst hl2
            rw [insert_eq_found_list_append hgrow hp he hnl
              (Or.inr ⟨himg, hscan⟩)]
            exact GenInv_path_single_append h1 he hv q
          | true =>
            rw [insert_eq_found_list_merged hgrow hp he hnl himg hscan]
            exact GenInv_path_scan_merged h1 he hv hscan

theorem GenInv_foldl {T : Type} [BarrierSlice T] [LawfulBarrierSlice T]
    (ops : List (SubOp T)) :
    ∀ s : SubresourceSet T, GenInv s → GenInv (ops.foldl SubOp.apply s) := by
  induction ops with
  | nil =>
    intro s h
    exact h
  | cons op rest ih =>
    intro s h
    rw [List.foldl_cons]
    apply ih
    cases op with
    | ins k q => exact GenInv_insert h k q
    | clr => exact GenInv_clear h

theorem GenInv_runSubOps {T : Type} [BarrierSlice T] [LawfulBarrierSlice T]
    (ops : List (SubOp T)) : GenInv (runSubOps ops) :=
  GenInv_foldl ops _ GenInv_init

/-! ## Superset invariant (claim C4) -/

/-- C4 (corrected): in every subresource-set state reachable by inserts and
clears (getAccess/isDirty do not modify the state), every live hash entry's
stored slice carries a superset of each chained slice's access flags, and
overlaps every *nonempty* slice reachable through its overflow chain.  The
overlap half of the original claim is quantified over all chained slices
and fails for empty ones, which `insert` happily chains but which overlap
nothing; see the counterexample. -/
theorem claim_C4 {T : Type} [BarrierSlice T] [LawfulBarrierSlice T]
    (ops : List (SubOp T)) (i : Nat) (e : SubHashEntry T)
    (he : (runSubOps ops).hashMap[i]? = some e)
    (hv : e.version = (runSubOps ops).version) :
    ∀ t ∈ chainSlices (runSubOps ops).list
        ((runSubOps ops).list.length + 1) e.next,
      (BarrierSlice.accessB t).le (BarrierSlice.accessB e.data) = true
        ∧ (BarrierSlice.nonemptyb t = true →
            BarrierSlice.overlapsB e.data t = true) := by
  intro t ht
  have h := GenInv_runSubOps ops
  have hc := h.coversInv i e he hv t ht
  exact ⟨LawfulBarrierSlice.covers_access _ _ hc,
    fun hne => LawfulBarrierSlice.covers_nonempty_overlaps _ _ hc hne⟩

/-- Witness for C4: the concrete reachable state built by `opsC4ex` has a
live entry (slot 59) with a two-element chain, and the theorem's conclusion
holds there. -/
theorem claim_C4_witness :
    ((runSubOps opsC4ex).hashMap[59]? = some entC4ex
        ∧ entC4ex.version = (runSubOps opsC4ex).version)
      ∧ ∀ t ∈ chainSlices (runSubOps opsC4ex).list
          ((runSubOps opsC4ex).list.length + 1) entC4ex.next,
        (BarrierSlice.accessB t).le (BarrierSlice.accessB entC4ex.data) = true
          ∧ (BarrierSlice.nonemptyb t = true →
              BarrierSlice.overlapsB entC4ex.data t = true) :=
  ⟨⟨by decide, by decide⟩,
    claim_C4 opsC4ex 59 entC4ex (by decide) (by decide)⟩

/-- Counterexample to the unrestricted overlap half of C4: after the two
inserts of `opsC4ex`, the live entry's chain contains the empty slice
`[100,100)`, which the representative slice `[0,100)` does not overlap
(`overlaps` is strict range intersection, so empty slices overlap
nothing). -/
theorem claim_C4_counterexample :
    (runSubOps opsC4ex).hashMap[59]? = some entC4ex
      ∧ entC4ex.version = (runSubOps opsC4ex).version
      ∧ (⟨100, 100, ⟨false, true⟩⟩ : DxvkBarrierBufferSlice)
          ∈ chainSlices (runSubOps opsC4ex).list
              ((runSubOps opsC4ex).list.length + 1) entC4ex.next
      ∧ BarrierSlice.overlapsB entC4ex.data
          (⟨100, 100, ⟨false, true⟩⟩ : DxvkBarrierBufferSlice) = false := by
  decide

/-! ## Probe-sequence characterization on safe states -/

theorem land63_eq_mod (x : Nat) : x &&& 63 = x % 64 := by
  apply Nat.eq_of_testBit_eq
  intro i
  have h63 : (63 : Nat) = 2 ^ 6 - 1 := by norm_num
  have h64 : (64 : Nat) = 2 ^ 6 := by norm_num
  rw [Nat.testBit_land, h63, h64, Nat.testBit_two_pow_sub_one, Nat.testBit_mod_two_pow]
  exact Bool.and_comm _ _

theorem probeLoop_free_walk {T : Type} [BarrierSlice T] {s : SubresourceSet T}
    (hmask : s.indexMask = 63) (k : Nat) :
    ∀ (fuel idx i : Nat), idx < 64 →
      SubresourceSet.probeLoop s k fuel idx = SubresourceSet.ProbeResult.free i →
      ∃ d, d < fuel ∧ i = (idx + d) % 64
        ∧ ∀ t, t < d → ∃ e : SubHashEntry T,
            s.hashMap[(idx + t) % 64]? = some e
              ∧ e.version = s.version ∧ e.key ≠ k := by
  intro fuel
  induction fuel with
  | zero =>
    intro idx i _ h
    rw [SubresourceSet.probeLoop] at h
    cases h
  | succ fuel ih =>
    intro idx i hidx h
    rw [SubresourceSet.probeLoop] at h
    cases hget : s.hashMap[idx]? with
    | none =>
      rw [hget] at h
      cases h
    | some e =>
      rw [hget] at h
      dsimp only at h
      by_cases hv : e.version = s.version
      · rw [if_pos hv] at h
        by_cases hk : e.key = k
        · rw [if_pos hk] at h
          cases h
        · rw [if_neg hk] at h
          have hadv : s.advanceIndex idx = (idx + 1) % 64 := by
            rw [SubresourceSet.advanceIndex, hmask]
            exact land63_eq_mod _
          rw [hadv] at h
          obtain ⟨d, hd, hi, hw⟩ := ih ((idx + 1) % 64) i (Nat.mod_lt _ (by omega)) h
          refine ⟨d + 1, by omega, ?_, ?_⟩
          · rw [hi]
            omega
          · intro t ht
            cases t with
            | zero =>
              refine ⟨e, ?_, hv, hk⟩
              rw [Nat.add_zero, Nat.mod_eq_of_lt hidx]
              exact hget
            | succ t =>
              obtain ⟨e2, h1, h2, h3⟩ := hw t (by omega)
              refine ⟨e2, ?_, h2, h3⟩
              have hix : (idx + (t + 1)) % 64 = ((idx + 1) % 64 + t) % 64 := by
                omega
              rw [hix]
              exact h1
      · rw [if_neg hv] at h
        cases h
        refine ⟨0, by omega, ?_, ?_⟩
        · rw [Nat.add_zero, Nat.mod_eq_of_lt hidx]
        · intro t ht
          omega

theorem probeLoop_fail_walk {T : Type} [BarrierSlice T] {s : SubresourceSet T}
    (hlen : s.hashMap.length = 64) (hmask : s.indexMask = 63) (k : Nat) :
    ∀ (fuel idx : Nat), idx < 64 →
      SubresourceSet.probeLoop s k fuel idx = SubresourceSet.ProbeResult.fail →
      ∀ t, t < fuel → ∃ e : SubHashEntry T,
        s.hashMap[(idx + t) % 64]? = some e
          ∧ e.version = s.version ∧ e.key ≠ k := by
  intro fuel
  induction fuel with
  | zero =>
    intro idx _ _ t ht
    omega
  | succ fuel ih =>
    intro idx hidx h t ht
    rw [SubresourceSet.probeLoop] at h
    cases hget : s.hashMap[idx]? with
    | none =>
      have : s.hashMap.length ≤ idx := List.getElem?_eq_none_iff.mp hget
      omega
    | some e =>
      rw [hget] at h
      dsimp only at h
      by_cases hv : e.version = s.version
      · rw [if_pos hv] at h
        by_cases hk : e.key = k
        · rw [if_pos hk] at h
          cases h
        · rw [if_neg hk] at h
          have hadv : s.advanceIndex idx = (idx + 1) % 64 := by
            rw [SubresourceSet.advanceIndex, hmask]
            exact land63_eq_mod _
          rw [hadv] at h
          cases t with
          | zero =>
            refine ⟨e, ?_, hv, hk⟩
            rw [Nat.add_zero, Nat.mod_eq_of_lt hidx]
            exact hget
          | succ t =>
            obtain ⟨e2, h1, h2, h3⟩ :=
              ih ((idx + 1) % 64) (Nat.mod_lt _ (by omega)) h t (by omega)
            refine ⟨e2, ?_, h2, h3⟩
            have hix : (idx + (t + 1)) % 64 = ((idx + 1) % 64 + t) % 64 := by
              omega
            rw [hix]
            exact h1
      · rw [if_neg hv] at h
        cases h

theorem probe_finds_live {T : Type} [BarrierSlice T] {s : SubresourceSet T}
    (h : SafeInv s) {k i : Nat} {e : SubHashEntry T}
    (hlen : s.hashMap.length = 64) (hmask : s.indexMask = 63)
    (hi : s.hashMap[i]? = some e) (hv : e.version = s.version) (hk : e.key = k) :
    ∃ j, SubresourceSet.probeLoop s k s.hashMap.length (s.computeIndex k)
        = SubresourceSet.ProbeResult.found j
      ∧ ∃ e2 : SubHashEntry T, s.hashMap[j]? = some e2
          ∧ e2.version = s.version ∧ e2.key = k := by
  have hibound : i < 64 := by
    have := (List.getElem?_eq_some.mp hi).1
    omega
  have hhome : s.computeIndex k = SubresourceSet.computeHash k % 64 := by
    rw [SubresourceSet.computeIndex, hmask]
    exact land63_eq_mod _
  have hhb : SubresourceSet.computeHash k % 64 < 64 := Nat.mod_lt _ (by omega)
  have hpath := h.pathLive i e hi hv
  rw [hk] at hpath
  cases hp : SubresourceSet.probeLoop s k s.hashMap.length (s.computeIndex k) with
  | found j =>
    obtain ⟨e2, h1, h2, h3⟩ := probeLoop_found hp
    exact ⟨j, rfl, e2, h1, h2, h3⟩
  | free j =>
    exfalso
    obtain ⟨edead, hjd, hdv⟩ := probeLoop_free hp
    obtain ⟨d, hd, hj, hw⟩ := probeLoop_free_walk hmask k _ _ j
      (by rw [hhome]; exact hhb) hp
    rw [hhome] at hj hw
    rw [hlen] at hd
    rcases Nat.lt_trichotomy d ((i + 64 - SubresourceSet.computeHash k % 64) % 64)
      with hlt | heq | hgt
    · obtain ⟨e2, h1, h2⟩ := hpath d hlt
      rw [← hj] at h1
      rw [hjd] at h1
      cases h1
      exact hdv h2
    · have hji : j = i := by
        rw [hj, heq]
        omega
      rw [hji, hi] at hjd
      cases hjd
      exact hdv hv
    · obtain ⟨e2, h1, h2, h3⟩ := hw _ hgt
      have hsl : (SubresourceSet.computeHash k % 64
          + (i + 64 - SubresourceSet.computeHash k % 64) % 64) % 64 = i := by
        omega
      rw [hsl] at h1
      rw [hi] at h1
      cases h1
      exact h3 hk
  | fail =>
    exfalso
    have hw := probeLoop_fail_walk hlen hmask k _ _
      (by rw [hhome]; exact hhb) hp
    obtain ⟨e2, h1, h2, h3⟩ := hw ((i + 64 - SubresourceSet.computeHash k % 64) % 64)
      (by rw [hlen]; omega)
    rw [hhome] at h1
    have hsl : (SubresourceSet.computeHash k % 64
        + (i + 64 - SubresourceSet.computeHash k % 64) % 64) % 64 = i := by
      omega
    rw [hsl] at h1
    rw [hi] at h1
    cases h1
    exact h3 hk

theorem no_live_key_of_free {T : Type} [BarrierSlice T] {s : SubresourceSet T}
    (h : SafeInv s) {k j : Nat}
    (hlen : s.hashMap.length = 64) (hmask : s.indexMask = 63)
    (hp : SubresourceSet.probeLoop s k s.hashMap.length (s.computeIndex k)
      = SubresourceSet.ProbeResult.free j) :
    ∀ (i : Nat) (e : SubHashEntry T), s.hashMap[i]? = some e →
      e.version = s.version → e.key ≠ k := by
  intro i e hi hv hk
  obtain ⟨j2, hp2, _⟩ := probe_finds_live h hlen hmask hi hv hk
  rw [hp] at hp2
  cases hp2

theorem no_live_key_of_findHashIdx_none {T : Type} [BarrierSlice T]
    {s : SubresourceSet T} (h : SafeInv s) {k : Nat}
    (hn : s.findHashIdx k = Option.none) :
    ∀ (i : Nat) (e : SubHashEntry T), s.hashMap[i]? = some e →
      e.version = s.version → e.key ≠ k := by
  intro i e hi hv hk
  rcases h.phase with ⟨_, hmap, _⟩ | ⟨hmask, hlen⟩
  · rw [hmap] at hi
    cases hi
  · rw [SubresourceSet.findHashIdx] at hn
    by_cases hu : s.used = 0
    · have hmem : e ∈ s.hashMap.filter (fun e => e.version == s.version) :=
        List.mem_filter.mpr ⟨List.getElem?_mem hi, by simp [hv]⟩
      have h0 := h.usedEq
      rw [hu] at h0
      have := List.length_pos.mpr (List.ne_nil_of_mem hmem)
      omega
    · rw [if_neg hu] at hn
      obtain ⟨j, hpj, _⟩ := probe_finds_live h hlen hmask hi hv hk
      rw [hpj] at hn
      cases hn

/-! ## List counting helpers -/

theorem filter_eq_single {α : Type} (p : α → Bool) :
    ∀ (l : List α) (i : Nat) (x : α), l[i]? = some x → p x = true →
      (∀ (j : Nat) (y : α), l[j]? = some y → p y = true → j = i) →
      l.filter p = [x] := by
  intro l
  induction l with
  | nil =>
    intro i x hx _ _
    cases hx
  | cons a l ih =>
    intro i x hx hp huniq
    cases i with
    | zero =>
      rw [List.getElem?_cons_zero] at hx
      cases hx
      rw [List.filter_cons, if_pos hp]
      have hnil : l.filter p = [] := by
        rw [List.filter_eq_nil_iff]
        intro b hb hpb
        obtain ⟨j, hj⟩ := List.mem_iff_getElem?.mp hb
        have := huniq (j + 1) b (by rw [List.getElem?_cons_succ]; exact hj)
          (by exact hpb)
        omega
      rw [hnil]
    | succ i =>
      rw [List.getElem?_cons_succ] at hx
      have hpa : p a = false := by
        by_contra hpa
        have := huniq 0 a List.getElem?_cons_zero (by
          cases hq : p a
          · exact absurd hq hpa
          · rfl)
        omega
      rw [List.filter_cons, if_neg (by simp [hpa])]
      refine ih i x hx hp ?_
      intro j y hj hpy
      have := huniq (j + 1) y (by rw [List.getElem?_cons_succ]; exact hj) hpy
      omega

theorem length_filter_set_ft {α : Type} (p : α → Bool) :
    ∀ (l : List α) (i : Nat) (x y : α), l[i]? = some x → p x = false → p y = true →
      (List.filter p (l.set i y)).length = (List.filter p l).length + 1 := by
  intro l
  induction l with
  | nil =>
    intro i x y hx _ _
    cases hx
  | cons a l ih =>
    intro i x y hx hpx hpy
    cases i with
    | zero =>
      rw [List.getElem?_cons_zero] at hx
      cases hx
      rw [List.set_cons_zero, List.filter_cons, List.filter_cons, if_pos hpy,
        if_neg (by simp [hpx])]
      rfl
    | succ i =>
      rw [List.getElem?_cons_succ] at hx
      rw [List.set_cons_succ, List.filter_cons, List.filter_cons]
      cases hpa : p a
      · rw [if_neg (by simp), if_neg (by simp)]
        exact ih i x y hx hpx hpy
      · rw [if_pos rfl, if_pos rfl]
        dsimp only [List.length_cons]
        rw [ih i x y hx hpx hpy]

theorem length_filter_set_tt {α : Type} (p : α → Bool) :
    ∀ (l : List α) (i : Nat) (x y : α), l[i]? = some x → p x = true → p y = true →
      (List.filter p (l.set i y)).length = (List.filter p l).length := by
  intro l
  induction l with
  | nil =>
    intro i x y hx _ _
    cases hx
  | cons a l ih =>
    intro i x y hx hpx hpy
    cases i with
    | zero =>
      rw [List.getElem?_cons_zero] at hx
      cases hx
      rw [List.set_cons_zero, List.filter_cons, List.filter_cons, if_pos hpy,
        if_pos hpx]
      rfl
    | succ i =>
      rw [List.getElem?_cons_succ] at hx
      rw [List.set_cons_succ, List.filter_cons, List.filter_cons]
      cases hpa : p a
      · rw [if_neg (by simp), if_neg (by simp)]
        exact ih i x y hx hpx hpy
      · rw [if_pos rfl, if_pos rfl]
        dsimp only [List.length_cons]
        rw [ih i x y hx hpx hpy]

/-! ## Query characterization on safe states -/

theorem none_le (a : DxvkAccessFlags) : DxvkAccessFlags.none.le a = true := by
  rcases a with ⟨ar, aw⟩
  cases ar <;> cases aw <;> decide

theorem storedSlices_nil_of_no_live {T : Type} [BarrierSlice T]
    {s : SubresourceSet T} {k : Nat}
    (hno : ∀ (i : Nat) (e : SubHashEntry T), s.hashMap[i]? = some e →
      e.version = s.version → e.key ≠ k) :
    storedSlices s k = [] := by
  rw [storedSlices]
  have hf : s.hashMap.filter (fun e => e.version == s.version && e.key == k) = [] := by
    rw [List.filter_eq_nil_iff]
    intro e hmem hpe
    obtain ⟨i, hi⟩ := List.mem_iff_getElem?.mp hmem
    have h1 : e.version = s.version ∧ e.key = k := by
      simpa using hpe
    exact hno i e hi h1.1 h1.2
  rw [hf]
  rfl

theorem findHashEntry_none_no_live {T : Type} [BarrierSlice T]
    {s : SubresourceSet T} (h : SafeInv s) {k : Nat}
    (hn : s.findHashEntry k = Option.none) :
    ∀ (i : Nat) (e : SubHashEntry T), s.hashMap[i]? = some e →
      e.version = s.version → e.key ≠ k := by
  rw [SubresourceSet.findHashEntry] at hn
  cases hidx : s.findHashIdx k with
  | none => exact no_live_key_of_findHashIdx_none h hidx
  | some i =>
    rw [hidx] at hn
    have hn2 : s.hashMap[i]? = Option.none := hn
    exfalso
    rw [SubresourceSet.findHashIdx] at hidx
    by_cases hu : s.used = 0
    · rw [if_pos hu] at hidx
      cases hidx
    · rw [if_neg hu] at hidx
      cases hp : SubresourceSet.probeLoop s k s.hashMap.length (s.computeIndex k) with
      | found j =>
        rw [hp] at hidx
        dsimp only at hidx
        cases hidx
        obtain ⟨e2, hj, _, _⟩ := probeLoop_found hp
        rw [hn2] at hj
        cases hj
      | free j =>
        rw [hp] at hidx
        dsimp only at hidx
        cases hidx
      | fail =>
        rw [hp] at hidx
        dsimp only at hidx
        cases hidx

theorem findHashEntry_some_char {T : Type} [BarrierSlice T] {s : SubresourceSet T}
    (h : SafeInv s) {k : Nat} {e : SubHashEntry T}
    (he : s.findHashEntry k = some e) :
    (∃ i : Nat, s.hashMap[i]? = some e) ∧ e.version = s.version ∧ e.key = k
      ∧ storedSlices s k = entrySlices s e := by
  rw [SubresourceSet.findHashEntry] at he
  cases hidx : s.findHashIdx k with
  | none =>
    rw [hidx] at he
    cases he
  | some i =>
    rw [hidx] at he
    have he2 : s.hashMap[i]? = some e := he
    rw [SubresourceSet.findHashIdx] at hidx
    by_cases hu : s.used = 0
    · rw [if_pos hu] at hidx
      cases hidx
    · rw [if_neg hu] at hidx
      cases hp : SubresourceSet.probeLoop s k s.hashMap.length (s.computeIndex k) with
      | found j =>
        rw [hp] at hidx
        dsimp only at hidx
        cases hidx
        obtain ⟨e2, hj, hv2, hk2⟩ := probeLoop_found hp
        rw [he2] at hj
        cases hj
        refine ⟨⟨i, he2⟩, hv2, hk2, ?_⟩
        have hfilter : s.hashMap.filter
            (fun x => x.version == s.version && x.key == k) = [e] := by
          refine filter_eq_single _ s.hashMap i e he2 (by simp [hv2, hk2]) ?_
          intro j y hjy hpy
          have hy : y.version = s.version ∧ y.key = k := by
            simpa using hpy
          exact h.keyUniq j i y e hjy he2 hy.1 hv2 (by rw [hy.2, hk2])
        rw [storedSlices, hfilter]
        simp
      | free j =>
        rw [hp] at hidx
        dsimp only at hidx
        cases hidx
      | fail =>
        rw [hp] at hidx
        dsimp only at hidx
        cases hidx

theorem getAccess_eq_overlapUnion {T : Type} [BarrierSlice T] [LawfulBarrierSlice T]
    {s : SubresourceSet T} (h : SafeInv s) (k : Nat) (q : T) :
    s.getAccess k q = overlapUnion (storedSlices s k) q := by
  cases hfe : s.findHashEntry k with
  | none =>
    rw [SubresourceSet.getAccess, hfe,
      storedSlices_nil_of_no_live (findHashEntry_none_no_live h hfe)]
    rfl
  | some e =>
    obtain ⟨⟨i, hi⟩, hv, hk, hstored⟩ := findHashEntry_some_char h hfe
    have hcov := h.coversInv i e hi hv
    rw [SubresourceSet.getAccess, hfe, hstored]
    dsimp only
    by_cases hov : BarrierSlice.overlapsB e.data q = false
    · rw [if_pos hov]
      have hnone : ∀ t ∈ entrySlices s e, BarrierSlice.overlapsB t q = false := by
        intro t ht
        rw [entrySlices] at ht
        cases hgl : SubresourceSet.getListEntryL s.list e.next with
        | none =>
          rw [hgl] at ht
          dsimp only at ht
          have ht2 : t = e.data := by
            simpa using ht
          rw [ht2]
          exact hov
        | some l =>
          rw [hgl] at ht
          dsimp only at ht
          cases hoq : BarrierSlice.overlapsB t q
          · rfl
          · have h2 := LawfulBarrierSlice.covers_overlaps t e.data q (hcov t ht) hoq
            rw [h2] at hov
            cases hov
      have hfil : (entrySlices s e).filter (fun t => BarrierSlice.overlapsB t q)
          = [] := by
        rw [List.filter_eq_nil_iff]
        intro t ht hp2
        rw [hnone t ht] at hp2
        cases hp2
      rw [overlapUnion, hfil]
      rfl
    · rw [if_neg hov]
      have hovt : BarrierSlice.overlapsB e.data q = true := by
        cases hq : BarrierSlice.overlapsB e.data q
        · exact absurd hq hov
        · rfl
      rw [SubresourceSet.getListEntry]
      cases hgl : SubresourceSet.getListEntryL s.list e.next with
      | none =>
        have hent : entrySlices s e = [e.data] := by
          rw [entrySlices, hgl]
        rw [hent, overlapUnion]
        simp [hovt, DxvkAccessFlags.set_none_left]
      | some l =>
        have hent : entrySlices s e
            = chainSlices s.list (s.list.length + 1) e.next := by
          rw [entrySlices, hgl]
        have hle : ∀ t ∈ chainSlices s.list (s.list.length + 1) e.next,
            (BarrierSlice.accessB t).le (BarrierSlice.accessB e.data) = true :=
          fun t ht => LawfulBarrierSlice.covers_access _ _ (hcov t ht)
        rw [walkAccess_spec s.list q _ _ _ _ hle (none_le _),
          foldl_guard_eq_filter, hent, overlapUnion]

theorem isDirty_eq_any {T : Type} [BarrierSlice T] [LawfulBarrierSlice T]
    {s : SubresourceSet T} (h : SafeInv s) (k : Nat) (q : T) :
    s.isDirty k q = (storedSlices s k).any (fun t => BarrierSlice.isDirtyB t q) := by
  cases hfe : s.findHashEntry k with
  | none =>
    rw [SubresourceSet.isDirty, hfe,
      storedSlices_nil_of_no_live (findHashEntry_none_no_live h hfe)]
    rfl
  | some e =>
    obtain ⟨⟨i, hi⟩, hv, hk, hstored⟩ := findHashEntry_some_char h hfe
    have hcov := h.coversInv i e hi hv
    rw [SubresourceSet.isDirty, hfe, hstored]
    dsimp only
    by_cases hrep : BarrierSlice.isDirtyB e.data q = false
    · rw [if_pos hrep]
      have hall : ∀ t ∈ entrySlices s e, BarrierSlice.isDirtyB t q = false := by
        intro t ht
        rw [entrySlices] at ht
        cases hgl : SubresourceSet.getListEntryL s.list e.next with
        | none =>
          rw [hgl] at ht
          dsimp only at ht
          have ht2 : t = e.data := by
            simpa using ht
          rw [ht2]
          exact hrep
        | some l =>
          rw [hgl] at ht
          dsimp only at ht
          cases hdq : BarrierSlice.isDirtyB t q
          · rfl
          · have h2 := LawfulBarrierSlice.covers_dirty t e.data q (hcov t ht) hdq
            rw [h2] at hrep
            cases hrep
      have : (entrySlices s e).any (fun t => BarrierSlice.isDirtyB t q) = false := by
        rw [List.any_eq_false]
        intro t ht hp2
        rw [hall t ht] at hp2
        cases hp2
      rw [this]
    · rw [if_neg hrep]
      have hrept : BarrierSlice.isDirtyB e.data q = true := by
        cases hq : BarrierSlice.isDirtyB e.data q
        · exact absurd hq hrep
        · rfl
      rw [SubresourceSet.getListEntry]
      cases hgl : SubresourceSet.getListEntryL s.list e.next with
      | none =>
        have hent : entrySlices s e = [e.data] := by
          rw [entrySlices, hgl]
        rw [hent]
        simp [hrept]
      | some l =>
        have hent : entrySlices s e
            = chainSlices s.list (s.list.length + 1) e.next := by
          rw [entrySlices, hgl]
        rw [walkDirty_spec, hent]
        simp

/-! ## Safe-state invariant: preservation -/

theorem SafeInv_init {T : Type} [BarrierSlice T] :
    SafeInv (SubresourceSet.init (T := T)) := by
  refine ⟨GenInv_init, Or.inl ⟨rfl, rfl, rfl⟩, rfl, ?_, ?_, ?_⟩
  · show (0 : Nat) ≤ 45
    omega
  · intro i j ei ej hi
    simp [SubresourceSet.init] at hi
  · intro i e hi
    simp [SubresourceSet.init] at hi

theorem SafeInv_clear {T : Type} [BarrierSlice T] {s : SubresourceSet T}
    (h : SafeInv s) : SafeInv s.clear := by
  have hdead : ∀ (i : Nat) (e : SubHashEntry T), s.clear.hashMap[i]? = some e →
      e.version = s.clear.version → False := by
    intro i e he hv
    have hmem : e ∈ s.hashMap := by
      simp only [SubresourceSet.clear] at he
      exact List.getElem?_mem he
    have := h.verLe e hmem
    simp only [SubresourceSet.clear] at hv
    omega
  refine ⟨GenInv_clear h.toGenInv, ?_, ?_, ?_, ?_, ?_⟩
  · rcases h.phase with ⟨h1, h2, _⟩ | ⟨h1, h2⟩
    · exact Or.inl ⟨h1, h2, rfl⟩
    · exact Or.inr ⟨h1, h2⟩
  · dsimp only [SubresourceSet.clear]
    have hf : s.hashMap.filter (fun e => e.version == s.version + 1) = [] := by
      rw [List.filter_eq_nil_iff]
      intro e hmem hpe
      have h1 := h.verLe e hmem
      have h2 : e.version = s.version + 1 := by
        simpa using hpe
      omega
    rw [hf]
    rfl
  · show (0 : Nat) ≤ 45
    omega
  · intro a b ea eb ha _ hva _ _
    exact absurd hva (fun hx => hdead a ea ha hx)
  · intro j e hj hv
    exact absurd hv (fun hx => hdead j e hj hx)

theorem SafeInv_growBefore {T : Type} [BarrierSlice T] {s : SubresourceSet T}
    (h : SafeInv s)
    (hcond : s.computeSize = 0 ∨ 10 * s.used < 7 * s.computeSize) :
    SafeInv s.growHashMapBeforeInsert ∧ s.growHashMapBeforeInsert.used ≤ 44 := by
  rcases h.phase with ⟨hmask, hmap, hlist⟩ | ⟨hmask, hlen⟩
  · have hu : s.used = 0 := by
      have h2 := h.usedEq
      rw [hmap] at h2
      simpa using h2
    have hver : 1 ≤ s.version := h.verPos
    rcases s with ⟨v, u, mask, lst, map⟩
    have hmask2 : mask = 0 := hmask
    have hmap2 : map = [] := hmap
    have hlist2 : lst = [] := hlist
    have hu2 : u = 0 := hu
    have hver2 : 1 ≤ v := hver
    subst hmask2 hmap2 hlist2 hu2
    have hgrow : SubresourceSet.growHashMapBeforeInsert
        ({ version := v, used := 0, indexMask := 0, list := [],
           hashMap := [] } : SubresourceSet T)
        = { version := v + 1, used := 0, indexMask := 63, list := [],
            hashMap := List.replicate 64 ⟨0, 0, BarrierSlice.dflt, 0⟩ } := rfl
    rw [hgrow]
    have hdead : ∀ (i : Nat) (e : SubHashEntry T),
        (List.replicate 64 (⟨0, 0, BarrierSlice.dflt, 0⟩ : SubHashEntry T))[i]?
          = some e → e.version = v + 1 → False := by
      intro i e hi hv
      have he2 : e = ⟨0, 0, BarrierSlice.dflt, 0⟩ :=
        List.eq_of_mem_replicate (List.getElem?_mem hi)
      rw [he2] at hv
      dsimp only at hv
      omega
    refine ⟨⟨⟨?_, ?_, ?_, ?_, ?_, ?_⟩, Or.inr ⟨rfl, by simp⟩, ?_, ?_, ?_, ?_⟩, ?_⟩
    · show 1 ≤ v + 1
      omega
    · intro e hmem
      have he2 : e = ⟨0, 0, BarrierSlice.dflt, 0⟩ :=
        List.eq_of_mem_replicate hmem
      rw [he2]
      show (0 : Nat) ≤ v + 1
      omega
    · intro j l hl
      cases hl
    · intro i e hi hv
      exact absurd hv (fun hx => hdead i e hi hx)
    · intro i e hi hv
      exact absurd hv (fun hx => hdead i e hi hx)
    · intro a b ea eb _ ha _ hva _
      exact absurd hva (fun hx => hdead a ea ha hx)
    · show (0 : Nat) = _
      have hf : (List.replicate 64
          (⟨0, 0, BarrierSlice.dflt, 0⟩ : SubHashEntry T)).filter
            (fun e => e.version == v + 1) = [] := by
        rw [List.filter_eq_nil_iff]
        intro e hmem hpe
        rw [List.eq_of_mem_replicate hmem] at hpe
        have h2 : (0 : Nat) = v + 1 := by
          simpa using hpe
        omega
      rw [hf]
      rfl
    · show (0 : Nat) ≤ 45
      omega
    · intro a b ea eb ha _ hva _ _
      exact absurd hva (fun hx => hdead a ea ha hx)
    · intro j e hj hv
      exact absurd hv (fun hx => hdead j e hj hx)
    · show (0 : Nat) ≤ 44
      omega
  · have hcs : s.computeSize = 64 := by
      rw [SubresourceSet.computeSize, hmask]
      simp
    have hu44 : s.used ≤ 44 := by
      rcases hcond with hc | hc
      · rw [hcs] at hc
        omega
      · rw [hcs] at hc
        omega
    have hgrow : s.growHashMapBeforeInsert = s := by
      rw [SubresourceSet.growHashMapBeforeInsert]
      rw [if_neg (by rw [hcs]; omega)]
    rw [hgrow]
    exact ⟨h, hu44⟩

theorem SafeInv_free_step {T : Type} [BarrierSlice T] [LawfulBarrierSlice T]
    {s1 : SubresourceSet T} (h : SafeInv s1) {k : Nat} (q : T) {i : Nat}
    (hu44 : s1.used ≤ 44)
    (hp : SubresourceSet.probeLoop s1 k s1.hashMap.length (s1.computeIndex k)
      = SubresourceSet.ProbeResult.free i) :
    SafeInv { s1 with
        hashMap := s1.hashMap.set i ⟨s1.version, k, q, SubresourceSet.NoEntry⟩,
        used := s1.used + 1 } := by
  obtain ⟨edead, hid, hdv⟩ := probeLoop_free hp
  have hib : i < s1.hashMap.length := (List.getElem?_eq_some.mp hid).1
  have hphase : s1.indexMask = 63 ∧ s1.hashMap.length = 64 := by
    rcases h.phase with ⟨_, hmap, _⟩ | hr
    · rw [hmap] at hid
      cases hid
    · exact hr
  obtain ⟨hmask, hlen⟩ := hphase
  have hnolive := no_live_key_of_free h hlen hmask hp
  have hhome : s1.computeIndex k = SubresourceSet.computeHash k % 64 := by
    rw [SubresourceSet.computeIndex, hmask]
    exact land63_eq_mod _
  have hhb : SubresourceSet.computeHash k % 64 < 64 := Nat.mod_lt _ (by omega)
  obtain ⟨d, hd, hieq, hw⟩ := probeLoop_free_walk hmask k _ _ i
    (by rw [hhome]; exact hhb) hp
  rw [hhome] at hieq hw
  rw [hlen] at hd
  have hlive_pres : ∀ (σ : Nat) (e2 : SubHashEntry T), s1.hashMap[σ]? = some e2 →
      e2.version = s1.version →
      ∃ e3 : SubHashEntry T,
        (s1.hashMap.set i
          (⟨s1.version, k, q, SubresourceSet.NoEntry⟩ : SubHashEntry T))[σ]?
            = some e3
          ∧ e3.version = s1.version := by
    intro σ e2 h2 hv2
    by_cases hσ : σ = i
    · subst hσ
      rw [h2] at hid
      cases hid
      exact absurd hv2 hdv
    · exact ⟨e2, by rw [List.getElem?_set_ne (fun hx => hσ hx.symm)]; exact h2, hv2⟩
  refine ⟨GenInv_path_fresh h.toGenInv i k q, ?_, ?_, ?_, ?_, ?_⟩
  · right
    dsimp only
    exact ⟨hmask, by simpa using hlen⟩
  · dsimp only
    rw [length_filter_set_ft _ s1.hashMap i edead _ hid (by simp [hdv]) (by simp)]
    rw [h.usedEq]
  · dsimp only
    omega
  · intro a b ea eb ha hb hva hvb hkey
    dsimp only at ha hb hva hvb
    by_cases hai : a = i <;> by_cases hbi : b = i
    · rw [hai, hbi]
    · subst hai
      rw [List.getElem?_set_eq hib] at ha
      cases ha
      rw [List.getElem?_set_ne (fun hx => hbi hx.symm)] at hb
      exact absurd hkey.symm (hnolive b eb hb hvb)
    · subst hbi
      rw [List.getElem?_set_eq hib] at hb
      cases hb
      rw [List.getElem?_set_ne (fun hx => hai hx.symm)] at ha
      exact absurd hkey (hnolive a ea ha hva)
    · rw [List.getElem?_set_ne (fun hx => hai hx.symm)] at ha
      rw [List.getElem?_set_ne (fun hx => hbi hx.symm)] at hb
      exact h.keyUniq a b ea eb ha hb hva hvb hkey
  · intro j e hj hv
    dsimp only at hj hv ⊢
    by_cases hji : j = i
    · subst hji
      rw [List.getElem?_set_eq hib] at hj
      cases hj
      intro t ht
      dsimp only at ht ⊢
      have hdist : (j + 64 - SubresourceSet.computeHash k % 64) % 64 = d := by
        omega
      rw [hdist] at ht
      obtain ⟨e2, h2, hv2, _⟩ := hw t ht
      exact hlive_pres _ e2 h2 hv2
    · rw [List.getElem?_set_ne (fun hx => hji hx.symm)] at hj
      intro t ht
      obtain ⟨e2, h2, hv2⟩ := h.pathLive j e hj hv t ht
      exact hlive_pres _ e2 h2 hv2

theorem SafeInv_found_step {T : Type} [BarrierSlice T] {s1 : SubresourceSet T}
    (h : SafeInv s1) {i : Nat} {e e' : SubHashEntry T} (L' : List (SubListEntry T))
    (he : s1.hashMap[i]? = some e) (hv : e.version = s1.version)
    (hv' : e'.version = e.version) (hk' : e'.key = e.key)
    (hG : GenInv { s1 with list := L', hashMap := s1.hashMap.set i e' }) :
    SafeInv { s1 with list := L', hashMap := s1.hashMap.set i e' } := by
  have hib : i < s1.hashMap.length := (List.getElem?_eq_some.mp he).1
  have hphase : s1.indexMask = 63 ∧ s1.hashMap.length = 64 := by
    rcases h.phase with ⟨_, hmap, _⟩ | hr
    · rw [hmap] at he
      cases he
    · exact hr
  have hpres : ∀ (σ : Nat) (e2 : SubHashEntry T),
      s1.hashMap[σ]? = some e2 → e2.version = s1.version →
      ∃ e3 : SubHashEntry T, (s1.hashMap.set i e')[σ]? = some e3
        ∧ e3.version = s1.version ∧ e3.key = e2.key := by
    intro σ e2 h2 hv2
    by_cases hσ : σ = i
    · subst hσ
      rw [h2] at he
      cases he
      exact ⟨e', by rw [List.getElem?_set_eq hib], hv'.trans hv2, hk'⟩
    · exact ⟨e2, by rw [List.getElem?_set_ne (fun hx => hσ hx.symm)]; exact h2,
        hv2, rfl⟩
  have hpres_rev : ∀ (σ : Nat) (e3 : SubHashEntry T),
      (s1.hashMap.set i e')[σ]? = some e3 → e3.version = s1.version →
      ∃ e2 : SubHashEntry T, s1.hashMap[σ]? = some e2
        ∧ e2.version = s1.version ∧ e2.key = e3.key := by
    intro σ e3 h3 hv3
    by_cases hσ : σ = i
    · subst hσ
      rw [List.getElem?_set_eq hib] at h3
      cases h3
      exact ⟨e, he, hv, hk'.symm⟩
    · rw [List.getElem?_set_ne (fun hx => hσ hx.symm)] at h3
      exact ⟨e3, h3, hv3, rfl⟩
  refine ⟨hG, ?_, ?_, h.usedLe, ?_, ?_⟩
  · right
    dsimp only
    exact ⟨hphase.1, by simpa using hphase.2⟩
  · dsimp only
    rw [length_filter_set_tt _ s1.hashMap i e e' he (by simp [hv])
      (by simp [hv'.trans hv])]
    exact h.usedEq
  · intro a b ea eb ha hb hva hvb hkey
    dsimp only at ha hb hva hvb
    obtain ⟨ea2, ha2, hva2, hka2⟩ := hpres_rev a ea ha hva
    obtain ⟨eb2, hb2, hvb2, hkb2⟩ := hpres_rev b eb hb hvb
    exact h.keyUniq a b ea2 eb2 ha2 hb2 hva2 hvb2 (by rw [hka2, hkb2, hkey])
  · intro j e3 hj hv3
    dsimp only at hj hv3 ⊢
    obtain ⟨e2, h2, hv2, hk2⟩ := hpres_rev j e3 hj hv3
    rw [← hk2]
    intro t ht
    obtain ⟨e4, h4, hv4⟩ := h.pathLive j e2 h2 hv2 t ht
    obtain ⟨e5, h5, hv5, _⟩ := hpres _ e4 h4 hv4
    exact ⟨e5, h5, hv5⟩

theorem SafeInv_insert {T : Type} [BarrierSlice T] [LawfulBarrierSlice T]
    {s : SubresourceSet T} (h : SafeInv s) (k : Nat) (q : T)
    (hcond : s.computeSize = 0 ∨ 10 * s.used < 7 * s.computeSize) :
    SafeInv (s.insert k q) := by
  obtain ⟨hS1, hu44⟩ := SafeInv_growBefore h hcond
  obtain ⟨s1, hgrow⟩ : ∃ s1, s.growHashMapBeforeInsert = s1 := ⟨_, rfl⟩
  rw [hgrow] at hS1 hu44
  cases hp : SubresourceSet.probeLoop s1 k s1.hashMap.length (s1.computeIndex k) with
  | fail =>
    rw [insert_eq_of_fail hgrow hp]
    exact hS1
  | free i =>
    rw [insert_eq_of_free hgrow hp]
    exact SafeInv_free_step hS1 q hu44 hp
  | found i =>
    obtain ⟨e, he, hv, hk⟩ := probeLoop_found hp
    cases hnl : SubresourceSet.getListEntryL s1.list e.next with
    | none =>
      cases hcm : BarrierSlice.canMergeB e.data q with
      | true =>
        rw [insert_eq_found_nolist_merge hgrow hp he hnl hcm]
        exact SafeInv_found_step hS1 _ he hv rfl rfl
          (GenInv_path_merge_only hS1.toGenInv he hv hnl q)
      | false =>
        rw [insert_eq_found_nolist_nomerge hgrow hp he hnl hcm]
        exact SafeInv_found_step hS1 _ he hv rfl rfl
          (GenInv_path_double_append hS1.toGenInv he hv hnl q)
    | some l0 =>
      cases himg : BarrierSlice.isImage T with
      | false =>
        rw [insert_eq_found_list_append hgrow hp he hnl (Or.inl himg)]
        exact SafeInv_found_step hS1 _ he hv rfl rfl
          (GenInv_path_single_append hS1.toGenInv he hv q)
      | true =>
        cases hscan : SubresourceSet.scanMergeList s1.list q (s1.list.length + 1)
            e.next with
        | mk lst2 merged =>
          cases merged with
          | false =>
            have hl2 : lst2 = s1.list := scanMergeList_false hscan
            subst hl2
            rw [insert_eq_found_list_append hgrow hp he hnl
              (Or.inr ⟨himg, hscan⟩)]
            exact SafeInv_found_step hS1 _ he hv rfl rfl
              (GenInv_path_single_append hS1.toGenInv he hv q)
          | true =>
            rw [insert_eq_found_list_merged hgrow hp he hnl himg hscan]
            exact SafeInv_found_step hS1 _ he hv rfl rfl
              (GenInv_path_scan_merged hS1.toGenInv he hv hscan)

theorem SafeInv_foldl {T : Type} [BarrierSlice T] [LawfulBarrierSlice T]
    (ops : List (SubOp T)) :
    ∀ s : SubresourceSet T, SafeInv s → growthSafe s ops = true →
      SafeInv (ops.foldl SubOp.apply s) := by
  induction ops with
  | nil =>
    intro s h _
    exact h
  | cons op rest ih =>
    intro s h hsafe
    rw [List.foldl_cons]
    cases op with
    | ins k q =>
      rw [growthSafe] at hsafe
      have h1 : (s.computeSize == 0
            || decide (10 * s.used < 7 * s.computeSize)) = true
          ∧ growthSafe (s.insert k q) rest = true := by
        simpa using hsafe
      have hcond : s.computeSize = 0 ∨ 10 * s.used < 7 * s.computeSize := by
        have := h1.1
        simpa using this
      exact ih _ (SafeInv_insert h k q hcond) h1.2
    | clr =>
      rw [growthSafe] at hsafe
      exact ih _ (SafeInv_clear h) hsafe

theorem SafeInv_runSubOps {T : Type} [BarrierSlice T] [LawfulBarrierSlice T]
    (ops : List (SubOp T)) (hsafe : growthSafe SubresourceSet.init ops = true) :
    SafeInv (runSubOps ops) :=
  SafeInv_foldl ops _ SafeInv_init hsafe

/-! ## getAccess (claim C2) and isDirty (claim C3) -/

/-- C2 (corrected): for every growth-safe operation sequence, `getAccess`
returns the union of the access flags of the slices currently *stored* for
the key that overlap the query (empty when none does).  Two corrections to
the original claim: the union is over the stored slices, not the raw
inserted ones — `insert` merges slices, and an image merge unions aspect
masks, so the stored union can strictly exceed the inserted union (see the
counterexample) — and the sequence must be growth-safe, since a relocating
rehash destroys entries (claim C7). -/
theorem claim_C2 {T : Type} [BarrierSlice T] [LawfulBarrierSlice T]
    (ops : List (SubOp T)) (hsafe : growthSafe SubresourceSet.init ops = true)
    (k : Nat) (q : T) :
    (runSubOps ops).getAccess k q
      = overlapUnion (storedSlices (runSubOps ops) k) q :=
  getAccess_eq_overlapUnion (SafeInv_runSubOps ops hsafe) k q

/-- Witness for C2: the two-insert image sequence is growth-safe and the
theorem's equation holds on it. -/
theorem claim_C2_witness :
    growthSafe SubresourceSet.init opsC2ex = true
      ∧ (runSubOps opsC2ex).getAccess 5 qC2ex
          = overlapUnion (storedSlices (runSubOps opsC2ex) 5) qC2ex :=
  ⟨by decide, claim_C2 opsC2ex (by decide) 5 qC2ex⟩

/-- Counterexample to C2 as stated: after the two image inserts of
`opsC2ex` merge (unioning aspect masks 1 and 2 and mip ranges `[0,1)` and
`[1,2)`), the query `qC2ex` (aspect 2, levels `[0,1)`) overlaps the merged
stored slice, so `getAccess` returns `{Read}`; but neither *inserted* slice
overlaps the query, so the claimed union over inserted slices is empty. -/
theorem claim_C2_counterexample :
    (runSubOps opsC2ex).getAccess 5 qC2ex = ⟨true, false⟩
      ∧ BarrierSlice.overlapsB
          (⟨1, 0, 1, 0, 1, ⟨true, false⟩⟩ : DxvkBarrierImageSlice) qC2ex = false
      ∧ BarrierSlice.overlapsB
          (⟨2, 0, 1, 1, 2, ⟨true, false⟩⟩ : DxvkBarrierImageSlice) qC2ex = false := by
  decide

/-- C3 (corrected): for every growth-safe operation sequence, `isDirty`
returns true iff some slice currently *stored* for the key overlaps the
query and the union of its access flags with the query's contains `Write`.
Corrections as for C2: stored slices instead of inserted ones, and
growth-safety. -/
theorem claim_C3 {T : Type} [BarrierSlice T] [LawfulBarrierSlice T]
    (ops : List (SubOp T)) (hsafe : growthSafe SubresourceSet.init ops = true)
    (k : Nat) (q : T) :
    (runSubOps ops).isDirty k q
      = (storedSlices (runSubOps ops) k).any (fun t =>
          ((BarrierSlice.accessB q).set (BarrierSlice.accessB t)).test
              DxvkAccess.Write
            && BarrierSlice.overlapsB t q) := by
  rw [isDirty_eq_any (SafeInv_runSubOps ops hsafe) k q]
  simp only [LawfulBarrierSlice.dirty_spec]

/-- Witness for C3: the two-insert write-access image sequence is
growth-safe and the theorem's equation holds on it. -/
theorem claim_C3_witness :
    growthSafe SubresourceSet.init opsC3ex = true
      ∧ (runSubOps opsC3ex).isDirty 5 qC3ex
          = (storedSlices (runSubOps opsC3ex) 5).any (fun t =>
              ((BarrierSlice.accessB qC3ex).set (BarrierSlice.accessB t)).test
                  DxvkAccess.Write
                && BarrierSlice.overlapsB t qC3ex) :=
  ⟨by decide, claim_C3 opsC3ex (by decide) 5 qC3ex⟩

/-- Counterexample to C3 as stated: after the two write-access image
inserts of `opsC3ex` merge, `isDirty` reports true for the query `qC3ex`,
yet neither *inserted* slice overlaps the query, so the claimed existential
over inserted slices is false. -/
theorem claim_C3_counterexample :
    (runSubOps opsC3ex).isDirty 5 qC3ex = true
      ∧ BarrierSlice.overlapsB
          (⟨1, 0, 1, 0, 1, ⟨false, true⟩⟩ : DxvkBarrierImageSlice) qC3ex = false
      ∧ BarrierSlice.overlapsB
          (⟨2, 0, 1, 1, 2, ⟨false, true⟩⟩ : DxvkBarrierImageSlice) qC3ex = false := by
  decide

/-! ## The relocating rehash destroys entries (claim C7) -/

set_option maxRecDepth 10000 in
/-- C7 fails: growing the hash table does *not* preserve query semantics.
`growHashMap` runs its relocation loop before updating `m_indexMask`, so
every `computeIndex`/`advanceIndex` during relocation still uses the old
mask, and it dead-marks each scanned slot unconditionally; a relocating
growth therefore destroys or strands most live entries.  Concretely: after
45 inserts of one read slice under the distinct keys 1..45, `getAccess` for
key 2 still returns `{Read}` and `isDirty` against a write slice returns
true; the 46th insert (key 46) triggers the growth from 64 to 128 slots,
after which the same `getAccess` returns the empty flag set and the same
`isDirty` returns false, although key 2 was inserted (the keys are pairwise
distinct, so no merge could have absorbed it). -/
theorem claim_C7_bug :
    ((runSubOps (strandOps.take 45)).getAccess 2
        (⟨0, 16, ⟨true, false⟩⟩ : DxvkBarrierBufferSlice) = ⟨true, false⟩)
      ∧ ((runSubOps strandOps).getAccess 2
          (⟨0, 16, ⟨true, false⟩⟩ : DxvkBarrierBufferSlice) = ⟨false, false⟩)
      ∧ ((runSubOps (strandOps.take 45)).isDirty 2
          (⟨0, 16, ⟨false, true⟩⟩ : DxvkBarrierBufferSlice) = true)
      ∧ ((runSubOps strandOps).isDirty 2
          (⟨0, 16, ⟨false, true⟩⟩ : DxvkBarrierBufferSlice) = false)
      ∧ (SubOp.ins 2 (⟨0, 16, ⟨true, false⟩⟩ : DxvkBarrierBufferSlice))
          ∈ strandOps
      ∧ (strandOps.map (fun op => match op with
          | SubOp.ins k _ => k
          | SubOp.clr => 0)).Nodup := by
  decide

end Dxvk
